import Mathlib

/-!
# XV6 virtual memory with superpages: physical allocator and page tables

A shallow embedding of `kernel/kalloc.c` and `kernel/vm.c`.

* Physical memory is a map from byte addresses to byte values.  Page-table
  entries and free-list links are 64-bit little-endian words in that memory.
* The free list of the allocator is kept exactly as the C code keeps it: a head
  pointer (`kmem.freelist`) and a `next` link stored in the first eight bytes
  of every free page.
* `panic` is the error branch of `Except Fault`.  A loop is a recursion on its own
  counter where it has one, and otherwise on a fuel argument that the caller
  computes from the loop bounds; running out of fuel is the separate fault
  `Fault.fuel`, never a result.
* Unsigned 64-bit arithmetic is natural-number arithmetic reduced modulo `2^64`
  wherever the C expression can wrap.
* The spinlock, `printf` and `fflush` calls have no effect on the modelled state
  and are left out; the model is sequential.
* What a run did is read off by executable observers next to the code: the free
  list by `free_pages`, the leaves `mappages` wrote by the logged copy
  `mappages_log`, the table pages of a tree by `table_pages`.
-/

namespace XV6

/-! ## Machine words and physical memory -/

/-- Two to the power 64, the modulus of `uint64` arithmetic. -/
def W64 : Nat := 2 ^ 64

/-- Addition on `uint64`. -/
def add64 (x y : Nat) : Nat := (x + y) % W64

/-- Subtraction on `uint64` (wraps below zero). -/
def sub64 (x y : Nat) : Nat := (x % W64 + W64 - y % W64) % W64

/-- Physical memory: byte address to byte value. -/
abbrev Mem := Nat → Nat

/-- The C library `memset(dst, c, n)`. -/
def memset (m : Mem) (dst c n : Nat) : Mem :=
  fun x => if dst ≤ x ∧ x < dst + n then c % 256 else m x

/-- The C library `memmove(dst, src, n)`: the `n` bytes at `dst` become the old
bytes at `src` (overlap is handled as `memmove` does). -/
def memmove (m : Mem) (dst src n : Nat) : Mem :=
  fun x => if dst ≤ x ∧ x < dst + n then m (src + (x - dst)) else m x

/-- Load of one byte. -/
def read8 (m : Mem) (a : Nat) : Nat := m a % 256

/-- Store of one byte. -/
def write8 (m : Mem) (a v : Nat) : Mem :=
  fun x => if x = a then v % 256 else m x

/-- Load of a little-endian 64-bit word. -/
def read64 (m : Mem) (a : Nat) : Nat :=
  m a % 256 + m (a + 1) % 256 * 2 ^ 8 + m (a + 2) % 256 * 2 ^ 16
    + m (a + 3) % 256 * 2 ^ 24 + m (a + 4) % 256 * 2 ^ 32 + m (a + 5) % 256 * 2 ^ 40
    + m (a + 6) % 256 * 2 ^ 48 + m (a + 7) % 256 * 2 ^ 56

/-- Store of a little-endian 64-bit word. -/
def write64 (m : Mem) (a v : Nat) : Mem :=
  fun x => if a ≤ x ∧ x < a + 8 then v / 2 ^ (8 * (x - a)) % 256 else m x

/-! ## Constants and macros of `riscv.h`

The header is not among the sources.  The spec fixes the page size, the three
levels of 512 entries and the bit ranges of the indices; the bit positions of the
flags and the two address conversions are those of the xv6 RISC-V header. -/

/-- Modelled from the spec: `riscv.h` is not among the sources.  Bytes per page
("a fixed-size (4096-byte) unit of physical memory"). -/
def PGSIZE : Nat := 4096

/-- Modelled from the spec: `riscv.h` is not among the sources.  `PGROUNDUP(sz)`,
the small-page-aligned ceiling: `((sz) + PGSIZE - 1) & ~(PGSIZE - 1)` on `uint64`. -/
def PGROUNDUP (sz : Nat) : Nat := ((sz + PGSIZE - 1) % W64) / PGSIZE * PGSIZE

/-- Modelled from the spec: `riscv.h` is not among the sources.  `PGROUNDDOWN(a)`,
the small-page-aligned floor: `(a) & ~(PGSIZE - 1)`. -/
def PGROUNDDOWN (a : Nat) : Nat := a / PGSIZE * PGSIZE

/-- Modelled from the spec: `riscv.h` is not among the sources.  Validity bit of a
page-table entry. -/
def PTE_V : Nat := 1

/-- Modelled from the spec: `riscv.h` is not among the sources.  Read permission. -/
def PTE_R : Nat := 2

/-- Modelled from the spec: `riscv.h` is not among the sources.  Write permission. -/
def PTE_W : Nat := 4

/-- Modelled from the spec: `riscv.h` is not among the sources.  Execute permission. -/
def PTE_X : Nat := 8

/-- Modelled from the spec: `riscv.h` is not among the sources.  User-accessible
bit. -/
def PTE_U : Nat := 16

/-- The large-leaf tag, `#define PTE_PS (1L << 7)` at the top of `vm.c`. -/
def PTE_PS : Nat := 128

/-- Modelled from the spec: `riscv.h` is not among the sources.  `PA2PTE(pa)`, the
physical-address field of an entry: `((uint64)pa >> 12) << 10`. -/
def PA2PTE (pa : Nat) : Nat := ((pa % W64) >>> 12) <<< 10

/-- Modelled from the spec: `riscv.h` is not among the sources.  `PTE2PA(pte)`:
`(pte >> 10) << 12` on `uint64`. -/
def PTE2PA (pte : Nat) : Nat := (((pte % W64) >>> 10) <<< 12) % W64

/-- Modelled from the spec: `riscv.h` is not among the sources.  `PTE_FLAGS(pte)`:
the low ten bits. -/
def PTE_FLAGS (pte : Nat) : Nat := pte &&& 0x3FF

/-- Modelled from the spec: `riscv.h` is not among the sources.  `PX(level, va)`, the
nine-bit table index of `va` at `level` (bits 38..30, 29..21, 20..12). -/
def PX (level va : Nat) : Nat := (va >>> (12 + 9 * level)) &&& 0x1FF

/-- Modelled from the spec: `riscv.h` is not among the sources.  `MAXVA`, one bit
less than the 39 bits the three levels can address: `1L << (9 + 9 + 9 + 12 - 1)`. -/
def MAXVA : Nat := 2 ^ 38

/-- The constant `#define MB2SIZE (2 * 1024 * 1024)` of `vm.c`. -/
def MB2SIZE : Nat := 2 * 1024 * 1024

/-- The constant `#define GBSIZE (1 * 1024 * 1024 * 1024)` of `vm.c`. -/
def GBSIZE : Nat := 1 * 1024 * 1024 * 1024

/-! ## Kernel state and faults -/

/-- The ways the modelled code can stop without returning: one constructor per
`panic` call site, and `fuel` for a loop that outran its fuel. -/
inductive Fault where
  | kfree
  | superfree_unaligned
  | kalloc_size_unsupported
  | kfree_superpage_not_aligned
  | kfree_size_unsupported
  | mappages_va_not_aligned
  | mappages_size_not_aligned
  | mappages_size
  | mappages_remap
  | uvmunmap_not_aligned
  | uvmunmap_walk
  | uvmunmap_not_mapped
  | uvmunmap_not_a_leaf
  | uvmclear
  | kvmmap
  | uvmfirst
  | freewalk_leaf
  | uvmcopy_pte_should_exist
  | uvmcopy_page_not_present
  | fuel
  deriving DecidableEq

deriving instance DecidableEq for Except

/-- The state the modelled functions share: the two layout constants (`end` from
the linker script and `PHYSTOP` from `memlayout.h`, neither among the sources, so
both are parameters), the head of the free list `kmem.freelist`, and physical
memory. -/
structure Kernel where
  kernel_end : Nat
  PHYSTOP : Nat
  freelist : Nat
  mem : Mem

/-! ## `kernel/kalloc.c` -/

/-- The function `kfree(pa)`: panic on a misaligned or out-of-range page, fill the
page with junk, link it in front of the free list. -/
def kfree (k : Kernel) (pa : Nat) : Except Fault Kernel :=
  if pa % PGSIZE ≠ 0 ∨ pa < k.kernel_end ∨ pa ≥ k.PHYSTOP then
    .error Fault.kfree
  else
    .ok { k with mem := write64 (memset k.mem pa 1 PGSIZE) pa k.freelist, freelist := pa }

/-- The function `kalloc()`: pop the head of the free list and fill it with junk;
the result `0` means no page. -/
def kalloc (k : Kernel) : Kernel × Nat :=
  let r := k.freelist
  if r ≠ 0 then
    ({ k with freelist := read64 k.mem r, mem := memset k.mem r 5 PGSIZE }, r)
  else
    (k, 0)

/-- The loop of `freerange`: `for(; p + PGSIZE <= pa_end; p += PGSIZE) kfree(p)`. -/
def freerange_loop : Nat → Kernel → Nat → Nat → Except Fault Kernel
  | 0, _, _, _ => .error Fault.fuel
  | fuel + 1, k, p, pa_end =>
    if p + PGSIZE ≤ pa_end then
      match kfree k p with
      | .error e => .error e
      | .ok k1 => freerange_loop fuel k1 (p + PGSIZE) pa_end
    else
      .ok k

/-- The function `freerange(pa_start, pa_end)`. -/
def freerange (k : Kernel) (pa_start pa_end : Nat) : Except Fault Kernel :=
  freerange_loop (pa_end / PGSIZE + 1) k (PGROUNDUP pa_start) pa_end

/-- The function `kinit()`: `freerange(end, PHYSTOP)`. -/
def kinit (k : Kernel) : Except Fault Kernel :=
  freerange k k.kernel_end k.PHYSTOP

/-- The state at boot, before `kinit`: `kmem` is a zero-initialised global. -/
def boot (kernel_end PHYSTOP : Nat) (mem : Mem) : Kernel :=
  { kernel_end := kernel_end, PHYSTOP := PHYSTOP, freelist := 0, mem := mem }

/-- The two roll-back loops of `kalloc_superpage`:
`for (int j = lo; j < hi; j++) kfree(mem + j * PGSIZE)`. -/
def kfree_pages : Nat → Kernel → Nat → Nat → Nat → Except Fault Kernel
  | 0, _, _, _, _ => .error Fault.fuel
  | fuel + 1, k, mem, j, hi =>
    if j < hi then
      match kfree k (mem + j * PGSIZE) with
      | .error e => .error e
      | .ok k1 => kfree_pages fuel k1 mem (j + 1) hi
    else
      .ok k

/-- The main loop of `kalloc_superpage`:
`for (int i = 1; i < (2 * 1024 * 1024) / PGSIZE; i++)`. -/
def kalloc_superpage_loop : Nat → Kernel → Nat → Nat → Except Fault (Kernel × Nat)
  | 0, _, _, _ => .error Fault.fuel
  | fuel + 1, k, mem, i =>
    if i < (2 * 1024 * 1024) / PGSIZE then
      match kalloc k with
      | (k1, page) =>
        if page = 0 then
          match kfree_pages (i + 1) k1 mem 0 i with
          | .error e => .error e
          | .ok k2 => .ok (k2, 0)
        else if page ≠ mem + i * PGSIZE then
          match kfree_pages (i + 2) k1 mem 0 (i + 1) with
          | .error e => .error e
          | .ok k2 => .ok (k2, 0)
        else
          kalloc_superpage_loop fuel k1 mem (i + 1)
    else
      .ok (k, mem)

/-- The function `kalloc_superpage()`. -/
def kalloc_superpage (k : Kernel) : Except Fault (Kernel × Nat) :=
  match kalloc k with
  | (k1, mem) =>
    if mem = 0 then .ok (k1, 0)
    else kalloc_superpage_loop ((2 * 1024 * 1024) / PGSIZE) k1 mem 1

/-- The function `superalloc()`: a block from `kalloc_superpage`, zeroed. -/
def superalloc (k : Kernel) : Except Fault (Kernel × Nat) :=
  match kalloc_superpage k with
  | .error e => .error e
  | .ok (k1, mem) =>
    if mem = 0 then .ok (k1, 0)
    else .ok ({ k1 with mem := memset k1.mem mem 0 (2 * 1024 * 1024) }, mem)

/-- The function `superfree(mem)` of `kalloc.c`. -/
def superfree (k : Kernel) (mem : Nat) : Except Fault Kernel :=
  if mem % (2 * 1024 * 1024) ≠ 0 then .error Fault.superfree_unaligned
  else kfree k mem

/-- The function `kalloc_size(size)`. -/
def kalloc_size (k : Kernel) (size : Nat) : Except Fault (Kernel × Nat) :=
  if size = PGSIZE then .ok (kalloc k)
  else if size = 2 * 1024 * 1024 then kalloc_superpage k
  else .error Fault.kalloc_size_unsupported

/-- The function `kfree_superpage(mem)`. -/
def kfree_superpage (k : Kernel) (mem : Nat) : Except Fault Kernel :=
  if mem % (2 * 1024 * 1024) ≠ 0 then .error Fault.kfree_superpage_not_aligned
  else kfree_pages ((2 * 1024 * 1024) / PGSIZE + 1) k mem 0 ((2 * 1024 * 1024) / PGSIZE)

/-- The function `kfree_size(mem, size)`. -/
def kfree_size (k : Kernel) (mem size : Nat) : Except Fault Kernel :=
  if size = PGSIZE then kfree k mem
  else if size = 2 * 1024 * 1024 then kfree_superpage k mem
  else .error Fault.kfree_size_unsupported

/-! ## `kernel/vm.c` -/

/-- The loop of `walk`, from `level` down to 1, then the address of the level-0
slot.  At each level a valid entry is followed (whatever its other bits), and an
invalid one is either the end of the walk (`alloc` clear, or `kalloc` failed) or
is replaced by a freshly allocated, zeroed table.  The null pointer is `0`. -/
def walk_loop : Nat → Kernel → Nat → Nat → Bool → Kernel × Nat
  | 0, k, pagetable, va, _ => (k, pagetable + 8 * PX 0 va)
  | level + 1, k, pagetable, va, alloc =>
    let pte := pagetable + 8 * PX (level + 1) va
    if read64 k.mem pte &&& PTE_V ≠ 0 then
      walk_loop level k (PTE2PA (read64 k.mem pte)) va alloc
    else if alloc = false then
      (k, 0)
    else
      match kalloc k with
      | (k1, pagetable2) =>
        if pagetable2 = 0 then (k1, 0)
        else
          walk_loop level
            { k1 with mem :=
                (write64 (memset k1.mem pagetable2 0 PGSIZE) pte (PA2PTE pagetable2 ||| PTE_V)) }
            pagetable2 va alloc

/-- The function `walk(pagetable, va, alloc)`: `for(int level = 2; level > 0; level--)`. -/
def walk (k : Kernel) (pagetable va : Nat) (alloc : Bool) : Kernel × Nat :=
  walk_loop 2 k pagetable va alloc

/-- The function `walkaddr(pagetable, va)`. -/
def walkaddr (k : Kernel) (pagetable va : Nat) : Nat :=
  if va ≥ MAXVA then 0
  else
    let pte := (walk k pagetable va false).2
    if pte = 0 then 0
    else if read64 k.mem pte &&& PTE_V = 0 then 0
    else if read64 k.mem pte &&& PTE_U = 0 then 0
    else if read64 k.mem pte &&& PTE_PS ≠ 0 then
      add64 (PTE2PA (read64 k.mem pte)) (va &&& (2 * 1024 * 1024 - 1))
    else PTE2PA (read64 k.mem pte)

/-- The loop `for(;;)` of `mappages`.  The three branches of the C loop have the same
body up to the unit span and the large-leaf tag; `step` and `tag` are those two.
The result is the C return value (`0` or `-1`). -/
def mappages_loop : Nat → Kernel → Nat → Nat → Nat → Nat → Nat → Nat →
    Except Fault (Kernel × Int)
  | 0, _, _, _, _, _, _, _ => .error Fault.fuel
  | fuel + 1, k, pagetable, a, last, pa, perm, pagesize =>
    let room := add64 (sub64 last a) pagesize
    let step := if a % GBSIZE = 0 ∧ room ≥ GBSIZE then GBSIZE
      else if a % MB2SIZE = 0 ∧ room ≥ MB2SIZE then MB2SIZE else PGSIZE
    let tag := if a % GBSIZE = 0 ∧ room ≥ GBSIZE then PTE_PS
      else if a % MB2SIZE = 0 ∧ room ≥ MB2SIZE then PTE_PS else 0
    match walk k pagetable a true with
    | (k1, pte) =>
      if pte = 0 then .ok (k1, -1)
      else if read64 k1.mem pte &&& PTE_V ≠ 0 then .error Fault.mappages_remap
      else
        let k2 : Kernel :=
          { k1 with mem := write64 k1.mem pte (PA2PTE pa ||| perm ||| PTE_V ||| tag) }
        if add64 a step > last then .ok (k2, 0)
        else mappages_loop fuel k2 pagetable (add64 a step) last (add64 pa step) perm pagesize

/-- The function `mappages(pagetable, va, size, pa, perm, pagesize)`.  The C loop
`for(;;)` has no bound of its own: when `va + size` is `2^64` the sum wraps, `a` wraps
to 0 behind the last unit and the loop goes on until `walk` fails or the slot it
returns is valid.  The fuel is two iterations for every 4 KiB of the `uint64`
address space and one more: every iteration moves `a` forward by at least 4 KiB,
and the second time round the address space starts at the address the first time
round started at, where the slot is valid by then. -/
def mappages (k : Kernel) (pagetable va size pa perm pagesize : Nat) :
    Except Fault (Kernel × Int) :=
  if va % pagesize ≠ 0 then .error Fault.mappages_va_not_aligned
  else if size % pagesize ≠ 0 then .error Fault.mappages_size_not_aligned
  else if size = 0 then .error Fault.mappages_size
  else
    mappages_loop (2 * (W64 / PGSIZE) + 1) k pagetable va (sub64 (add64 va size) pagesize)
      pa perm pagesize

/-- The loop `for (a = va; a < end; )` of `uvmunmap`. -/
def uvmunmap_loop : Nat → Kernel → Nat → Nat → Nat → Bool → Except Fault Kernel
  | 0, _, _, _, _, _ => .error Fault.fuel
  | fuel + 1, k, pagetable, a, last, do_free =>
    if a < last then
      let pte := (walk k pagetable a false).2
      if pte = 0 then .error Fault.uvmunmap_walk
      else if read64 k.mem pte &&& PTE_V = 0 then .error Fault.uvmunmap_not_mapped
      else if PTE_FLAGS (read64 k.mem pte) = PTE_V then .error Fault.uvmunmap_not_a_leaf
      else
        let pagesize := if read64 k.mem pte &&& PTE_PS ≠ 0 then 2 * 1024 * 1024 else PGSIZE
        match (if do_free then kfree k (PTE2PA (read64 k.mem pte)) else .ok k) with
        | .error e => .error e
        | .ok k1 =>
          uvmunmap_loop fuel { k1 with mem := write64 k1.mem pte 0 } pagetable
            (add64 a pagesize) last do_free
    else
      .ok k

/-- The function `uvmunmap(pagetable, va, npages, do_free)`. -/
def uvmunmap (k : Kernel) (pagetable va npages : Nat) (do_free : Bool) :
    Except Fault Kernel :=
  if va % PGSIZE ≠ 0 then .error Fault.uvmunmap_not_aligned
  else uvmunmap_loop (npages + 1) k pagetable va (add64 va (npages * PGSIZE % W64)) do_free

/-- The function `uvmcreate()`: a zeroed page from `kalloc`, or `0`. -/
def uvmcreate (k : Kernel) : Kernel × Nat :=
  match kalloc k with
  | (k1, pagetable) =>
    if pagetable = 0 then (k1, 0)
    else ({ k1 with mem := memset k1.mem pagetable 0 PGSIZE }, pagetable)

/-- The loop `for (a = newsz; a < oldsz; a += PGSIZE)` of `uvmdealloc`. -/
def uvmdealloc_loop : Nat → Kernel → Nat → Nat → Nat → Except Fault Kernel
  | 0, _, _, _, _ => .error Fault.fuel
  | fuel + 1, k, pagetable, a, oldsz =>
    if a < oldsz then
      if a % (2 * 1024 * 1024) = 0 ∧ sub64 oldsz a ≥ 2 * 1024 * 1024 then
        match uvmunmap k pagetable a ((2 * 1024 * 1024) / PGSIZE) true with
        | .error e => .error e
        | .ok k1 =>
          uvmdealloc_loop fuel k1 pagetable
            (add64 (add64 a (2 * 1024 * 1024 - PGSIZE)) PGSIZE) oldsz
      else
        match uvmunmap k pagetable a 1 true with
        | .error e => .error e
        | .ok k1 => uvmdealloc_loop fuel k1 pagetable (add64 a PGSIZE) oldsz
    else
      .ok k

/-- The function `uvmdealloc(pagetable, oldsz, newsz)`. -/
def uvmdealloc (k : Kernel) (pagetable oldsz newsz : Nat) : Except Fault (Kernel × Nat) :=
  if newsz ≥ oldsz then .ok (k, oldsz)
  else
    match uvmdealloc_loop (PGROUNDUP oldsz / PGSIZE + 1) k pagetable (PGROUNDUP newsz)
        (PGROUNDUP oldsz) with
    | .error e => .error e
    | .ok k1 => .ok (k1, PGROUNDUP newsz)

/-- The loop `for (a = oldsz; a < newsz; a += PGSIZE)` of `uvmalloc`; the result is
the state and the value of `a` when the loop is left (by its condition or by a
`break`). -/
def uvmalloc_loop : Nat → Kernel → Nat → Nat → Nat → Nat → Except Fault (Kernel × Nat)
  | 0, _, _, _, _, _ => .error Fault.fuel
  | fuel + 1, k, pagetable, a, newsz, xperm =>
    if a < newsz then
      if a % (2 * 1024 * 1024) = 0 ∧ sub64 newsz a ≥ 2 * 1024 * 1024 then
        match superalloc k with
        | .error e => .error e
        | .ok (k1, mem) =>
          if mem = 0 then .ok (k1, a)
          else
            match mappages { k1 with mem := memset k1.mem mem 0 (2 * 1024 * 1024) } pagetable a
                (2 * 1024 * 1024) mem (PTE_R ||| PTE_U ||| xperm) (2 * 1024 * 1024) with
            | .error e => .error e
            | .ok (k2, r) =>
              if r ≠ 0 then
                match superfree k2 mem with
                | .error e => .error e
                | .ok k3 => .ok (k3, a)
              else
                uvmalloc_loop fuel k2 pagetable
                  (add64 (add64 a (2 * 1024 * 1024 - PGSIZE)) PGSIZE) newsz xperm
      else
        match kalloc k with
        | (k1, mem) =>
          if mem = 0 then .ok (k1, a)
          else
            match mappages { k1 with mem := memset k1.mem mem 0 PGSIZE } pagetable a PGSIZE mem
                (PTE_R ||| PTE_U ||| xperm) PGSIZE with
            | .error e => .error e
            | .ok (k2, r) =>
              if r ≠ 0 then
                match kfree k2 mem with
                | .error e => .error e
                | .ok k3 => .ok (k3, a)
              else
                uvmalloc_loop fuel k2 pagetable (add64 a PGSIZE) newsz xperm
    else
      .ok (k, a)

/-- The function `uvmalloc(pagetable, oldsz, newsz, xperm)`.  On a failed step the C
code calls `uvmdealloc(pagetable, alloc_start, oldsz)` with `alloc_start` the
original `oldsz` and `oldsz` its page-aligned ceiling, and returns `0`. -/
def uvmalloc (k : Kernel) (pagetable oldsz newsz xperm : Nat) : Except Fault (Kernel × Nat) :=
  if newsz < oldsz then .ok (k, oldsz)
  else
    match uvmalloc_loop (newsz / PGSIZE + 2) k pagetable (PGROUNDUP oldsz) newsz xperm with
    | .error e => .error e
    | .ok (k1, a) =>
      if a < newsz then
        match uvmdealloc k1 pagetable oldsz (PGROUNDUP oldsz) with
        | .error e => .error e
        | .ok (k2, _) => .ok (k2, 0)
      else
        .ok (k1, newsz)

/-- The function `uvmclear(pagetable, va)`: clear `PTE_U` in the entry of `va`. -/
def uvmclear (k : Kernel) (pagetable va : Nat) : Except Fault Kernel :=
  let pte := (walk k pagetable va false).2
  if pte = 0 then .error Fault.uvmclear
  else
    .ok { k with mem := (write64 k.mem pte (read64 k.mem pte &&& (W64 - 1 - PTE_U))) }

/-- The loop `while (len > 0)` of `copyout`. -/
def copyout_loop : Nat → Kernel → Nat → Nat → Nat → Nat → Except Fault (Kernel × Int)
  | 0, _, _, _, _, _ => .error Fault.fuel
  | fuel + 1, k, pagetable, dstva, src, len =>
    if len > 0 then
      let va0 := PGROUNDDOWN dstva
      let pte := (walk k pagetable va0 false).2
      if pte = 0 ∨ read64 k.mem pte &&& PTE_V = 0 then .ok (k, -1)
      else
        let pa := PTE2PA (read64 k.mem pte)
        let pagesize := if read64 k.mem pte &&& PTE_PS ≠ 0 then 2 * 1024 * 1024 else PGSIZE
        let n := if sub64 pagesize (sub64 dstva va0) > len then len
          else sub64 pagesize (sub64 dstva va0)
        copyout_loop fuel { k with mem := memmove k.mem (add64 pa (sub64 dstva va0)) src n }
          pagetable (add64 va0 pagesize) (src + n) (sub64 len n)
    else
      .ok (k, 0)

/-- The function `copyout(pagetable, dstva, src, len)`; `src` is a kernel address. -/
def copyout (k : Kernel) (pagetable dstva src len : Nat) : Except Fault (Kernel × Int) :=
  copyout_loop (len + 1) k pagetable dstva src len

/-- The loop `while (len > 0)` of `copyin`. -/
def copyin_loop : Nat → Kernel → Nat → Nat → Nat → Nat → Except Fault (Kernel × Int)
  | 0, _, _, _, _, _ => .error Fault.fuel
  | fuel + 1, k, pagetable, dst, srcva, len =>
    if len > 0 then
      let va0 := PGROUNDDOWN srcva
      let pte := (walk k pagetable va0 false).2
      if pte = 0 ∨ read64 k.mem pte &&& PTE_V = 0 then .ok (k, -1)
      else
        let pa := PTE2PA (read64 k.mem pte)
        let pagesize := if read64 k.mem pte &&& PTE_PS ≠ 0 then 2 * 1024 * 1024 else PGSIZE
        let n := if sub64 pagesize (sub64 srcva va0) > len then len
          else sub64 pagesize (sub64 srcva va0)
        copyin_loop fuel { k with mem := memmove k.mem dst (add64 pa (sub64 srcva va0)) n }
          pagetable (dst + n) (add64 va0 pagesize) (sub64 len n)
    else
      .ok (k, 0)

/-- The function `copyin(pagetable, dst, srcva, len)`; `dst` is a kernel address. -/
def copyin (k : Kernel) (pagetable dst srcva len : Nat) : Except Fault (Kernel × Int) :=
  copyin_loop (len + 1) k pagetable dst srcva len

/-- The inner loop `while (n > 0)` of `copyinstr`, by recursion on `n`; the result is
the memory, `dst`, `max` and `got_null` when the loop is left. -/
def copyinstr_bytes : Nat → Mem → Nat → Nat → Nat → Mem × Nat × Nat × Bool
  | 0, m, dst, _, max => (m, dst, max, false)
  | n + 1, m, dst, p, max =>
    if read8 m p = 0 then (write8 m dst 0, dst, max, true)
    else copyinstr_bytes n (write8 m dst (read8 m p)) (dst + 1) (p + 1) (sub64 max 1)

/-- The loop `while (got_null == 0 && max > 0)` of `copyinstr`. -/
def copyinstr_loop : Nat → Kernel → Nat → Nat → Nat → Nat → Bool →
    Except Fault (Kernel × Int)
  | 0, _, _, _, _, _, _ => .error Fault.fuel
  | fuel + 1, k, pagetable, dst, srcva, max, got_null =>
    if got_null = false ∧ max > 0 then
      let va0 := PGROUNDDOWN srcva
      let pte := (walk k pagetable va0 false).2
      if pte = 0 ∨ read64 k.mem pte &&& PTE_V = 0 then .ok (k, -1)
      else
        let pa0 := PTE2PA (read64 k.mem pte)
        let pagesize := if read64 k.mem pte &&& PTE_PS ≠ 0 then 2 * 1024 * 1024 else PGSIZE
        let n := if sub64 pagesize (sub64 srcva va0) > max then max
          else sub64 pagesize (sub64 srcva va0)
        match copyinstr_bytes n k.mem dst (add64 pa0 (sub64 srcva va0)) max with
        | (m1, dst1, max1, got1) =>
          copyinstr_loop fuel { k with mem := m1 } pagetable dst1 (add64 va0 pagesize) max1 got1
    else
      .ok (k, if got_null then 0 else -1)

/-- The function `copyinstr(pagetable, dst, srcva, max)`; `dst` is a kernel address. -/
def copyinstr (k : Kernel) (pagetable dst srcva max : Nat) : Except Fault (Kernel × Int) :=
  copyinstr_loop (max + 1) k pagetable dst srcva max false

/-- The function `kvmmap(kpgtbl, va, pa, sz, perm)`: `mappages` with 4 KiB as the
smallest unit, and a panic when it fails. -/
def kvmmap (k : Kernel) (kpgtbl va pa sz perm : Nat) : Except Fault Kernel :=
  match mappages k kpgtbl va sz pa perm PGSIZE with
  | .error e => .error e
  | .ok (k1, r) => if r ≠ 0 then .error Fault.kvmmap else .ok k1

/-- The function `uvmfirst(pagetable, src, sz)`: one zeroed page mapped at virtual
address 0 and filled with the `sz` bytes at the kernel address `src`.  The C code
does not test what `kalloc` and `mappages` return. -/
def uvmfirst (k : Kernel) (pagetable src sz : Nat) : Except Fault Kernel :=
  if sz ≥ PGSIZE then .error Fault.uvmfirst
  else
    match kalloc k with
    | (k1, mem) =>
      match mappages { k1 with mem := memset k1.mem mem 0 PGSIZE } pagetable 0 PGSIZE mem
          (PTE_W ||| PTE_R ||| PTE_X ||| PTE_U) PGSIZE with
      | .error e => .error e
      | .ok (k2, _) => .ok { k2 with mem := memmove k2.mem mem src sz }

/-- The loop `for(int i = 0; i < 512; i++)` of `freewalk` on the table `pagetable`, by
recursion on the number of slots still to visit; `child` is the recursive call of
`freewalk`.  A valid slot without read, write and execute bits is followed and
cleared; another valid slot is freed with one `kfree` when it carries `PTE_PS` and
is the panic "freewalk: leaf" when it does not. -/
def freewalk_loop (child : Kernel → Nat → Except Fault Kernel) :
    Nat → Kernel → Nat → Nat → Except Fault Kernel
  | 0, k, _, _ => .ok k
  | n + 1, k, pagetable, i =>
    if read64 k.mem (pagetable + 8 * i) &&& PTE_V ≠ 0 ∧
        read64 k.mem (pagetable + 8 * i) &&& (PTE_R ||| PTE_W ||| PTE_X) = 0 then
      match child k (PTE2PA (read64 k.mem (pagetable + 8 * i))) with
      | .error e => .error e
      | .ok k1 =>
        freewalk_loop child n { k1 with mem := write64 k1.mem (pagetable + 8 * i) 0 }
          pagetable (i + 1)
    else if read64 k.mem (pagetable + 8 * i) &&& PTE_V ≠ 0 then
      if read64 k.mem (pagetable + 8 * i) &&& PTE_PS ≠ 0 then
        match kfree k (PTE2PA (read64 k.mem (pagetable + 8 * i))) with
        | .error e => .error e
        | .ok k1 => freewalk_loop child n k1 pagetable (i + 1)
      else .error Fault.freewalk_leaf
    else
      freewalk_loop child n k pagetable (i + 1)

/-- The function `freewalk(pagetable)`.  The C function recurses without a bound;
`depth` is the number of nested calls allowed, and a call beyond it is the fault
`Fault.fuel`. -/
def freewalk : Nat → Kernel → Nat → Except Fault Kernel
  | 0, _, _ => .error Fault.fuel
  | depth + 1, k, pagetable =>
    match freewalk_loop (freewalk depth) 512 k pagetable 0 with
    | .error e => .error e
    | .ok k1 => kfree k1 pagetable

/-- The function `uvmfree(pagetable, sz)`; `depth` is the recursion allowance of
`freewalk`. -/
def uvmfree (depth : Nat) (k : Kernel) (pagetable sz : Nat) : Except Fault Kernel :=
  if sz > 0 then
    match uvmunmap k pagetable 0 (PGROUNDUP sz / PGSIZE) true with
    | .error e => .error e
    | .ok k1 => freewalk depth k1 pagetable
  else freewalk depth k pagetable

/-- The label `err` of `uvmcopy`: `uvmunmap(new, 0, i / PGSIZE, 1)` and the result -1. -/
def uvmcopy_err (k : Kernel) (new i : Nat) : Except Fault (Kernel × Int) :=
  match uvmunmap k new 0 (i / PGSIZE) true with
  | .error e => .error e
  | .ok k1 => .ok (k1, -1)

/-- The loop `for (i = 0; i < sz; i += pagesize)` of `uvmcopy`. -/
def uvmcopy_loop : Nat → Kernel → Nat → Nat → Nat → Nat → Except Fault (Kernel × Int)
  | 0, _, _, _, _, _ => .error Fault.fuel
  | fuel + 1, k, old, new, i, sz =>
    if i < sz then
      let pte := (walk k old i false).2
      if pte = 0 then .error Fault.uvmcopy_pte_should_exist
      else if read64 k.mem pte &&& PTE_V = 0 then .error Fault.uvmcopy_page_not_present
      else
        let pa := PTE2PA (read64 k.mem pte)
        let flags := PTE_FLAGS (read64 k.mem pte)
        let pagesize := if read64 k.mem pte &&& PTE_PS ≠ 0 then 2 * 1024 * 1024 else PGSIZE
        match kalloc_size k pagesize with
        | .error e => .error e
        | .ok (k1, mem) =>
          if mem = 0 then uvmcopy_err k1 new i
          else
            match mappages { k1 with mem := memmove k1.mem mem pa pagesize } new i pagesize
                mem flags pagesize with
            | .error e => .error e
            | .ok (k2, r) =>
              if r ≠ 0 then
                match kfree_size k2 mem pagesize with
                | .error e => .error e
                | .ok k3 => uvmcopy_err k3 new i
              else uvmcopy_loop fuel k2 old new (add64 i pagesize) sz
    else
      .ok (k, 0)

/-- The function `uvmcopy(old, new, sz)`.  The fuel is one iteration for every
started page of `sz` and one more for the test that ends the loop. -/
def uvmcopy (k : Kernel) (old new sz : Nat) : Except Fault (Kernel × Int) :=
  uvmcopy_loop (sz / PGSIZE + 2) k old new 0 sz

/-! ## Observing the allocator -/

/-- The pages on the free list, head first: follow `next` from `kmem.freelist`
until the null pointer (at most `fuel` nodes). -/
def free_pages (m : Mem) : Nat → Nat → List Nat
  | 0, _ => []
  | fuel + 1, h => if h = 0 then [] else h :: free_pages m fuel (read64 m h)

/-- The free list as a relation: `FreeChain m h l` says that following `next` from
the head pointer `h` in memory `m` visits exactly the pages `l`, in that order, and
then reaches the null pointer. -/
def FreeChain (m : Mem) : Nat → List Nat → Prop
  | h, [] => h = 0
  | h, p :: l => h = p ∧ p ≠ 0 ∧ FreeChain m (read64 m p) l

/-- One step of a client of the allocator: a call of `kalloc`, a call of `kfree` on
a page, or a byte written at offset `off` of a page the client holds. -/
inductive Op where
  | kalloc
  | kfree (pa : Nat)
  | store (pa off val : Nat)

/-- Run a sequence of client steps from state `k`, keeping the list `live` of pages
that `kalloc` returned and that were not freed since.  The run is `none` when a
step is not allowed (a `kfree` or a `store` on a page that is not live) or when
`kfree` panics. -/
def run_ops : List Op → Kernel → List Nat → Option (Kernel × List Nat)
  | [], k, live => some (k, live)
  | Op.kalloc :: ops, k, live =>
    match kalloc k with
    | (k1, r) => if r = 0 then run_ops ops k1 live else run_ops ops k1 (r :: live)
  | Op.kfree pa :: ops, k, live =>
    if pa ∈ live then
      match kfree k pa with
      | .error _ => none
      | .ok k1 => run_ops ops k1 (live.erase pa)
    else none
  | Op.store pa off val :: ops, k, live =>
    if pa ∈ live ∧ off < PGSIZE then
      run_ops ops { k with mem := write8 k.mem (pa + off) val } live
    else none

/-- The allocator invariant: the free list is the duplicate-free chain `l` of
page-aligned pages lying inside `[kend, phystop)`, the live pages are pairwise
different pages of the same range, and no live page is on the free list. -/
structure AllocInv (kend phystop : Nat) (k : Kernel) (live l : List Nat) : Prop where
  hend : k.kernel_end = kend
  htop : k.PHYSTOP = phystop
  chain : FreeChain k.mem k.freelist l
  nodup : l.Nodup
  range : ∀ p ∈ l, p % PGSIZE = 0 ∧ kend ≤ p ∧ p + PGSIZE ≤ phystop
  live_nodup : live.Nodup
  live_range : ∀ p ∈ live, p ≠ 0 ∧ p % PGSIZE = 0 ∧ kend ≤ p ∧ p + PGSIZE ≤ phystop
  disjoint : ∀ p ∈ live, p ∉ l

/-- The link stored in page `i` of an ascending run of `n` free pages that starts
at `base` and continues at `nxt`. -/
def run_link (base nxt n i : Nat) : Nat :=
  if i + 1 = n then nxt else base + (i + 1) * PGSIZE

/-- Memory in which the `n` pages from `base` upwards are free pages linked in
ascending address order (the link, then junk bytes 1, as `kfree` leaves a page when
the pages are freed from the highest address down), the last one linked to `nxt`;
the other addresses are as in `m`. -/
def run_mem (m : Mem) (base nxt n : Nat) : Mem :=
  fun x =>
    if base ≤ x ∧ x < base + n * PGSIZE then
      if (x - base) % PGSIZE < 8 then
        run_link base nxt n ((x - base) / PGSIZE) / 2 ^ (8 * ((x - base) % PGSIZE)) % 256
      else 1
    else m x

/-- The links of an ascending run of `n` free pages, as read from memory. -/
def AscRun (m : Mem) (base nxt n : Nat) : Prop :=
  ∀ i, i < n → read64 m (base + i * PGSIZE) = run_link base nxt n i

/-! ## Concrete machines and runs -/

/-- Memory that is zero everywhere. -/
def zero_mem : Mem := fun _ => 0

/-- A run of `uvmalloc` that fails half way.  The machine has six pages of RAM
behind the kernel; `uvmcreate` takes one, growing the address space to one page
takes three more (the page and two table pages), and the second `uvmalloc`, from
one page to four, finds only two free pages.  The result lists: the free pages
before the second call, the translation of the second virtual page before the call,
the value the second call returns, the free pages after it, and the translations of
the second and third virtual page after it. -/
def growth_rollback_run : Except Fault (List Nat × Nat × Nat × List Nat × Nat × Nat) := do
  let k0 ← kinit (boot 0x80000000 0x80006000 zero_mem)
  let (k1, pagetable) := uvmcreate k0
  let (k2, sz) ← uvmalloc k1 pagetable 0 PGSIZE PTE_W
  let (k3, r) ← uvmalloc k2 pagetable sz (4 * PGSIZE) PTE_W
  pure (free_pages k2.mem 16 k2.freelist, walkaddr k2 pagetable PGSIZE, r,
    free_pages k3.mem 16 k3.freelist, walkaddr k3 pagetable PGSIZE,
    walkaddr k3 pagetable (2 * PGSIZE))

/-- The machine of the superpage growth run before the block is put on the free
list: three free pages, of which `uvmcreate` takes the highest as the (empty) top
table.  The result is the state and the top table. -/
def grow_base : Kernel × Nat :=
  match freerange (boot 0x80000000 0x80600000 zero_mem) 0x80000000 0x80003000 with
  | .ok k => uvmcreate k
  | .error _ => (boot 0x80000000 0x80600000 zero_mem, 0)

/-- The machine of the superpage growth run: on top of `grow_base`, the 512 pages of
the 2 MiB block at `0x80200000` are on the free list in ascending address order,
followed by the two pages that `grow_base` left free. -/
def grow_state : Kernel :=
  ⟨0x80000000, 0x80600000, 0x80200000,
    run_mem grow_base.1.mem 0x80200000 grow_base.1.freelist 512⟩

/-- A run of `mappages` over one 2 MiB-aligned region of 2 MiB in an empty table,
with a user permission.  The result lists: the value `mappages` returns and the
translations by `walkaddr` of the first, the second and the last 4 KiB page of the
region. -/
def large_leaf_translate_run : Except Fault (Int × Nat × Nat × Nat) := do
  let k0 ← kinit (boot 0x80000000 0x80003000 zero_mem)
  let (k1, pagetable) := uvmcreate k0
  let (k2, r) ← mappages k1 pagetable 0 MB2SIZE 0x40000000 (PTE_R ||| PTE_U) PGSIZE
  pure (r, walkaddr k2 pagetable 0, walkaddr k2 pagetable PGSIZE,
    walkaddr k2 pagetable (MB2SIZE - PGSIZE))

/-- A run of the three copy functions on a guard page.  One user page is mapped at
virtual address 0 and `uvmclear` then takes the user bit from it, as `exec` does for
the stack guard page; `buf` is a kernel page.  The result lists: the flags of the
leaf of address 0, its translation by `walkaddr`, and the values returned by
`copyout`, `copyin` and `copyinstr` for eight bytes at user address 0. -/
def guard_page_copy_run : Except Fault (Nat × Nat × Int × Int × Int) := do
  let k0 ← kinit (boot 0x80000000 0x80006000 zero_mem)
  let (k1, pagetable) := uvmcreate k0
  let (k2, _) ← uvmalloc k1 pagetable 0 PGSIZE PTE_W
  let k3 ← uvmclear k2 pagetable 0
  let (k4, buf) := kalloc k3
  let (_, r1) ← copyout k4 pagetable 0 buf 8
  let (_, r2) ← copyin k4 pagetable buf 0 8
  let (_, r3) ← copyinstr k4 pagetable buf 0 8
  pure (PTE_FLAGS (read64 k4.mem (walk k4 pagetable 0 false).2), walkaddr k4 pagetable 0,
    r1, r2, r3)

/-- A map, unmap, map again run over `size` bytes at virtual address 0 of an empty
table, with 4 KiB as the smallest unit and without freeing.  The result is the value
the first `mappages` returns, and then either the fault that stopped the rest of the
run or the value the second `mappages` returns. -/
def round_trip_run (size : Nat) : Except Fault (Int × Except Fault Int) := do
  let k0 ← kinit (boot 0x80000000 0x80003000 zero_mem)
  let (k1, pagetable) := uvmcreate k0
  let (k2, r1) ← mappages k1 pagetable 0 size 0x40000000 (PTE_R ||| PTE_W) PGSIZE
  pure (r1, do
    let k3 ← uvmunmap k2 pagetable 0 (size / PGSIZE) false
    let (_, r2) ← mappages k3 pagetable 0 size 0x40000000 (PTE_R ||| PTE_W) PGSIZE
    pure r2)

/-- A run of `uvmunmap` with `do_free` set over a 2 MiB large leaf.  Three pages are
free and become the tables; the 2 MiB block at `0x80000000` is mapped at virtual
address 0 by the call of `mappages` that `uvmalloc` makes for a block, and is then
unmapped as `uvmdealloc` does.  The result lists: the value `mappages` returns, the
free pages before `uvmunmap` and the free pages after it. -/
def large_leaf_unmap_run : Except Fault (Int × List Nat × List Nat) := do
  let k0 ← freerange (boot 0x80000000 0x80400000 zero_mem) 0x80200000 0x80203000
  let (k1, pagetable) := uvmcreate k0
  let (k2, r) ← mappages k1 pagetable 0 (2 * 1024 * 1024) 0x80000000
    (PTE_R ||| PTE_U ||| PTE_W) (2 * 1024 * 1024)
  let k3 ← uvmunmap k2 pagetable 0 ((2 * 1024 * 1024) / PGSIZE) true
  pure (r, free_pages k2.mem 600 k2.freelist, free_pages k3.mem 600 k3.freelist)

/-- A run of `kalloc_superpage` on a free list of two pages that are not
neighbours: `0x80001000`, then `0x80005000`.  The result lists: the free pages
before the call, the value the call returns and the free pages after it. -/
def scattered_block_run : Except Fault (List Nat × Nat × List Nat) := do
  let k0 ← kfree (boot 0x80000000 0x80400000 zero_mem) 0x80005000
  let k1 ← kfree k0 0x80001000
  let (k2, r) ← kalloc_superpage k1
  pure (free_pages k1.mem 16 k1.freelist, r, free_pages k2.mem 16 k2.freelist)

/-- An allocator whose free list is the 512 pages from `0x80001000` upwards, in
ascending address order: a physically contiguous run of 2 MiB that starts one page
after a 2 MiB boundary. -/
def unaligned_run_state : Kernel :=
  ⟨0x80000000, 0x80400000, 0x80001000, run_mem zero_mem 0x80001000 0 512⟩

/-- The allocator right after `kinit` on three pages of RAM. -/
def demo_kinit : Kernel :=
  match kinit (boot 0x80000000 0x80003000 zero_mem) with
  | .ok k => k
  | .error _ => boot 0x80000000 0x80003000 zero_mem

/-- A client run: two pages allocated, the first one freed, a byte stored in the
second, and three more allocations, the last of which finds the list empty. -/
def demo_ops : List Op :=
  [Op.kalloc, Op.kalloc, Op.kfree 0x80002000, Op.store 0x80001000 8 255,
    Op.kalloc, Op.kalloc, Op.kalloc]

/-- The state and the live pages after `demo_ops`. -/
def demo_final : Kernel × List Nat :=
  match run_ops demo_ops demo_kinit [] with
  | some r => r
  | none => (demo_kinit, [])

/-! ## The leaves `mappages` writes -/

/-- The loop of `mappages` with a log: the same steps as `mappages_loop`, and in
addition the list of the leaves written, oldest first, each as the virtual address
`a` of the unit, the address of the slot, the entry stored there and the span of
the unit (`GBSIZE`, `MB2SIZE` or `PGSIZE`). -/
def mappages_log_loop : Nat → Kernel → Nat → Nat → Nat → Nat → Nat → Nat →
    Except Fault (Kernel × Int × List (Nat × Nat × Nat × Nat))
  | 0, _, _, _, _, _, _, _ => .error Fault.fuel
  | fuel + 1, k, pagetable, a, last, pa, perm, pagesize =>
    let room := add64 (sub64 last a) pagesize
    let step := if a % GBSIZE = 0 ∧ room ≥ GBSIZE then GBSIZE
      else if a % MB2SIZE = 0 ∧ room ≥ MB2SIZE then MB2SIZE else PGSIZE
    let tag := if a % GBSIZE = 0 ∧ room ≥ GBSIZE then PTE_PS
      else if a % MB2SIZE = 0 ∧ room ≥ MB2SIZE then PTE_PS else 0
    match walk k pagetable a true with
    | (k1, pte) =>
      if pte = 0 then .ok (k1, -1, [])
      else if read64 k1.mem pte &&& PTE_V ≠ 0 then .error Fault.mappages_remap
      else
        let k2 : Kernel :=
          { k1 with mem := write64 k1.mem pte (PA2PTE pa ||| perm ||| PTE_V ||| tag) }
        if add64 a step > last then
          .ok (k2, 0, [(a, pte, PA2PTE pa ||| perm ||| PTE_V ||| tag, step)])
        else
          match mappages_log_loop fuel k2 pagetable (add64 a step) last (add64 pa step) perm
              pagesize with
          | .error e => .error e
          | .ok (k3, r, log) =>
            .ok (k3, r, (a, pte, PA2PTE pa ||| perm ||| PTE_V ||| tag, step) :: log)

/-- The function `mappages` with the log of `mappages_log_loop`, on the same fuel. -/
def mappages_log (k : Kernel) (pagetable va size pa perm pagesize : Nat) :
    Except Fault (Kernel × Int × List (Nat × Nat × Nat × Nat)) :=
  if va % pagesize ≠ 0 then .error Fault.mappages_va_not_aligned
  else if size % pagesize ≠ 0 then .error Fault.mappages_size_not_aligned
  else if size = 0 then .error Fault.mappages_size
  else
    mappages_log_loop (2 * (W64 / PGSIZE) + 1) k pagetable va (sub64 (add64 va size) pagesize)
      pa perm pagesize

/-- An empty page table: none of the 512 slots of the page is valid. -/
def EmptyTable (m : Mem) (pagetable : Nat) : Prop :=
  ∀ i, i < 512 → read64 m (pagetable + 8 * i) &&& PTE_V = 0

/-- What holds of one logged leaf `r` of a `mappages` call with arguments `va` and
`pa`: the entry is valid and holds a 4 KiB-aligned address, the span is one of the
three unit sizes, and a large unit is tagged `PTE_PS`, starts at a multiple of its
span and, when `pa` and `va` are congruent modulo the span, holds a multiple of
its span. -/
def LeafOk (va pa : Nat) (r : Nat × Nat × Nat × Nat) : Prop :=
  r.2.2.1 &&& PTE_V ≠ 0 ∧ PTE2PA r.2.2.1 % PGSIZE = 0 ∧
  (r.2.2.2 = PGSIZE ∨ r.2.2.2 = MB2SIZE ∨ r.2.2.2 = GBSIZE) ∧
  (r.2.2.2 = MB2SIZE ∨ r.2.2.2 = GBSIZE →
    r.2.2.1 &&& PTE_PS ≠ 0 ∧ r.1 % r.2.2.2 = 0 ∧
    (pa % r.2.2.2 = va % r.2.2.2 → PTE2PA r.2.2.1 % r.2.2.2 = 0))

/-! ## Machines and runs for the later claims -/

/-- A run of `uvmcopy` that fails in the allocator.  The source address space has one
2 MiB large leaf at virtual address 0, backed by the block at `0x80200000`, and the
byte `0xAB` at offset 100 of that block; the destination table is empty; the free
list is `0x801ff000, 0x80005000`.  The result lists: the value `uvmcopy` returns, the
byte at offset 100 of the source block before and after the call, and the free pages
before and after the call. -/
def clone_failure_run : Except Fault (Int × Nat × Nat × List Nat × List Nat) := do
  let k0 ← freerange (boot 0x80000000 0x80400000 zero_mem) 0x80000000 0x80004000
  let (k1, old) := uvmcreate k0
  let (k2, _) ← mappages k1 old 0 (2 * 1024 * 1024) 0x80200000
    (PTE_R ||| PTE_U ||| PTE_W) (2 * 1024 * 1024)
  let (k3, new) := uvmcreate k2
  let k4 : Kernel := { k3 with mem := write8 k3.mem 0x80200064 0xAB }
  let k5 ← kfree k4 0x80005000
  let k6 ← kfree k5 0x801ff000
  let (k7, r) ← uvmcopy k6 old new (2 * 1024 * 1024)
  pure (r, read8 k6.mem 0x80200064, read8 k7.mem 0x80200064,
    free_pages k6.mem 16 k6.freelist, free_pages k7.mem 16 k7.freelist)

/-- A run of `uvmdealloc` with a new size that is not a multiple of the page size: two
pages are mapped and the size goes from 8192 to 100.  The result lists: the size
before, the value `uvmdealloc` returns, and the translation of the second page after
the call. -/
def shrink_result_run : Except Fault (Nat × Nat × Nat) := do
  let k0 ← kinit (boot 0x80000000 0x80006000 zero_mem)
  let (k1, pagetable) := uvmcreate k0
  let (k2, sz) ← uvmalloc k1 pagetable 0 (2 * PGSIZE) PTE_W
  let (k3, r) ← uvmdealloc k2 pagetable sz 100
  pure (sz, r, walkaddr k3 pagetable PGSIZE)

/-- A run of `walkaddr` on addresses that are not page-aligned: `mappages` maps
2 MiB + 4 KiB at virtual address 0 to `0x40000000`, which gives one large leaf and,
behind it, one small leaf.  The result lists: the value `mappages` returns and the
translations of `0x123` (inside the large leaf), of 2 MiB (the small leaf) and of
2 MiB + `0x123`. -/
def offset_translate_run : Except Fault (Int × Nat × Nat × Nat) := do
  let k0 ← kinit (boot 0x80000000 0x80004000 zero_mem)
  let (k1, pagetable) := uvmcreate k0
  let (k2, r) ← mappages k1 pagetable 0 (MB2SIZE + PGSIZE) 0x40000000 (PTE_R ||| PTE_U) PGSIZE
  pure (r, walkaddr k2 pagetable 0x123, walkaddr k2 pagetable MB2SIZE,
    walkaddr k2 pagetable (MB2SIZE + 0x123))

/-- The machine of the logged `mappages` runs: four pages of RAM after `kinit`, of
which `uvmcreate` takes the highest as the empty top table.  The result is the state
and the top table. -/
def map_base : Kernel × Nat :=
  match kinit (boot 0x80000000 0x80004000 zero_mem) with
  | .ok k => uvmcreate k
  | .error _ => (boot 0x80000000 0x80004000 zero_mem, 0)

/-- The logged `mappages` call with a physical address one page above a 2 MiB
boundary: 2 MiB at virtual address 0 to `0x40001000`. -/
def unaligned_leaf_log : Except Fault (Kernel × Int × List (Nat × Nat × Nat × Nat)) :=
  mappages_log map_base.1 map_base.2 0 MB2SIZE 0x40001000 (PTE_R ||| PTE_W) PGSIZE

/-- The result of the logged `mappages` call for 2 MiB + 4 KiB at virtual address
2 MiB to the physical address `0x40200000`: the final state, the return value and
the log. -/
def aligned_leaf_log : Kernel × Int × List (Nat × Nat × Nat × Nat) :=
  match mappages_log map_base.1 map_base.2 MB2SIZE (MB2SIZE + PGSIZE) 0x40200000
      (PTE_R ||| PTE_W) PGSIZE with
  | .ok r => r
  | .error _ => (map_base.1, -1, [])

/-- The result of the logged `mappages` call for 1 GiB at the virtual address 1 GiB
to the physical address `0x40000000` on the machine `map_base`: the final state, the
return value and the log. -/
def gigabyte_leaf_log : Kernel × Int × List (Nat × Nat × Nat × Nat) :=
  match mappages_log map_base.1 map_base.2 GBSIZE GBSIZE 0x40000000 (PTE_R ||| PTE_W) PGSIZE with
  | .ok r => r
  | .error _ => (map_base.1, -1, [])

/-! ## User pages seen by the copy functions -/

/-- The addresses of the three words a walk for `va` that may not allocate goes
through: the level-2 slot, the level-1 slot in the page the level-2 slot names, and
the level-0 slot `walk` returns. -/
def walk_words (k : Kernel) (pagetable va : Nat) : List Nat :=
  [pagetable + 8 * PX 2 va,
    PTE2PA (read64 k.mem (pagetable + 8 * PX 2 va)) + 8 * PX 1 va,
    (walk k pagetable va false).2]

/-- The physical address the copy functions use for the user address `a` when the
page of `a` is mapped by a small leaf: `PTE2PA` of the leaf `walk` returns for the
page, plus the offset of `a` in the page. -/
def user_pa (k : Kernel) (pagetable a : Nat) : Nat :=
  PTE2PA (read64 k.mem (walk k pagetable (PGROUNDDOWN a) false).2) + a % PGSIZE

/-- The user page at the page-aligned address `va` is mapped by a valid small leaf,
and the kernel buffer `[dst, dst + len)` overlaps neither the three words of the walk
for `va` nor the physical page the leaf names. -/
def UserSmallPage (k : Kernel) (pagetable dst len va : Nat) : Prop :=
  (walk k pagetable va false).2 ≠ 0 ∧
  read64 k.mem (walk k pagetable va false).2 &&& PTE_V ≠ 0 ∧
  read64 k.mem (walk k pagetable va false).2 &&& PTE_PS = 0 ∧
  (∀ s ∈ walk_words k pagetable va, s + 8 ≤ dst ∨ dst + len ≤ s) ∧
  (PTE2PA (read64 k.mem (walk k pagetable va false).2) + PGSIZE ≤ dst ∨
    dst + len ≤ PTE2PA (read64 k.mem (walk k pagetable va false).2))

/-- Every 4 KiB page that overlaps the user range `[srcva, srcva + len)` is a
`UserSmallPage` with respect to the kernel buffer `[dst, dst + len)`. -/
def UserRange (k : Kernel) (pagetable dst srcva len : Nat) : Prop :=
  ∀ va, va % PGSIZE = 0 → va < srcva + len → srcva < va + PGSIZE →
    UserSmallPage k pagetable dst len va

/-- The machine of the cross-page copy: six pages of RAM after `kinit`, a table from
`uvmcreate`, two pages mapped at the virtual addresses 0 and 4096 by `uvmalloc`, and a
kernel buffer from `kalloc`.  The first user page is then filled with the byte `0x11`
and the second with `0x22`.  The result is the state, the table and the buffer. -/
def cross_page_state : Kernel × Nat × Nat :=
  match kinit (boot 0x80000000 0x80006000 zero_mem) with
  | .error _ => (boot 0x80000000 0x80006000 zero_mem, 0, 0)
  | .ok k0 =>
    match uvmalloc (uvmcreate k0).1 (uvmcreate k0).2 0 (2 * PGSIZE) PTE_W with
    | .error _ => (k0, 0, 0)
    | .ok (k2, _) =>
      ({ (kalloc k2).1 with mem :=
          (memset (memset (kalloc k2).1.mem (walkaddr k2 (uvmcreate k0).2 0) 0x11 PGSIZE)
            (walkaddr k2 (uvmcreate k0).2 PGSIZE) 0x22 PGSIZE) },
        (uvmcreate k0).2, (kalloc k2).2)

/-- Store of the bytes `bs` from the address `a` upwards. -/
def write_bytes (m : Mem) (a : Nat) : List Nat → Mem
  | [] => m
  | b :: bs => write_bytes (write8 m a b) (a + 1) bs

/-- The machine of the string copy: six pages of RAM after `kinit`, a table from
`uvmcreate`, one page mapped at the virtual address 0 by `uvmalloc`, and a kernel
buffer from `kalloc` (which `kalloc` leaves filled with the junk byte 5).  The user
page then receives the ten bytes of the C string `"hi"` followed by `garbage`.  The
result is the state, the table and the buffer. -/
def string_state : Kernel × Nat × Nat :=
  match kinit (boot 0x80000000 0x80006000 zero_mem) with
  | .error _ => (boot 0x80000000 0x80006000 zero_mem, 0, 0)
  | .ok k0 =>
    match uvmalloc (uvmcreate k0).1 (uvmcreate k0).2 0 PGSIZE PTE_W with
    | .error _ => (k0, 0, 0)
    | .ok (k2, _) =>
      ({ (kalloc k2).1 with mem :=
          (write_bytes (kalloc k2).1.mem (walkaddr k2 (uvmcreate k0).2 0)
            [0x68, 0x69, 0, 0x67, 0x61, 0x72, 0x62, 0x61, 0x67, 0x65]) },
        (uvmcreate k0).2, (kalloc k2).2)

/-! ## Trees of page-table pages -/

/-- The unit the spec asks for at the address `a` of a range that ends at `stop`:
`g` is the largest of 1 GiB, 2 MiB and 4 KiB such that `a` is a multiple of `g` and
`stop - a ≥ g`.  This follows the words of the spec, not the code. -/
def GreedySpan (a stop g : Nat) : Prop :=
  (g = GBSIZE ∨ g = MB2SIZE ∨ g = PGSIZE) ∧ a % g = 0 ∧ g ≤ stop - a ∧
  ∀ g2 ∈ [GBSIZE, MB2SIZE, PGSIZE], a % g2 = 0 → g2 ≤ stop - a → g2 ≤ g

/-- The greedy tiling of the range from `a` to `stop`, as the spec words it: the list
of the leaves, each with its start and its span, starts at `a`; every span is the
`GreedySpan` at its start; every leaf starts where the one before it ends; and the
last leaf ends at `stop` exactly. -/
def GreedyTiling : Nat → Nat → List (Nat × Nat) → Prop
  | a, stop, [] => a = stop
  | a, stop, w :: rest => w.1 = a ∧ GreedySpan a stop w.2 ∧ GreedyTiling (a + w.2) stop rest

/-- The machine of the tiling run: nine pages of RAM after `kinit`, of which
`uvmcreate` takes the highest as the empty top table; eight pages stay free.  The
result is the state and the top table. -/
def tiling_base : Kernel × Nat :=
  match kinit (boot 0x80000000 0x80009000 zero_mem) with
  | .ok k => uvmcreate k
  | .error _ => (boot 0x80000000 0x80009000 zero_mem, 0)

/-! ## The side conditions of a request -/

/-- The state after one leaf has been installed, as one iteration of the loop of
`mappages` leaves it when it does not fail: `walk` with allocation for the address
`a`, then the store of the entry into the slot `walk` returned; a leaf of 2 MiB or
1 GiB carries `PTE_PS`. -/
def install_leaf (k : Kernel) (pagetable a pa perm g : Nat) : Kernel :=
  { (walk k pagetable a true).1 with mem :=
      (write64 (walk k pagetable a true).1.mem (walk k pagetable a true).2
        (PA2PTE pa ||| perm ||| PTE_V ||| (if g = PGSIZE then 0 else PTE_PS))) }

/-- The side conditions of the spec along a list of leaves, each with its start and
its span: when a leaf is due, every table page its address needs is there or can be
allocated (`walk` with allocation returns a slot), and the target slot is not valid
already.  The next leaf is due in the state in which this leaf has been installed,
with the physical address moved on by the span. -/
def SideConditions : Kernel → Nat → Nat → Nat → List (Nat × Nat) → Prop
  | _, _, _, _, [] => True
  | k, pagetable, pa, perm, w :: rest =>
    (walk k pagetable w.1 true).2 ≠ 0 ∧
    read64 (walk k pagetable w.1 true).1.mem (walk k pagetable w.1 true).2 &&& PTE_V = 0 ∧
    SideConditions (install_leaf k pagetable w.1 pa perm w.2) pagetable (add64 pa w.2) perm rest

/-- Nothing is mapped at or above the address `a`, and the tables on the way to `a`
are proper pages: the slots of the top table above the one of `a` are not valid; if
the slot of `a` in the top table is valid, it names a page in use other than the top
table, whose slots above the one of `a` are not valid; and if the slot of `a` in that
level-1 table is valid, it names a page in use other than the two tables above it,
whose slots from the one of `a` on are not valid.  An empty top table is the case
where no slot of the top table is valid. -/
def UnmappedFrom (k : Kernel) (pagetable : Nat) (live : List Nat) (a : Nat) : Prop :=
  (∀ i, PX 2 a < i → i < 512 → read64 k.mem (pagetable + 8 * i) &&& PTE_V = 0) ∧
  (read64 k.mem (pagetable + 8 * PX 2 a) &&& PTE_V ≠ 0 →
    PTE2PA (read64 k.mem (pagetable + 8 * PX 2 a)) ∈ live ∧
    PTE2PA (read64 k.mem (pagetable + 8 * PX 2 a)) ≠ pagetable ∧
    (∀ i, PX 1 a < i → i < 512 →
      read64 k.mem (PTE2PA (read64 k.mem (pagetable + 8 * PX 2 a)) + 8 * i) &&& PTE_V = 0) ∧
    (read64 k.mem (PTE2PA (read64 k.mem (pagetable + 8 * PX 2 a)) + 8 * PX 1 a) &&& PTE_V ≠ 0 →
      PTE2PA (read64 k.mem (PTE2PA (read64 k.mem (pagetable + 8 * PX 2 a)) + 8 * PX 1 a))
        ∈ live ∧
      PTE2PA (read64 k.mem (PTE2PA (read64 k.mem (pagetable + 8 * PX 2 a)) + 8 * PX 1 a))
        ≠ pagetable ∧
      PTE2PA (read64 k.mem (PTE2PA (read64 k.mem (pagetable + 8 * PX 2 a)) + 8 * PX 1 a))
        ≠ PTE2PA (read64 k.mem (pagetable + 8 * PX 2 a)) ∧
      ∀ i, PX 0 a ≤ i → i < 512 →
        read64 k.mem
          (PTE2PA (read64 k.mem (PTE2PA (read64 k.mem (pagetable + 8 * PX 2 a)) + 8 * PX 1 a))
            + 8 * i) &&& PTE_V = 0))

/-! ## Memory lemmas -/

/-- A 64-bit load depends only on the eight bytes it reads. -/
theorem read64_congr (m m2 : Mem) (a : Nat) (h : ∀ i, i < 8 → m (a + i) = m2 (a + i)) :
    read64 m a = read64 m2 a := by
  have h0 := h 0 (by omega)
  have h1 := h 1 (by omega)
  have h2 := h 2 (by omega)
  have h3 := h 3 (by omega)
  have h4 := h 4 (by omega)
  have h5 := h 5 (by omega)
  have h6 := h 6 (by omega)
  have h7 := h 7 (by omega)
  simp only [Nat.add_zero] at h0
  simp only [read64, h0, h1, h2, h3, h4, h5, h6, h7]

/-- A 64-bit load is below `2^64`. -/
theorem read64_lt (m : Mem) (a : Nat) : read64 m a < 2 ^ 64 := by
  unfold read64
  omega

/-- The bytes a 64-bit store writes. -/
theorem write64_same (m : Mem) (a v i : Nat) (hi : i < 8) :
    write64 m a v (a + i) = v / 2 ^ (8 * i) % 256 := by
  unfold write64
  have : a ≤ a + i ∧ a + i < a + 8 := by omega
  simp only [this, and_self, if_true, Nat.add_sub_cancel_left]

/-- A 64-bit load after a 64-bit store of a `uint64` value at the same address returns that value. -/
theorem read64_write64 (m : Mem) (a v : Nat) (hv : v < 2 ^ 64) :
    read64 (write64 m a v) a = v := by
  have e0 := write64_same m a v 0 (by omega)
  simp only [Nat.add_zero] at e0
  unfold read64
  rw [e0, write64_same m a v 1 (by omega), write64_same m a v 2 (by omega),
    write64_same m a v 3 (by omega), write64_same m a v 4 (by omega),
    write64_same m a v 5 (by omega), write64_same m a v 6 (by omega),
    write64_same m a v 7 (by omega)]
  norm_num
  omega

/-- A 64-bit store leaves the bytes outside its eight bytes alone. -/
theorem write64_other (m : Mem) (a v x : Nat) (hx : x < a ∨ a + 8 ≤ x) :
    write64 m a v x = m x := by
  unfold write64
  have : ¬ (a ≤ x ∧ x < a + 8) := by omega
  simp only [this, if_false]

/-- The function `memset` leaves the bytes outside its range alone. -/
theorem memset_other (m : Mem) (dst c n x : Nat) (hx : x < dst ∨ dst + n ≤ x) :
    memset m dst c n x = m x := by
  unfold memset
  have : ¬ (dst ≤ x ∧ x < dst + n) := by omega
  simp only [this, if_false]

/-- A walk that may not allocate leaves the state as it is. -/
theorem walk_loop_noalloc_state : ∀ (level : Nat) (k : Kernel) (pagetable va : Nat),
    (walk_loop level k pagetable va false).1 = k := by
  intro level
  induction level with
  | zero => intro k pagetable va; rfl
  | succ level ih =>
    intro k pagetable va
    rw [walk_loop]
    split
    · exact ih k _ va
    · rfl

/-! ## The free list under `kfree`, `kalloc` and stores -/

/-- The free list is the same in two memories that agree on the link words of its pages. -/
theorem FreeChain_congr (m m2 : Mem) : ∀ (l : List Nat) (h : Nat),
    (∀ p ∈ l, ∀ i, i < 8 → m2 (p + i) = m (p + i)) → FreeChain m h l → FreeChain m2 h l
  | [], _, _, hc => hc
  | p :: l, h, hl, hc => by
    obtain ⟨h1, h2, h3⟩ := hc
    refine ⟨h1, h2, ?_⟩
    have e : read64 m2 p = read64 m p :=
      read64_congr m2 m p (fun i hi => hl p (List.mem_cons_self p l) i hi)
    rw [e]
    exact FreeChain_congr m m2 l _ (fun q hq i hi => hl q (List.mem_cons_of_mem p hq) i hi) h3

/-- The traversal `free_pages` returns the chain of `FreeChain` when its fuel exceeds
the length of the chain. -/
theorem free_pages_of_chain (m : Mem) : ∀ (l : List Nat) (h fuel : Nat),
    FreeChain m h l → l.length < fuel → free_pages m fuel h = l
  | [], h, fuel, hc, hf => by
    cases fuel with
    | zero => rfl
    | succ fuel =>
      have h0 : h = 0 := hc
      simp only [free_pages, h0, if_true]
  | p :: l, h, fuel, hc, hf => by
    obtain ⟨h1, h2, h3⟩ := hc
    cases fuel with
    | zero => simp at hf
    | succ fuel =>
      have hlen : l.length < fuel := by
        simp only [List.length_cons] at hf
        omega
      subst h1
      simp only [free_pages, h2, if_false]
      rw [free_pages_of_chain m l _ fuel h3 hlen]

/-- The head pointer of a free list whose pages are below `b` is below `b`. -/
theorem FreeChain_head_lt (m : Mem) (h : Nat) (l : List Nat) (b : Nat)
    (hl : ∀ p ∈ l, p < b) (hb : 0 < b) (hc : FreeChain m h l) : h < b := by
  cases l with
  | nil => simp only [FreeChain] at hc; omega
  | cons p l =>
    obtain ⟨h1, _, _⟩ := hc
    rw [h1]
    exact hl p (List.mem_cons_self p l)

/-- Two different page-aligned addresses are a page apart. -/
theorem page_apart (p q : Nat) (hp : p % PGSIZE = 0) (hq : q % PGSIZE = 0) (hne : p ≠ q) :
    p + PGSIZE ≤ q ∨ q + PGSIZE ≤ p := by
  unfold PGSIZE at *
  omega

/-- When `kfree` returns, its argument passed the three checks and the state is the pushed one. -/
theorem kfree_ok_iff (k k1 : Kernel) (pa : Nat) (h : kfree k pa = .ok k1) :
    pa % PGSIZE = 0 ∧ k.kernel_end ≤ pa ∧ pa < k.PHYSTOP ∧
    k1 = { k with mem := write64 (memset k.mem pa 1 PGSIZE) pa k.freelist, freelist := pa } := by
  unfold kfree at h
  split at h
  · cases h
  · rename_i hc
    simp only [Except.ok.injEq] at h
    refine ⟨?_, ?_, ?_, h.symm⟩ <;> omega

/-- The function `kfree` on a page that is not on the free list keeps the allocator invariant: the page goes in front of the list and leaves the live pages. -/
theorem kfree_push (kend phystop : Nat) (k k1 : Kernel) (live l : List Nat) (pa : Nat)
    (hphys : phystop ≤ 2 ^ 64) (hinv : AllocInv kend phystop k live l)
    (hpa : pa ∉ l) (hpa0 : pa ≠ 0) (hfit : pa + PGSIZE ≤ phystop)
    (hk : kfree k pa = .ok k1) : AllocInv kend phystop k1 (live.erase pa) (pa :: l) := by
  obtain ⟨hal, hge, hlt, rfl⟩ := kfree_ok_iff k k1 pa hk
  have hfl : k.freelist < 2 ^ 64 := by
    have := FreeChain_head_lt k.mem k.freelist l (2 ^ 64)
      (fun p hp => by have := (hinv.range p hp).2.2; unfold PGSIZE at this; omega)
      (by norm_num) hinv.chain
    exact this
  refine ⟨hinv.hend, hinv.htop, ?_, ?_, ?_, hinv.live_nodup.erase pa, ?_, ?_⟩
  · refine ⟨rfl, hpa0, ?_⟩
    show FreeChain _ (read64 (write64 (memset k.mem pa 1 PGSIZE) pa k.freelist) pa) l
    rw [read64_write64 _ _ _ hfl]
    refine FreeChain_congr k.mem (write64 (memset k.mem pa 1 PGSIZE) pa k.freelist) l _ ?_
      hinv.chain
    intro p hp i hi
    have hne : p ≠ pa := fun e => hpa (e ▸ hp)
    have hap := page_apart p pa (hinv.range p hp).1 hal hne
    have hP : PGSIZE = 4096 := rfl
    rw [write64_other _ _ _ _ (by omega), memset_other _ _ _ _ _ (by omega)]
  · exact List.nodup_cons.mpr ⟨hpa, hinv.nodup⟩
  · intro p hp
    rcases List.mem_cons.mp hp with rfl | hp
    · exact ⟨hal, hinv.hend ▸ hge, hfit⟩
    · exact hinv.range p hp
  · intro p hp
    exact hinv.live_range p (List.mem_of_mem_erase hp)
  · intro p hp hpl
    rcases List.mem_cons.mp hpl with rfl | hpl
    · exact ((hinv.live_nodup.mem_erase_iff).mp hp).1 rfl
    · exact hinv.disjoint p (List.mem_of_mem_erase hp) hpl

/-- The function `kalloc` keeps the allocator invariant: either the list is empty and nothing changes, or the head of the list becomes a live page. -/
theorem kalloc_pop (kend phystop : Nat) (k : Kernel) (live l : List Nat)
    (hinv : AllocInv kend phystop k live l) :
    ((kalloc k).2 = 0 ∧ AllocInv kend phystop (kalloc k).1 live l) ∨
    ((kalloc k).2 ≠ 0 ∧ ∃ l1, l = (kalloc k).2 :: l1 ∧
      AllocInv kend phystop (kalloc k).1 ((kalloc k).2 :: live) l1) := by
  unfold kalloc
  by_cases h0 : k.freelist = 0
  · left
    simp only [h0, ne_eq, not_true_eq_false, if_false]
    exact ⟨trivial, hinv⟩
  · right
    simp only [ne_eq, h0, not_false_eq_true, if_true]
    refine ⟨trivial, ?_⟩
    cases l with
    | nil => exact absurd hinv.chain h0
    | cons p l1 =>
      obtain ⟨h1, h2, h3⟩ := hinv.chain
      refine ⟨l1, by rw [h1], ?_⟩
      have hnd := List.nodup_cons.mp hinv.nodup
      have hr := hinv.range p (List.mem_cons_self p l1)
      refine ⟨hinv.hend, hinv.htop, ?_, hnd.2, ?_, ?_, ?_, ?_⟩
      · show FreeChain (memset k.mem k.freelist 5 PGSIZE) (read64 k.mem k.freelist) l1
        rw [h1]
        refine FreeChain_congr k.mem _ l1 _ ?_ h3
        intro q hq i hi
        have hne : q ≠ p := fun e => hnd.1 (e ▸ hq)
        have hap := page_apart q p (hinv.range q (List.mem_cons_of_mem p hq)).1 hr.1 hne
        have hP : PGSIZE = 4096 := rfl
        rw [memset_other _ _ _ _ _ (by omega)]
      · intro q hq
        exact hinv.range q (List.mem_cons_of_mem p hq)
      · rw [h1]
        exact List.nodup_cons.mpr
          ⟨fun hm => hinv.disjoint p hm (List.mem_cons_self p l1), hinv.live_nodup⟩
      · intro q hq
        rw [h1] at hq
        rcases List.mem_cons.mp hq with rfl | hq
        · exact ⟨h2, hr⟩
        · exact hinv.live_range q hq
      · intro q hq hql
        rw [h1] at hq
        rcases List.mem_cons.mp hq with rfl | hq
        · exact hnd.1 hql
        · exact hinv.disjoint q hq (List.mem_cons_of_mem p hql)

/-- A byte stored in a live page keeps the allocator invariant. -/
theorem store_keeps (kend phystop : Nat) (k : Kernel) (live l : List Nat) (pa off val : Nat)
    (hinv : AllocInv kend phystop k live l) (hpa : pa ∈ live) (hoff : off < PGSIZE) :
    AllocInv kend phystop { k with mem := write8 k.mem (pa + off) val } live l := by
  refine ⟨hinv.hend, hinv.htop, ?_, hinv.nodup, hinv.range, hinv.live_nodup, hinv.live_range,
    hinv.disjoint⟩
  refine FreeChain_congr k.mem (write8 k.mem (pa + off) val) l _ ?_ hinv.chain
  intro p hp i hi
  have hne : p ≠ pa := fun e => hinv.disjoint pa hpa (e ▸ hp)
  have hap := page_apart p pa (hinv.range p hp).1 (hinv.live_range pa hpa).2.1 hne
  have hP : PGSIZE = 4096 := rfl
  unfold write8
  have : p + i ≠ pa + off := by omega
  simp only [this, if_false]

/-- The loop of `freerange` keeps the allocator invariant and builds a free list in strictly descending address order. -/
theorem freerange_loop_inv (kend phystop pa_end : Nat) (hphys : phystop ≤ 2 ^ 64)
    (hpe : pa_end ≤ phystop) :
    ∀ (fuel : Nat) (k : Kernel) (p : Nat) (l : List Nat) (k1 : Kernel),
      AllocInv kend phystop k [] l → l.Pairwise (· > ·) → (∀ q ∈ l, q < p) →
      freerange_loop fuel k p pa_end = .ok k1 →
      ∃ l1, AllocInv kend phystop k1 [] l1 ∧ l1.Pairwise (· > ·) := by
  intro fuel
  induction fuel with
  | zero => intro k p l k1 _ _ _ h; simp [freerange_loop] at h
  | succ fuel ih =>
    intro k p l k1 hinv hsort hlt h
    simp only [freerange_loop] at h
    split at h
    · rename_i hfit
      split at h
      · cases h
      · rename_i k2 hk
        have hP : PGSIZE = 4096 := rfl
        by_cases hp0 : p = 0
        · subst hp0
          have hl : l = [] := by
            cases l with
            | nil => rfl
            | cons q l => exact absurd (hlt q (List.mem_cons_self q l)) (by omega)
          subst hl
          obtain ⟨_, _, _, rfl⟩ := kfree_ok_iff k k2 0 hk
          refine ih _ (0 + PGSIZE) [] k1 ?_ List.Pairwise.nil (by simp) h
          exact ⟨hinv.hend, hinv.htop, rfl, List.nodup_nil, by simp, List.nodup_nil, by simp,
            by simp⟩
        · have hnot : p ∉ l := fun hm => by have := hlt p hm; omega
          have hpush := kfree_push kend phystop k k2 [] l p hphys hinv hnot hp0 (by omega) hk
          simp only [List.erase_nil] at hpush
          refine ih k2 (p + PGSIZE) (p :: l) k1 hpush ?_ ?_ h
          · exact List.pairwise_cons.mpr ⟨fun q hq => hlt q hq, hsort⟩
          · intro q hq
            rcases List.mem_cons.mp hq with rfl | hq
            · omega
            · have := hlt q hq; omega
    · simp only [Except.ok.injEq] at h
      subst h
      exact ⟨l, hinv, hsort⟩

/-- After `kinit` the allocator invariant holds with no live page, and the free list is in strictly descending address order. -/
theorem kinit_inv (kend phystop : Nat) (mem : Mem) (hphys : phystop ≤ 2 ^ 64) (k0 : Kernel)
    (hinit : kinit (boot kend phystop mem) = .ok k0) :
    ∃ l, AllocInv kend phystop k0 [] l ∧ l.Pairwise (· > ·) := by
  unfold kinit freerange at hinit
  refine freerange_loop_inv kend phystop phystop hphys (le_refl _) _ (boot kend phystop mem) _ []
    k0 ?_ List.Pairwise.nil (by simp) hinit
  exact ⟨rfl, rfl, rfl, List.nodup_nil, by simp, List.nodup_nil, by simp, by simp⟩

/-- Every allowed client run keeps the allocator invariant. -/
theorem run_ops_inv (kend phystop : Nat) (hphys : phystop ≤ 2 ^ 64) :
    ∀ (ops : List Op) (k : Kernel) (live l : List Nat) (k1 : Kernel) (live1 : List Nat),
      AllocInv kend phystop k live l → run_ops ops k live = some (k1, live1) →
      ∃ l1, AllocInv kend phystop k1 live1 l1 := by
  intro ops
  induction ops with
  | nil =>
    intro k live l k1 live1 hinv h
    simp only [run_ops, Option.some.injEq, Prod.mk.injEq] at h
    obtain ⟨rfl, rfl⟩ := h
    exact ⟨l, hinv⟩
  | cons op ops ih =>
    intro k live l k1 live1 hinv h
    cases op with
    | kalloc =>
      simp only [run_ops] at h
      rcases kalloc_pop kend phystop k live l hinv with ⟨h0, hi⟩ | ⟨h0, l1, _, hi⟩
      · simp only [h0, if_true] at h
        exact ih _ _ _ _ _ hi h
      · simp only [h0, if_false] at h
        exact ih _ _ _ _ _ hi h
    | kfree pa =>
      simp only [run_ops] at h
      split at h
      · rename_i hmem
        split at h
        · cases h
        · rename_i k2 hk
          have hr := hinv.live_range pa hmem
          exact ih _ _ _ _ _
            (kfree_push kend phystop k k2 live l pa hphys hinv (hinv.disjoint pa hmem) hr.1
              hr.2.2.2 hk) h
      · cases h
    | store pa off val =>
      simp only [run_ops] at h
      split at h
      · rename_i hc
        exact ih _ _ _ _ _ (store_keeps kend phystop k live l pa off val hinv hc.1 hc.2) h
      · cases h

/-- Under the allocator invariant `kfree` of a live page does not panic. -/
theorem kfree_live_ok (kend phystop : Nat) (k : Kernel) (live l : List Nat)
    (hinv : AllocInv kend phystop k live l) (p : Nat) (hp : p ∈ live) :
    ∃ k1, kfree k p = .ok k1 := by
  have hr := hinv.live_range p hp
  have hP : PGSIZE = 4096 := rfl
  unfold kfree
  have : ¬ (p % PGSIZE ≠ 0 ∨ p < k.kernel_end ∨ p ≥ k.PHYSTOP) := by
    rw [hinv.hend, hinv.htop]
    omega
  simp only [this, if_false]
  exact ⟨_, rfl⟩

/-- Claim C10, no double issue.  Start from the allocator that `kinit` builds, and run
any sequence of `kalloc` calls, of `kfree` calls on pages that are live at that
moment, and of stores into live pages.  In the state reached the free list is a
chain `l` that contains no page twice and only pages that lie inside
`[end, PHYSTOP)`, the live pages are pairwise different, no live page is on the
free list, and `kfree` of any live page returns. -/
theorem kalloc_kfree_no_double_issue (kend phystop : Nat) (mem : Mem) (hphys : phystop ≤ 2 ^ 64)
    (k0 : Kernel) (hinit : kinit (boot kend phystop mem) = .ok k0)
    (ops : List Op) (k : Kernel) (live : List Nat)
    (hrun : run_ops ops k0 [] = some (k, live)) :
    ∃ l, FreeChain k.mem k.freelist l ∧ l.Nodup ∧
      (∀ p ∈ l, kend ≤ p ∧ p + PGSIZE ≤ phystop) ∧
      live.Nodup ∧ (∀ p ∈ live, p ∉ l) ∧ (∀ p ∈ live, ∃ k1, kfree k p = .ok k1) := by
  obtain ⟨l0, hinv0, _⟩ := kinit_inv kend phystop mem hphys k0 hinit
  obtain ⟨l, hinv⟩ := run_ops_inv kend phystop hphys ops k0 [] l0 k live hinv0 hrun
  exact ⟨l, hinv.chain, hinv.nodup, fun p hp => (hinv.range p hp).2, hinv.live_nodup,
    hinv.disjoint, fun p hp => kfree_live_ok kend phystop k live l hinv p hp⟩

/-! ## `kinit` returns -/

/-- The loop of `freerange` returns when its fuel covers the range and the range lies inside `[end, PHYSTOP)`. -/
theorem freerange_loop_ok (pa_end : Nat) :
    ∀ (fuel : Nat) (k : Kernel) (p : Nat), p % PGSIZE = 0 → k.kernel_end ≤ p →
      pa_end ≤ k.PHYSTOP → pa_end < p + (fuel + 1) * PGSIZE →
      ∃ k1, freerange_loop (fuel + 1) k p pa_end = .ok k1 := by
  intro fuel
  induction fuel with
  | zero =>
    intro k p _ _ _ hf
    have hP : PGSIZE = 4096 := rfl
    rw [freerange_loop]
    have : ¬ (p + PGSIZE ≤ pa_end) := by omega
    simp only [this, if_false]
    exact ⟨k, rfl⟩
  | succ fuel ih =>
    intro k p hal hge htop hf
    have hP : PGSIZE = 4096 := rfl
    rw [freerange_loop]
    by_cases hc : p + PGSIZE ≤ pa_end
    · have hk : kfree k p
          = .ok { k with mem := write64 (memset k.mem p 1 PGSIZE) p k.freelist, freelist := p } := by
        unfold kfree
        have : ¬ (p % PGSIZE ≠ 0 ∨ p < k.kernel_end ∨ p ≥ k.PHYSTOP) := by omega
        simp only [this, if_false]
      simp only [hc, if_true, hk]
      refine ih _ (p + PGSIZE) ?_ ?_ htop ?_
      · rw [Nat.add_mod_right]
        exact hal
      · show k.kernel_end ≤ p + PGSIZE
        omega
      · have : (fuel + 1 + 1) * PGSIZE = (fuel + 1) * PGSIZE + PGSIZE := by
          rw [Nat.add_mul (fuel + 1) 1 PGSIZE, Nat.one_mul]
        omega
    · simp only [hc, if_false]
      exact ⟨k, rfl⟩

/-- The function `kinit` returns: the fuel of its loop is enough and no `kfree` in it panics. -/
theorem kinit_ok (kend phystop : Nat) (mem : Mem) (hk : kend + PGSIZE ≤ 2 ^ 64) :
    ∃ k0, kinit (boot kend phystop mem) = .ok k0 := by
  unfold kinit freerange
  refine freerange_loop_ok phystop (phystop / PGSIZE) (boot kend phystop mem)
    (PGROUNDUP kend) ?_ ?_ (le_refl _) ?_
  · unfold PGROUNDUP
    exact Nat.mul_mod_left _ _
  · show kend ≤ PGROUNDUP kend
    unfold PGSIZE at hk
    unfold PGROUNDUP PGSIZE W64
    omega
  · unfold PGSIZE
    omega

/-! ## `kalloc_superpage` on descending and on ascending free lists -/

/-- On a free list in strictly descending address order `kalloc_superpage` never returns a block: its result, when it returns, is 0. -/
theorem kalloc_superpage_descending (k : Kernel) (l : List Nat)
    (hchain : FreeChain k.mem k.freelist l) (hsort : l.Pairwise (· > ·))
    (k1 : Kernel) (r : Nat) (h : kalloc_superpage k = .ok (k1, r)) : r = 0 := by
  unfold kalloc_superpage kalloc at h
  by_cases h0 : k.freelist = 0
  · simp only [h0, ne_eq, not_true_eq_false, if_false, if_true, Except.ok.injEq,
      Prod.mk.injEq] at h
    exact h.2.symm
  · simp only [ne_eq, h0, not_false_eq_true, if_true, if_false] at h
    have hfuel : (2 * 1024 * 1024) / PGSIZE = 511 + 1 := by decide
    rw [hfuel] at h
    rw [kalloc_superpage_loop] at h
    have hlt : 1 < 2 * 1024 * 1024 / PGSIZE := by decide
    simp only [hlt, if_true, kalloc] at h
    by_cases h1 : read64 k.mem k.freelist = 0
    · simp only [h1, ne_eq, not_true_eq_false, if_false, if_true] at h
      split at h
      · cases h
      · simp only [Except.ok.injEq, Prod.mk.injEq] at h
        exact h.2.symm
    · have hne : read64 k.mem k.freelist ≠ k.freelist + 1 * PGSIZE := by
        cases l with
        | nil => exact absurd hchain h0
        | cons p l1 =>
          obtain ⟨e1, _, hc1⟩ := hchain
          cases l1 with
          | nil => exact absurd hc1 (by rw [← e1]; exact h1)
          | cons q l2 =>
            obtain ⟨e2, _, _⟩ := hc1
            have hpq : p > q := (List.pairwise_cons.mp hsort).1 q (List.mem_cons_self q l2)
            rw [e1, e2]
            omega
      simp only [h1, ne_eq, not_false_eq_true, if_true, if_false, hne] at h
      split at h
      · cases h
      · simp only [Except.ok.injEq, Prod.mk.injEq] at h
        exact h.2.symm


/-- The memory `run_mem` holds the links of an ascending run. -/
theorem run_mem_AscRun (m : Mem) (base nxt n : Nat) (hn : nxt < 2 ^ 64)
    (hb : base + n * PGSIZE ≤ 2 ^ 64) : AscRun (run_mem m base nxt n) base nxt n := by
  intro i hi
  have hP : PGSIZE = 4096 := rfl
  have hlink : run_link base nxt n i < 2 ^ 64 := by
    unfold run_link
    split
    · exact hn
    · have : (i + 1) * PGSIZE ≤ n * PGSIZE := Nat.mul_le_mul_right _ (by omega)
      have : i + 1 ≠ n := by assumption
      have : (i + 1) * PGSIZE < n * PGSIZE := by
        apply Nat.mul_lt_mul_of_pos_right <;> omega
      omega
  rw [← read64_write64 m (base + i * PGSIZE) _ hlink]
  apply read64_congr
  intro j hj
  rw [write64_same _ _ _ _ hj]
  unfold run_mem
  have h1 : i * PGSIZE + PGSIZE ≤ n * PGSIZE := by
    have := Nat.mul_le_mul_right PGSIZE (show i + 1 ≤ n by omega)
    rw [Nat.add_mul, Nat.one_mul] at this
    exact this
  have hin : base ≤ base + i * PGSIZE + j ∧ base + i * PGSIZE + j < base + n * PGSIZE := by
    omega
  have e1 : (base + i * PGSIZE + j - base) % PGSIZE = j := by
    have : base + i * PGSIZE + j - base = j + i * PGSIZE := by omega
    rw [this, Nat.add_mul_mod_self_right]
    exact Nat.mod_eq_of_lt (by omega)
  have e2 : (base + i * PGSIZE + j - base) / PGSIZE = i := by
    have : base + i * PGSIZE + j - base = j + i * PGSIZE := by omega
    rw [this, Nat.add_mul_div_right _ _ (by omega : 0 < PGSIZE)]
    have : j / PGSIZE = 0 := Nat.div_eq_of_lt (by omega)
    omega
  simp only [hin, and_self, if_true, e1, e2, hj]

/-- Two fills of adjacent ranges with the same byte are one fill. -/
theorem memset_memset_adjacent (m : Mem) (base c n1 n2 : Nat) :
    memset (memset m base c n1) (base + n1) c n2 = memset m base c (n1 + n2) := by
  funext x
  unfold memset
  by_cases h1 : base + n1 ≤ x ∧ x < base + n1 + n2
  · have h2 : base ≤ x ∧ x < base + (n1 + n2) := by omega
    simp only [h1, h2, and_self, if_true]
  · by_cases h3 : base ≤ x ∧ x < base + n1
    · have h2 : base ≤ x ∧ x < base + (n1 + n2) := by omega
      simp only [h1, h2, h3, and_self, if_true, if_false]
    · have h2 : ¬ (base ≤ x ∧ x < base + (n1 + n2)) := by omega
      simp only [h1, h2, h3, if_false]

/-- The main loop of `kalloc_superpage` on an ascending run: from iteration `i` on it pops the remaining pages and returns the base. -/
theorem kalloc_superpage_loop_asc (kend phystop : Nat) (m : Mem) (base nxt : Nat)
    (hb : base ≠ 0) (hrun : AscRun m base nxt 512) :
    ∀ (fuel i : Nat), 1 ≤ i → i ≤ 512 → 512 - i < fuel →
      kalloc_superpage_loop fuel
        ⟨kend, phystop, run_link base nxt 512 (i - 1), memset m base 5 (i * PGSIZE)⟩ base i
      = .ok (⟨kend, phystop, nxt, memset m base 5 (512 * PGSIZE)⟩, base) := by
  intro fuel
  induction fuel with
  | zero => intro i _ _ h; omega
  | succ fuel ih =>
    intro i h1 h2 h3
    have hP : PGSIZE = 4096 := rfl
    have h512 : 2 * 1024 * 1024 / PGSIZE = 512 := by decide
    rw [kalloc_superpage_loop, h512]
    by_cases hi : i < 512
    · have hl : run_link base nxt 512 (i - 1) = base + i * PGSIZE := by
        unfold run_link
        have : ¬ (i - 1 + 1 = 512) := by omega
        simp only [this, if_false]
        have : i - 1 + 1 = i := by omega
        rw [this]
      have hne : base + i * PGSIZE ≠ 0 := by omega
      have hrd : read64 (memset m base 5 (i * PGSIZE)) (base + i * PGSIZE)
          = run_link base nxt 512 i := by
        rw [← hrun i hi]
        apply read64_congr
        intro j _
        exact memset_other _ _ _ _ _ (by omega)
      simp only [hi, if_true, kalloc, hl, ne_eq, hne, not_false_eq_true, if_false,
        not_true_eq_false, hrd, memset_memset_adjacent]
      have := ih (i + 1) (by omega) (by omega) (by omega)
      simp only [Nat.add_sub_cancel, Nat.add_mul, Nat.one_mul] at this
      exact this
    · have hi2 : i = 512 := by omega
      subst hi2
      have hl : run_link base nxt 512 (512 - 1) = nxt := by
        unfold run_link
        simp
      simp only [hi, if_false, hl]

/-- On a free list that starts with an ascending run of 512 pages `kalloc_superpage` returns the base of the run, whatever its alignment. -/
theorem kalloc_superpage_asc (k : Kernel) (base nxt : Nat) (hb : base ≠ 0)
    (hhead : k.freelist = base) (hrun : AscRun k.mem base nxt 512) :
    kalloc_superpage k
      = .ok (⟨k.kernel_end, k.PHYSTOP, nxt, memset k.mem base 5 (512 * PGSIZE)⟩, base) := by
  unfold kalloc_superpage kalloc
  have h512 : 2 * 1024 * 1024 / PGSIZE = 512 := by decide
  simp only [hhead, ne_eq, hb, not_false_eq_true, if_true, if_false, h512]
  have h0 := hrun 0 (by omega)
  simp only [Nat.zero_mul, Nat.add_zero] at h0
  have := kalloc_superpage_loop_asc k.kernel_end k.PHYSTOP k.mem base nxt hb hrun 512 1
    (by omega) (by omega) (by omega)
  simp only [Nat.sub_self, Nat.one_mul] at this
  rw [h0]
  exact this

/-- The function `superalloc` on a free list that starts with an ascending run of 512 pages. -/
theorem superalloc_asc (k : Kernel) (base nxt : Nat) (hb : base ≠ 0)
    (hhead : k.freelist = base) (hrun : AscRun k.mem base nxt 512) :
    superalloc k
      = .ok (⟨k.kernel_end, k.PHYSTOP, nxt,
          memset (memset k.mem base 5 (512 * PGSIZE)) base 0 (2 * 1024 * 1024)⟩, base) := by
  unfold superalloc
  rw [kalloc_superpage_asc k base nxt hb hhead hrun]
  simp only [hb, if_false]


/-- One iteration of the loop of `uvmalloc` through the block branch, after `superalloc` returned a block. -/
theorem uvmalloc_loop_super (fuel : Nat) (k k1 : Kernel) (pagetable a newsz xperm mem : Nat)
    (h1 : a < newsz) (h2 : a % (2 * 1024 * 1024) = 0 ∧ sub64 newsz a ≥ 2 * 1024 * 1024)
    (hs : superalloc k = .ok (k1, mem)) (hm : mem ≠ 0) :
    uvmalloc_loop (fuel + 1) k pagetable a newsz xperm =
      match mappages { k1 with mem := memset k1.mem mem 0 (2 * 1024 * 1024) } pagetable a
          (2 * 1024 * 1024) mem (PTE_R ||| PTE_U ||| xperm) (2 * 1024 * 1024) with
      | .error e => .error e
      | .ok (k2, r) =>
        if r ≠ 0 then
          match superfree k2 mem with
          | .error e => .error e
          | .ok k3 => .ok (k3, a)
        else
          uvmalloc_loop fuel k2 pagetable
            (add64 (add64 a (2 * 1024 * 1024 - PGSIZE)) PGSIZE) newsz xperm := by
  rw [uvmalloc_loop]
  simp only [h1, h2, and_self, if_true, hs, hm, if_false]


/-! ## Claim C10: witness -/

/-- Witness of claim C10 on three pages of RAM: `kinit` returns `demo_kinit`, the
client run `demo_ops` is allowed and ends with all three pages live, and the
theorem applies to the state reached. -/
theorem kalloc_kfree_no_double_issue_witness :
    (0x80003000 ≤ 2 ^ 64 ∧ kinit (boot 0x80000000 0x80003000 zero_mem) = .ok demo_kinit ∧
      run_ops demo_ops demo_kinit [] = some demo_final ∧
      demo_final.2 = [0x80000000, 0x80002000, 0x80001000]) ∧
    ∃ l, FreeChain demo_final.1.mem demo_final.1.freelist l ∧ l.Nodup ∧
      (∀ p ∈ l, 0x80000000 ≤ p ∧ p + PGSIZE ≤ 0x80003000) ∧
      demo_final.2.Nodup ∧ (∀ p ∈ demo_final.2, p ∉ l) ∧
      (∀ p ∈ demo_final.2, ∃ k1, kfree demo_final.1 p = .ok k1) :=
  ⟨⟨by norm_num, rfl, rfl, by decide!⟩,
    kalloc_kfree_no_double_issue 0x80000000 0x80003000 zero_mem (by norm_num) demo_kinit rfl
      demo_ops demo_final.1 demo_final.2 rfl⟩

/-! ## Claim C9 -/

/-- Claim C9, a fresh allocator and the first block.  For every range
`[end, PHYSTOP)` of `uint64` addresses, `kinit` returns, and the first call of
`kalloc_superpage` after it never returns a block: it returns 0 or it panics.
The free list that `freerange` builds hands pages out from the highest address
down, and `kalloc_superpage` accepts only a page one above the previous one. -/
theorem kalloc_superpage_after_kinit (kend phystop : Nat) (mem : Mem)
    (hk : kend + PGSIZE ≤ 2 ^ 64) (hphys : phystop ≤ 2 ^ 64) :
    ∃ k0, kinit (boot kend phystop mem) = .ok k0 ∧
      ((kalloc_superpage k0).map Prod.snd = .ok 0 ∨ ∃ e, kalloc_superpage k0 = .error e) := by
  obtain ⟨k0, hinit⟩ := kinit_ok kend phystop mem hk
  obtain ⟨l, hinv, hsort⟩ := kinit_inv kend phystop mem hphys k0 hinit
  refine ⟨k0, hinit, ?_⟩
  cases hres : kalloc_superpage k0 with
  | error e => exact Or.inr ⟨e, rfl⟩
  | ok res =>
    obtain ⟨k1, r⟩ := res
    have hr := kalloc_superpage_descending k0 l hinv.chain hsort k1 r hres
    subst hr
    exact Or.inl rfl

/-- Witness of claim C9 on 4 MiB of RAM, a range that holds two 2 MiB-aligned runs of
512 pages: the first `kalloc_superpage` after `kinit` panics in `kfree`. -/
theorem kalloc_superpage_after_kinit_witness :
    (0x80000000 + PGSIZE ≤ 2 ^ 64 ∧ 0x80400000 ≤ 2 ^ 64) ∧
    ((kinit (boot 0x80000000 0x80400000 zero_mem)).bind kalloc_superpage).map Prod.snd
      = .error Fault.kfree ∧
    ∃ k0, kinit (boot 0x80000000 0x80400000 zero_mem) = .ok k0 ∧
      ((kalloc_superpage k0).map Prod.snd = .ok 0 ∨ ∃ e, kalloc_superpage k0 = .error e) :=
  ⟨⟨by norm_num [PGSIZE], by norm_num⟩, by decide!,
    kalloc_superpage_after_kinit 0x80000000 0x80400000 zero_mem (by norm_num [PGSIZE])
      (by norm_num)⟩

/-! ## Claim C8 -/

/-- Claim C8, block alignment.  On the allocator `unaligned_run_state`, whose free
list is the 512 contiguous pages from `0x80001000` upwards, `kalloc_superpage`
returns `0x80001000`, which is one page above a multiple of 2 MiB, and
`kfree_superpage` panics on that very block. -/
theorem kalloc_superpage_returns_unaligned :
    free_pages unaligned_run_state.mem 1000 unaligned_run_state.freelist
        = (List.range 512).map (fun i => 0x80001000 + i * 4096) ∧
    (kalloc_superpage unaligned_run_state).map Prod.snd = .ok 0x80001000 ∧
    0x80001000 % (2 * 1024 * 1024) = 4096 ∧
    (kfree_superpage unaligned_run_state 0x80001000).map (fun _ => ())
        = .error Fault.kfree_superpage_not_aligned := by
  refine ⟨by decide!, ?_, by decide, by decide!⟩
  rw [kalloc_superpage_asc unaligned_run_state 0x80001000 0 (by decide) rfl
    (run_mem_AscRun _ _ _ _ (by norm_num) (by norm_num [PGSIZE]))]
  rfl

/-! ## Claim C7 -/

/-- Claim C7, block allocation rolls back.  In `scattered_block_run` the free list is
`0x80001000, 0x80005000` and duplicate-free; `kalloc_superpage` returns 0 and leaves
the free list `0x80002000, 0x80001000`: the page `0x80005000` it had acquired is not
given back, and the page `0x80002000`, which it never acquired, is on the list. -/
theorem kalloc_superpage_rollback_frees_wrong_page :
    scattered_block_run
      = .ok ([0x80001000, 0x80005000], 0, [0x80002000, 0x80001000]) := by
  decide!

/-! ## Claim C6 -/

/-- Claim C6, size-aware free on unmap.  In `large_leaf_unmap_run` a 2 MiB large leaf
backed by the block at `0x80000000` is removed by `uvmunmap` with `do_free` set;
the free list, empty before, holds afterwards the single page `0x80000000` and
none of the other 511 pages of the block. -/
theorem uvmunmap_frees_one_page_of_large_leaf :
    large_leaf_unmap_run = .ok (0, [], [0x80000000]) := by
  decide!

/-! ## Claim C5 -/

/-- Claim C5, map, unmap, map again.  Over 2 MiB the round trip works: both calls of
`mappages` return 0.  Over a 1 GiB-aligned region of 1 GiB the first `mappages`
returns 0 and `uvmunmap` then panics with "uvmunmap: walk": it steps 2 MiB after the
one leaf that `mappages` wrote for the whole GiB. -/
theorem uvmunmap_panics_on_gigabyte_leaf :
    round_trip_run MB2SIZE = .ok (0, .ok 0) ∧
    round_trip_run GBSIZE = .ok (0, .error Fault.uvmunmap_walk) := by
  decide!

/-! ## Claim C4 -/

/-- Claim C4, copies and the user bit.  In `guard_page_copy_run` the leaf of user
address 0 is valid with flags `PTE_V | PTE_R | PTE_W` and without `PTE_U`, so
`walkaddr` gives 0 for it; `copyout`, `copyin` and `copyinstr` on that address all
return 0 (success), not -1. -/
theorem copy_ignores_user_bit :
    guard_page_copy_run = .ok (PTE_V ||| PTE_R ||| PTE_W, 0, 0, 0, 0) := by
  decide!

/-! ## Claim C3 -/

/-- Claim C3, `mappages` covers the range.  In `large_leaf_translate_run`,
`mappages` over 2 MiB at virtual address 0 returns 0, and `walkaddr` translates the
first page to `0x40000000` but gives 0 for the second page (the claim says
`0x40001000`) and for the last one: the one large leaf is stored in the level-0 slot
of the first page, and `walk` looks each page up in its own level-0 slot. -/
theorem mappages_large_leaf_interior_untranslated :
    large_leaf_translate_run = .ok (0, 0x40000000, 0, 0) := by
  decide!

/-! ## Claim C2 -/

/-- Claim C2, grown memory is usable.  On `grow_state`, whose free list is the 2 MiB
block at `0x80200000` followed by two pages, `uvmalloc` from 0 to 2 MiB in the empty
table `0x80002000` returns 2 MiB; afterwards `walkaddr` translates virtual address 0
to `0x80200000` and gives 0 for the second page and for the last page of the grown
region. -/
theorem uvmalloc_superpage_interior_untranslated :
    grow_base.2 = 0x80002000 ∧
    free_pages grow_state.mem 600 grow_state.freelist
      = (List.range 512).map (fun i => 0x80200000 + i * 4096) ++ [0x80001000, 0x80000000] ∧
    (uvmalloc grow_state 0x80002000 0 (2 * 1024 * 1024) PTE_W).map
      (fun r => (r.2, walkaddr r.1 0x80002000 0, walkaddr r.1 0x80002000 4096,
        walkaddr r.1 0x80002000 (2 * 1024 * 1024 - 4096)))
      = .ok (2 * 1024 * 1024, 0x80200000, 0, 0) := by
  refine ⟨by decide!, by decide!, ?_⟩
  have hs := superalloc_asc grow_state 0x80200000 grow_base.1.freelist (by decide) rfl
    (run_mem_AscRun _ _ _ _ (by decide!) (by norm_num [PGSIZE]))
  unfold uvmalloc
  have hf : 2 * 1024 * 1024 / PGSIZE + 2 = 513 + 1 := by decide
  rw [hf, uvmalloc_loop_super 513 grow_state _ 0x80002000 (PGROUNDUP 0) (2 * 1024 * 1024) PTE_W
    0x80200000 (by decide) (by decide) hs (by decide)]
  decide!

/-! ## Claim C1 -/

/-- The roll-back call of `uvmalloc` does nothing: with `newsz` the page-aligned
ceiling of `oldsz`, `uvmdealloc` takes its first exit and returns the state as it
is. -/
theorem uvmdealloc_rollback_noop (k : Kernel) (pagetable oldsz : Nat)
    (h : oldsz + PGSIZE ≤ 2 ^ 64) :
    uvmdealloc k pagetable oldsz (PGROUNDUP oldsz) = .ok (k, oldsz) := by
  unfold uvmdealloc
  have hge : PGROUNDUP oldsz ≥ oldsz := by
    unfold PGSIZE at h
    unfold PGROUNDUP PGSIZE W64
    omega
  simp only [hge, if_true]

/-- Claim C1, growth rollback.  In `growth_rollback_run` the second `uvmalloc`, from
one page to four, maps two pages and then fails for lack of memory: it returns 0,
but the two pages it mapped are still translated (to `0x80001000` and `0x80000000`)
although the second page was not mapped before the call, and the free list, which
held those two pages before the call, is empty after it. -/
theorem uvmalloc_failure_leaves_mappings :
    growth_rollback_run
      = .ok ([0x80001000, 0x80000000], 0, 0, [], 0x80001000, 0x80000000) := by
  decide!

/-! ## The logged `mappages` and the words of a page table -/

/-- The logged loop without its log is the loop of `mappages`. -/
theorem mappages_log_loop_erase : ∀ (fuel : Nat) (k : Kernel) (pagetable a last pa perm pagesize : Nat),
    (mappages_log_loop fuel k pagetable a last pa perm pagesize).map (fun r => (r.1, r.2.1))
      = mappages_loop fuel k pagetable a last pa perm pagesize := by
  intro fuel
  induction fuel with
  | zero => intro k pagetable a last pa perm pagesize; rfl
  | succ fuel ih =>
    intro k pagetable a last pa perm pagesize
    rw [mappages_log_loop, mappages_loop]
    dsimp only
    generalize (if a % GBSIZE = 0 ∧ add64 (sub64 last a) pagesize ≥ GBSIZE then GBSIZE
      else if a % MB2SIZE = 0 ∧ add64 (sub64 last a) pagesize ≥ MB2SIZE then MB2SIZE
      else PGSIZE) = step
    generalize (if a % GBSIZE = 0 ∧ add64 (sub64 last a) pagesize ≥ GBSIZE then PTE_PS
      else if a % MB2SIZE = 0 ∧ add64 (sub64 last a) pagesize ≥ MB2SIZE then PTE_PS
      else 0) = tag
    generalize hw : walk k pagetable a true = w
    obtain ⟨k1, pte⟩ := w
    dsimp only
    by_cases h0 : pte = 0
    · rw [if_pos h0, if_pos h0]
      rfl
    · rw [if_neg h0, if_neg h0]
      by_cases hv : read64 k1.mem pte &&& PTE_V ≠ 0
      · rw [if_pos hv, if_pos hv]
        rfl
      · rw [if_neg hv, if_neg hv]
        by_cases hl : add64 a step > last
        · rw [if_pos hl, if_pos hl]
          rfl
        · rw [if_neg hl, if_neg hl, ← ih]
          cases mappages_log_loop fuel _ pagetable _ last _ perm pagesize with
          | error e => rfl
          | ok r => rfl

/-- The logged `mappages` without its log is `mappages`. -/
theorem mappages_log_erase (k : Kernel) (pagetable va size pa perm pagesize : Nat) :
    (mappages_log k pagetable va size pa perm pagesize).map (fun r => (r.1, r.2.1))
      = mappages k pagetable va size pa perm pagesize := by
  unfold mappages_log mappages
  split
  · rfl
  · split
    · rfl
    · split
      · rfl
      · exact mappages_log_loop_erase _ _ _ _ _ _ _ _

/-- The walk that may not allocate, written out. -/
theorem walk_noalloc (k : Kernel) (pagetable va : Nat) :
    walk k pagetable va false =
      (k, if read64 k.mem (pagetable + 8 * PX 2 va) &&& PTE_V = 0 then 0
          else if read64 k.mem (PTE2PA (read64 k.mem (pagetable + 8 * PX 2 va)) + 8 * PX 1 va)
              &&& PTE_V = 0 then 0
          else PTE2PA (read64 k.mem
            (PTE2PA (read64 k.mem (pagetable + 8 * PX 2 va)) + 8 * PX 1 va)) + 8 * PX 0 va) := by
  unfold walk
  rw [walk_loop]
  dsimp only
  by_cases h2 : read64 k.mem (pagetable + 8 * PX 2 va) &&& PTE_V = 0
  · simp only [h2, ne_eq, not_true_eq_false, if_false, if_true]
  · simp only [h2, ne_eq, not_false_eq_true, if_true, if_false]
    rw [walk_loop]
    dsimp only
    by_cases h1 : read64 k.mem (PTE2PA (read64 k.mem (pagetable + 8 * PX 2 va)) + 8 * PX 1 va)
        &&& PTE_V = 0
    · simp only [h1, ne_eq, not_true_eq_false, if_false, if_true]
    · simp only [h1, ne_eq, not_false_eq_true, if_true, if_false]
      rw [walk_loop]

/-! ## Bit lemmas -/

/-- A table index is below 512. -/
theorem PX_lt (level va : Nat) : PX level va < 512 := by
  unfold PX
  have := @Nat.and_le_right (va >>> (12 + 9 * level)) 0x1FF
  omega

/-- The valid bit is the lowest bit. -/
theorem and_PTE_V (x : Nat) : x &&& PTE_V = x % 2 := Nat.and_one_is_mod x

/-- The macro `PA2PTE` in arithmetic. -/
theorem PA2PTE_eq (pa : Nat) : PA2PTE pa = pa % 2 ^ 64 / 4096 * 1024 := by
  unfold PA2PTE W64
  rw [Nat.shiftLeft_eq, Nat.shiftRight_eq_div_pow]

/-- The macro `PTE2PA` in arithmetic. -/
theorem PTE2PA_eq (e : Nat) : PTE2PA e = e % 2 ^ 64 / 1024 * 4096 % 2 ^ 64 := by
  unfold PTE2PA W64
  rw [Nat.shiftLeft_eq, Nat.shiftRight_eq_div_pow]

/-- The address in an entry is 4 KiB-aligned. -/
theorem PTE2PA_aligned (e : Nat) : PTE2PA e % PGSIZE = 0 := by
  rw [PTE2PA_eq]
  unfold PGSIZE
  omega

/-- The page an entry names ends inside the `uint64` range. -/
theorem PTE2PA_lt (e : Nat) : PTE2PA e + PGSIZE ≤ 2 ^ 64 := by
  rw [PTE2PA_eq]
  unfold PGSIZE
  omega

/-- Flags below bit 10 do not overlap the address bits of an entry. -/
theorem entry_eq_add (pa flags : Nat) (hf : flags < 1024) :
    PA2PTE pa ||| flags = PA2PTE pa + flags := by
  rw [PA2PTE_eq]
  have h := Nat.mul_add_lt_is_or (i := 10) (b := flags) (by omega) (pa % 2 ^ 64 / 4096)
  have e : (2 : Nat) ^ 10 = 1024 := by norm_num
  rw [e] at h
  rw [Nat.mul_comm, h]

/-- The address read back from an entry is the page of the address stored. -/
theorem PTE2PA_entry (pa flags : Nat) (hf : flags < 1024) (hpa : pa < 2 ^ 64) :
    PTE2PA (PA2PTE pa ||| flags) = pa / 4096 * 4096 := by
  rw [entry_eq_add pa flags hf, PTE2PA_eq, PA2PTE_eq]
  omega

/-- A multiple of 1024 has none of the ten flag bits. -/
theorem low_and_eq_zero (x bit : Nat) (hx : x % 1024 = 0) (hb : bit < 1024) : x &&& bit = 0 := by
  have h1 : bit &&& (2 ^ 10 - 1) = bit := Nat.and_pow_two_sub_one_of_lt_two_pow (by omega)
  have h2 : x &&& (2 ^ 10 - 1) = 0 := by
    rw [Nat.and_pow_two_sub_one_eq_mod]
    omega
  rw [← h1, ← Nat.and_assoc, Nat.and_comm x bit, Nat.and_assoc, h2, Nat.and_zero]

/-- A flag bit of an entry is the flag bit of its flags. -/
theorem entry_and_bit (pa flags bit : Nat) (hb : bit < 1024) :
    (PA2PTE pa ||| flags) &&& bit = flags &&& bit := by
  rw [Nat.and_distrib_right, low_and_eq_zero (PA2PTE pa) bit (by rw [PA2PTE_eq]; omega) hb,
    Nat.zero_or]

/-- A set bit survives the mask of that bit. -/
theorem and_two_pow_ne_zero (x i : Nat) (h : x.testBit i = true) : x &&& 2 ^ i ≠ 0 := by
  intro h0
  have : (x &&& 2 ^ i).testBit i = true := by
    rw [Nat.testBit_and, h, Nat.testBit_two_pow_self]
    rfl
  rw [h0, Nat.zero_testBit] at this
  exact Bool.noConfusion this

/-- The flags of a leaf stay below bit 10. -/
theorem leaf_flags_lt (perm tag : Nat) (hp : perm < 1024) (ht : tag = 0 ∨ tag = PTE_PS) :
    perm ||| PTE_V ||| tag < 1024 := by
  have e : (1024 : Nat) = 2 ^ 10 := by norm_num
  rw [e]
  apply Nat.or_lt_two_pow
  · apply Nat.or_lt_two_pow
    · omega
    · unfold PTE_V; omega
  · rcases ht with h | h <;> rw [h]
    · omega
    · unfold PTE_PS; omega

/-- The entry of a leaf, with its flags grouped. -/
theorem leaf_entry_assoc (pa perm tag : Nat) :
    PA2PTE pa ||| perm ||| PTE_V ||| tag = PA2PTE pa ||| (perm ||| PTE_V ||| tag) := by
  rw [Nat.or_assoc, Nat.or_assoc, Nat.or_assoc]

/-- The entry `mappages` writes is valid. -/
theorem leaf_entry_valid (pa perm tag : Nat) :
    (PA2PTE pa ||| perm ||| PTE_V ||| tag) &&& PTE_V ≠ 0 := by
  rw [and_PTE_V]
  have : (PA2PTE pa ||| perm ||| PTE_V ||| tag) % 2 = 1 := by
    simp [Nat.or_mod_two_eq_one, PTE_V]
  omega

/-- The entry of a large leaf has `PTE_PS`. -/
theorem leaf_entry_tagged (pa perm : Nat) :
    (PA2PTE pa ||| perm ||| PTE_V ||| PTE_PS) &&& PTE_PS ≠ 0 := by
  have : PTE_PS = 2 ^ 7 := by decide
  rw [this]
  apply and_two_pow_ne_zero
  rw [Nat.testBit_or, Nat.testBit_two_pow_self]
  simp

/-- The entry `mappages` writes holds the page of `pa`. -/
theorem leaf_entry_pa (pa perm tag : Nat) (hp : perm < 1024) (ht : tag = 0 ∨ tag = PTE_PS)
    (hpa : pa < 2 ^ 64) :
    PTE2PA (PA2PTE pa ||| perm ||| PTE_V ||| tag) = pa / 4096 * 4096 := by
  rw [leaf_entry_assoc, PTE2PA_entry pa _ (leaf_flags_lt perm tag hp ht) hpa]

/-- The entry `mappages` writes is a `uint64`. -/
theorem leaf_entry_lt (pa perm tag : Nat) (hp : perm < 1024) (ht : tag = 0 ∨ tag = PTE_PS) :
    PA2PTE pa ||| perm ||| PTE_V ||| tag < 2 ^ 64 := by
  rw [leaf_entry_assoc, entry_eq_add pa _ (leaf_flags_lt perm tag hp ht), PA2PTE_eq]
  have := leaf_flags_lt perm tag hp ht
  omega

/-- The entry `walk` writes for a new table is valid. -/
theorem interior_entry_valid (p : Nat) : (PA2PTE p ||| PTE_V) &&& PTE_V ≠ 0 := by
  rw [and_PTE_V]
  have : (PA2PTE p ||| PTE_V) % 2 = 1 := by
    simp [Nat.or_mod_two_eq_one, PTE_V]
  omega

/-- The entry `walk` writes for a new table names that table. -/
theorem interior_entry_pa (p : Nat) (hp : p % PGSIZE = 0) (hlt : p < 2 ^ 64) :
    PTE2PA (PA2PTE p ||| PTE_V) = p := by
  rw [PTE2PA_entry p PTE_V (by decide) hlt]
  unfold PGSIZE at hp
  omega

/-- The entry `walk` writes for a new table is a `uint64`. -/
theorem interior_entry_lt (p : Nat) : PA2PTE p ||| PTE_V < 2 ^ 64 := by
  rw [entry_eq_add p PTE_V (by decide), PA2PTE_eq]
  unfold PTE_V
  omega

/-- Every leaf in the log of `mappages_log_loop` satisfies `LeafOk`. -/
theorem mappages_log_loop_leaves (va pa perm pagesize : Nat) (hperm : perm < 1024) :
    ∀ (fuel : Nat) (k : Kernel) (pagetable a last pa_i off : Nat) (k1 : Kernel) (r : Int)
      (log : List (Nat × Nat × Nat × Nat)),
      a = (va + off) % 2 ^ 64 → pa_i = (pa + off) % 2 ^ 64 →
      mappages_log_loop fuel k pagetable a last pa_i perm pagesize = .ok (k1, r, log) →
      ∀ rec ∈ log, LeafOk va pa rec := by
  intro fuel
  induction fuel with
  | zero =>
    intro k pagetable a last pa_i off k1 r log _ _ h
    simp [mappages_log_loop] at h
  | succ fuel ih =>
    intro k pagetable a last pa_i off k1 r log ha hpa h
    rw [mappages_log_loop] at h
    dsimp only at h
    have hG : GBSIZE = 1073741824 := by decide
    have hM : MB2SIZE = 2097152 := by decide
    have hP : PGSIZE = 4096 := rfl
    have hpalt : pa_i < 2 ^ 64 := by omega
    -- the record of this iteration
    have hrec : ∀ (slot : Nat),
        LeafOk va pa (a, slot,
          PA2PTE pa_i ||| perm ||| PTE_V |||
            (if a % GBSIZE = 0 ∧ add64 (sub64 last a) pagesize ≥ GBSIZE then PTE_PS
              else if a % MB2SIZE = 0 ∧ add64 (sub64 last a) pagesize ≥ MB2SIZE then PTE_PS
              else 0),
          if a % GBSIZE = 0 ∧ add64 (sub64 last a) pagesize ≥ GBSIZE then GBSIZE
            else if a % MB2SIZE = 0 ∧ add64 (sub64 last a) pagesize ≥ MB2SIZE then MB2SIZE
            else PGSIZE) := by
      intro slot
      unfold LeafOk
      dsimp only
      refine ⟨leaf_entry_valid _ _ _, PTE2PA_aligned _, ?_, ?_⟩
      · by_cases c1 : a % GBSIZE = 0 ∧ add64 (sub64 last a) pagesize ≥ GBSIZE
        · rw [if_pos c1]; exact Or.inr (Or.inr rfl)
        · rw [if_neg c1]
          by_cases c2 : a % MB2SIZE = 0 ∧ add64 (sub64 last a) pagesize ≥ MB2SIZE
          · rw [if_pos c2]; exact Or.inr (Or.inl rfl)
          · rw [if_neg c2]; exact Or.inl rfl
      · by_cases c1 : a % GBSIZE = 0 ∧ add64 (sub64 last a) pagesize ≥ GBSIZE
        · rw [if_pos c1, if_pos c1]
          intro _
          refine ⟨leaf_entry_tagged _ _, c1.1, ?_⟩
          intro hcong
          rw [leaf_entry_pa pa_i perm PTE_PS hperm (Or.inr rfl) hpalt]
          have := c1.1
          rw [hG] at *
          omega
        · rw [if_neg c1, if_neg c1]
          by_cases c2 : a % MB2SIZE = 0 ∧ add64 (sub64 last a) pagesize ≥ MB2SIZE
          · rw [if_pos c2, if_pos c2]
            intro _
            refine ⟨leaf_entry_tagged _ _, c2.1, ?_⟩
            intro hcong
            rw [leaf_entry_pa pa_i perm PTE_PS hperm (Or.inr rfl) hpalt]
            have := c2.1
            rw [hM] at *
            omega
          · rw [if_neg c2, if_neg c2]
            intro hg
            rw [hP, hM, hG] at hg
            omega
    generalize (if a % GBSIZE = 0 ∧ add64 (sub64 last a) pagesize ≥ GBSIZE then GBSIZE
      else if a % MB2SIZE = 0 ∧ add64 (sub64 last a) pagesize ≥ MB2SIZE then MB2SIZE
      else PGSIZE) = step at h hrec
    generalize (if a % GBSIZE = 0 ∧ add64 (sub64 last a) pagesize ≥ GBSIZE then PTE_PS
      else if a % MB2SIZE = 0 ∧ add64 (sub64 last a) pagesize ≥ MB2SIZE then PTE_PS
      else 0) = tag at h hrec
    generalize hw : walk k pagetable a true = w at h
    obtain ⟨k2, pte⟩ := w
    dsimp only at h
    by_cases h0 : pte = 0
    · rw [if_pos h0] at h
      simp only [Except.ok.injEq, Prod.mk.injEq] at h
      intro rec hm
      rw [← h.2.2] at hm
      simp at hm
    · rw [if_neg h0] at h
      by_cases hv : read64 k2.mem pte &&& PTE_V ≠ 0
      · rw [if_pos hv] at h
        cases h
      · rw [if_neg hv] at h
        by_cases hl : add64 a step > last
        · rw [if_pos hl] at h
          simp only [Except.ok.injEq, Prod.mk.injEq] at h
          intro rec hm
          rw [← h.2.2] at hm
          rw [List.mem_singleton] at hm
          rw [hm]
          exact hrec pte
        · rw [if_neg hl] at h
          split at h
          · cases h
          · rename_i k3 r3 log3 hrest
            simp only [Except.ok.injEq, Prod.mk.injEq] at h
            intro rec hm
            rw [← h.2.2] at hm
            rcases List.mem_cons.mp hm with hm | hm
            · rw [hm]
              exact hrec pte
            · refine ih _ pagetable _ last _ (off + step) k3 r3 log3 ?_ ?_ hrest rec hm
              · unfold add64 W64
                rw [ha]
                omega
              · unfold add64 W64
                rw [hpa]
                omega

/-! ## Claims C15 to C20, and the runs for C14 -/

/-- Whenever `uvmdealloc` shrinks and returns, the value returned is `newsz` rounded up
to a page boundary. -/
theorem uvmdealloc_returns_ceiling (k k1 : Kernel) (pagetable oldsz newsz r : Nat)
    (hlt : newsz < oldsz) (h : uvmdealloc k pagetable oldsz newsz = .ok (k1, r)) :
    r = PGROUNDUP newsz := by
  unfold uvmdealloc at h
  have : ¬ (newsz ≥ oldsz) := by omega
  rw [if_neg this] at h
  split at h
  · cases h
  · simp only [Except.ok.injEq, Prod.mk.injEq] at h
    exact h.2.symm

/-- Claim C15, a failed clone and the source.  In `clone_failure_run` the source has
one 2 MiB large leaf backed by the block at `0x80200000` and the free list is
`0x801ff000, 0x80005000`.  The call of `uvmcopy` returns -1, and afterwards the byte at
offset 100 of the source block is 1 instead of `0xAB` and the first page of the
source block, `0x80200000`, is the head of the free list. -/
theorem uvmcopy_failure_frees_source_page : clone_failure_run
      = .ok (-1, 0xAB, 1, [0x801ff000, 0x80005000], [0x80200000, 0x801ff000]) := by
  decide!

/-- Claim C16, the value a shrink returns.  Two pages are mapped and
`uvmdealloc(pagetable, 8192, 100)` is called: it returns 4096, not 100, and the second
page is unmapped. -/
theorem uvmdealloc_returns_page_ceiling : shrink_result_run = .ok (8192, 4096, 0) := by
  decide!

/-- Claim C17, a shrink into a large leaf.  From the empty table of `grow_state`,
`uvmalloc(pagetable, 0, 2 MiB, PTE_W)` returns 2 MiB, having mapped one 2 MiB large
leaf.  On the state it leaves, `uvmdealloc(pagetable, 2 MiB, 0)` returns 0, and
`uvmdealloc(pagetable, 2 MiB, 4096)` panics in `uvmunmap` with "not mapped". -/
theorem uvmdealloc_panics_inside_large_leaf :
    (uvmalloc grow_state 0x80002000 0 (2 * 1024 * 1024) PTE_W).map
      (fun r => (r.2, (uvmdealloc r.1 0x80002000 r.2 0).map Prod.snd,
        (uvmdealloc r.1 0x80002000 r.2 PGSIZE).map Prod.snd))
      = .ok (2 * 1024 * 1024, .ok 0, .error Fault.uvmunmap_not_mapped) := by
  have hs := superalloc_asc grow_state 0x80200000 grow_base.1.freelist (by decide) rfl
    (run_mem_AscRun _ _ _ _ (by decide!) (by norm_num [PGSIZE]))
  unfold uvmalloc
  have hf : 2 * 1024 * 1024 / PGSIZE + 2 = 513 + 1 := by decide
  rw [hf, uvmalloc_loop_super 513 grow_state _ 0x80002000 (PGROUNDUP 0) (2 * 1024 * 1024) PTE_W
    0x80200000 (by decide) (by decide) hs (by decide)]
  decide!

/-- Claim C19, the offset inside a small page.  In `offset_translate_run`, `mappages`
returns 0; `walkaddr` of `0x123`, inside the large leaf, is `0x40000123`; `walkaddr` of
2 MiB, the small leaf, is `0x40200000`; and `walkaddr` of 2 MiB + `0x123` is
`0x40200000` too, without the offset `0x123`. -/
theorem walkaddr_drops_small_page_offset : offset_translate_run = .ok (0, 0x40000123, 0x40200000, 0x40200000) := by
  decide!

/-- Claim C18, a large leaf with an unaligned physical address.  The call
`mappages(table, 0, 2 MiB, 0x40001000, PTE_R | PTE_W, 4096)` passes its checks and
returns 0, and the one leaf it writes is a 2 MiB unit tagged `PTE_PS` whose physical
address `0x40001000` is 4096 modulo 2 MiB. -/
theorem mappages_large_leaf_unaligned_pa :
    unaligned_leaf_log.map (fun r => r.2.1) = .ok 0 ∧
    unaligned_leaf_log.map (fun r => r.2.2.map
      (fun w => (w.1, w.2.2.1 &&& PTE_PS, PTE2PA w.2.2.1, PTE2PA w.2.2.1 % w.2.2.2, w.2.2.2)))
      = .ok [(0, PTE_PS, 0x40001000, 4096, MB2SIZE)] := by
  decide!

/-- Claim C18, amended.  Every leaf a call `mappages(table, va, size, pa, perm,
pagesize)` with `perm < 1024` writes is valid and holds a 4 KiB-aligned physical
address; its span is 4 KiB, 2 MiB or 1 GiB; and a leaf installed as a 2 MiB or a
1 GiB unit is tagged `PTE_PS`, starts at a virtual address that is a multiple of its
span, and holds a physical address that is a multiple of its span whenever `pa` is
congruent to `va` modulo that span. -/
theorem mappages_leaves_aligned (k : Kernel) (pagetable va size pa perm pagesize : Nat)
    (k1 : Kernel) (r : Int) (log : List (Nat × Nat × Nat × Nat))
    (hva : va < 2 ^ 64) (hpa : pa < 2 ^ 64) (hperm : perm < 1024)
    (h : mappages_log k pagetable va size pa perm pagesize = .ok (k1, r, log)) :
    ∀ a slot e g, (a, slot, e, g) ∈ log →
      e &&& PTE_V ≠ 0 ∧ PTE2PA e % PGSIZE = 0 ∧
      (g = PGSIZE ∨ g = MB2SIZE ∨ g = GBSIZE) ∧
      (g = MB2SIZE ∨ g = GBSIZE →
        e &&& PTE_PS ≠ 0 ∧ a % g = 0 ∧ (pa % g = va % g → PTE2PA e % g = 0)) := by
  intro a slot e g hm
  unfold mappages_log at h
  split at h
  · cases h
  · split at h
    · cases h
    · split at h
      · cases h
      · exact mappages_log_loop_leaves va pa perm pagesize hperm _ k pagetable va _ pa 0 k1 r log
          (by omega) (by omega) h (a, slot, e, g) hm

/-- The theorem `mappages_leaves_aligned` applies to the call that maps 2 MiB + 4 KiB
at the virtual address 2 MiB to `0x40200000`, which returns 0 and writes one 2 MiB
leaf and one 4 KiB leaf. -/
theorem mappages_leaves_aligned_witness :
    (mappages_log map_base.1 map_base.2 MB2SIZE (MB2SIZE + PGSIZE) 0x40200000
        (PTE_R ||| PTE_W) PGSIZE = .ok aligned_leaf_log ∧
      aligned_leaf_log.2.1 = 0 ∧
      aligned_leaf_log.2.2.map (fun w => (w.1, PTE2PA w.2.2.1, w.2.2.2))
        = [(MB2SIZE, 0x40200000, MB2SIZE), (2 * MB2SIZE, 0x40400000, PGSIZE)]) ∧
    ∀ a slot e g, (a, slot, e, g) ∈ aligned_leaf_log.2.2 →
      e &&& PTE_V ≠ 0 ∧ PTE2PA e % PGSIZE = 0 ∧
      (g = PGSIZE ∨ g = MB2SIZE ∨ g = GBSIZE) ∧
      (g = MB2SIZE ∨ g = GBSIZE →
        e &&& PTE_PS ≠ 0 ∧ a % g = 0 ∧
        (0x40200000 % g = MB2SIZE % g → PTE2PA e % g = 0)) :=
  ⟨⟨rfl, by decide!, by decide!⟩,
    mappages_leaves_aligned map_base.1 map_base.2 MB2SIZE (MB2SIZE + PGSIZE) 0x40200000
      (PTE_R ||| PTE_W) PGSIZE aligned_leaf_log.1 aligned_leaf_log.2.1 aligned_leaf_log.2.2
      (by decide) (by norm_num) (by decide) rfl⟩

/-! ## Claim C13 -/

/-- A 64-bit load apart from a 64-bit store sees the old memory. -/
theorem read64_write64_other (m : Mem) (a v b : Nat) (h : b + 8 ≤ a ∨ a + 8 ≤ b) :
    read64 (write64 m a v) b = read64 m b := by
  apply read64_congr
  intro i hi
  exact write64_other m a v (b + i) (by omega)

/-- A 64-bit load outside the range of a `memset` sees the old memory. -/
theorem read64_memset_other (m : Mem) (d c n b : Nat) (h : b + 8 ≤ d ∨ d + n ≤ b) :
    read64 (memset m d c n) b = read64 m b := by
  apply read64_congr
  intro i hi
  exact memset_other m d c n (b + i) (by omega)

/-- The bytes `memset` writes. -/
theorem memset_same (m : Mem) (d c n x : Nat) (h : d ≤ x ∧ x < d + n) :
    memset m d c n x = c % 256 := by
  unfold memset
  simp only [h, and_self, if_true]

/-- A 64-bit load inside a range zeroed by `memset` returns 0. -/
theorem read64_memset_zero (m : Mem) (d n b : Nat) (h : d ≤ b ∧ b + 8 ≤ d + n) :
    read64 (memset m d 0 n) b = 0 := by
  unfold read64
  rw [memset_same m d 0 n b (by omega), memset_same m d 0 n (b + 1) (by omega),
    memset_same m d 0 n (b + 2) (by omega), memset_same m d 0 n (b + 3) (by omega),
    memset_same m d 0 n (b + 4) (by omega), memset_same m d 0 n (b + 5) (by omega),
    memset_same m d 0 n (b + 6) (by omega), memset_same m d 0 n (b + 7) (by omega)]
  rfl

/-- The function `kalloc` on a free list that is not empty. -/
theorem kalloc_eq (k : Kernel) (h : k.freelist ≠ 0) :
    kalloc k = (⟨k.kernel_end, k.PHYSTOP, read64 k.mem k.freelist,
      memset k.mem k.freelist 5 PGSIZE⟩, k.freelist) := by
  unfold kalloc
  dsimp only
  rw [if_pos h]

/-- The walk with allocation on an empty top table, when the free list holds at
least two pages: both table pages are taken from the list, zeroed and linked. -/
theorem walk_alloc_empty (kend phystop : Nat) (k : Kernel) (live : List Nat) (p1 p2 : Nat)
    (l2 : List Nat) (root va : Nat)
    (hinv : AllocInv kend phystop k live (p1 :: p2 :: l2)) (hroot : root ∈ live)
    (hempty : EmptyTable k.mem root) :
    walk k root va true =
      (⟨k.kernel_end, k.PHYSTOP, read64 k.mem p2,
        write64 (memset (memset (write64 (memset (memset k.mem p1 5 PGSIZE) p1 0 PGSIZE)
          (root + 8 * PX 2 va) (PA2PTE p1 ||| PTE_V)) p2 5 PGSIZE) p2 0 PGSIZE)
          (p1 + 8 * PX 1 va) (PA2PTE p2 ||| PTE_V)⟩, p2 + 8 * PX 0 va) := by
  have hP : PGSIZE = 4096 := rfl
  obtain ⟨e1, hp1, hc1⟩ := hinv.chain
  obtain ⟨e2, hp2, _⟩ := hc1
  have hr1 := hinv.range p1 (List.mem_cons_self _ _)
  have hr2 := hinv.range p2 (List.mem_cons_of_mem _ (List.mem_cons_self _ _))
  have hrr := hinv.live_range root hroot
  have hne12 : p1 ≠ p2 := by
    intro e
    have := (List.nodup_cons.mp hinv.nodup).1
    exact this (e ▸ List.mem_cons_self _ _)
  have hner1 : root ≠ p1 := fun e => hinv.disjoint root hroot (e ▸ List.mem_cons_self _ _)
  have hner2 : root ≠ p2 := fun e =>
    hinv.disjoint root hroot (e ▸ List.mem_cons_of_mem _ (List.mem_cons_self _ _))
  have a12 := page_apart p1 p2 hr1.1 hr2.1 hne12
  have ar1 := page_apart root p1 hrr.2.1 hr1.1 hner1
  have ar2 := page_apart root p2 hrr.2.1 hr2.1 hner2
  have hx2 := PX_lt 2 va
  have hx1 := PX_lt 1 va
  have hx0 := PX_lt 0 va
  unfold walk
  rw [walk_loop]
  dsimp only
  have hv2 : ¬ (read64 k.mem (root + 8 * PX 2 va) &&& PTE_V ≠ 0) := by
    rw [hempty _ hx2]
    exact fun h => h rfl
  rw [if_neg hv2]
  simp only [Bool.true_eq_false, if_false]
  rw [kalloc_eq k (by rw [e1]; exact hp1)]
  dsimp only
  rw [e1, if_neg hp1]
  rw [walk_loop]
  dsimp only
  have hz1 : read64 (write64 (memset (memset k.mem p1 5 PGSIZE) p1 0 PGSIZE)
      (root + 8 * PX 2 va) (PA2PTE p1 ||| PTE_V)) (p1 + 8 * PX 1 va) = 0 := by
    rw [read64_write64_other _ _ _ _ (by omega), read64_memset_zero _ _ _ _ (by omega)]
  have hv1 : ¬ (read64 (write64 (memset (memset k.mem p1 5 PGSIZE) p1 0 PGSIZE)
      (root + 8 * PX 2 va) (PA2PTE p1 ||| PTE_V)) (p1 + 8 * PX 1 va) &&& PTE_V ≠ 0) := by
    rw [hz1]
    exact fun h => h rfl
  rw [if_neg hv1]
  simp only [Bool.true_eq_false, if_false]
  rw [e2]
  rw [kalloc_eq _ (by exact hp2)]
  dsimp only
  rw [if_neg hp2]
  rw [walk_loop]
  have hl : read64 (write64 (memset (memset k.mem p1 5 PGSIZE) p1 0 PGSIZE)
      (root + 8 * PX 2 va) (PA2PTE p1 ||| PTE_V)) p2 = read64 k.mem p2 := by
    rw [read64_write64_other _ _ _ _ (by omega), read64_memset_other _ _ _ _ _ (by omega),
      read64_memset_other _ _ _ _ _ (by omega)]
  rw [hl]

/-- One iteration of the logged loop of `mappages`, read backwards from a result. -/
theorem mappages_log_loop_step (fuel : Nat) (k : Kernel) (pagetable a last pa perm pagesize : Nat)
    (step tag : Nat) (k1 : Kernel) (r : Int) (log : List (Nat × Nat × Nat × Nat))
    (hstep : step = if a % GBSIZE = 0 ∧ add64 (sub64 last a) pagesize ≥ GBSIZE then GBSIZE
      else if a % MB2SIZE = 0 ∧ add64 (sub64 last a) pagesize ≥ MB2SIZE then MB2SIZE
      else PGSIZE)
    (htag : tag = if a % GBSIZE = 0 ∧ add64 (sub64 last a) pagesize ≥ GBSIZE then PTE_PS
      else if a % MB2SIZE = 0 ∧ add64 (sub64 last a) pagesize ≥ MB2SIZE then PTE_PS
      else 0)
    (h : mappages_log_loop (fuel + 1) k pagetable a last pa perm pagesize = .ok (k1, r, log)) :
    ((walk k pagetable a true).2 = 0 ∧ r = -1 ∧ log = []) ∨
    ((walk k pagetable a true).2 ≠ 0 ∧
      read64 (walk k pagetable a true).1.mem (walk k pagetable a true).2 &&& PTE_V = 0 ∧
      ((add64 a step > last ∧ r = 0 ∧
          k1 = { (walk k pagetable a true).1 with mem :=
            (write64 (walk k pagetable a true).1.mem (walk k pagetable a true).2
              (PA2PTE pa ||| perm ||| PTE_V ||| tag)) } ∧
          log = [(a, (walk k pagetable a true).2, PA2PTE pa ||| perm ||| PTE_V ||| tag, step)]) ∨
        (¬ add64 a step > last ∧ ∃ rest,
          mappages_log_loop fuel
            { (walk k pagetable a true).1 with mem :=
              (write64 (walk k pagetable a true).1.mem (walk k pagetable a true).2
                (PA2PTE pa ||| perm ||| PTE_V ||| tag)) }
            pagetable (add64 a step) last (add64 pa step) perm pagesize = .ok (k1, r, rest) ∧
          log = (a, (walk k pagetable a true).2, PA2PTE pa ||| perm ||| PTE_V ||| tag, step)
            :: rest))) := by
  rw [mappages_log_loop] at h
  dsimp only at h
  rw [← hstep, ← htag] at h
  generalize walk k pagetable a true = w at h
  obtain ⟨k2, pte⟩ := w
  dsimp only at h ⊢
  by_cases h0 : pte = 0
  · rw [if_pos h0] at h
    simp only [Except.ok.injEq, Prod.mk.injEq] at h
    exact Or.inl ⟨h0, h.2.1.symm, h.2.2.symm⟩
  · rw [if_neg h0] at h
    by_cases hv : read64 k2.mem pte &&& PTE_V ≠ 0
    · rw [if_pos hv] at h
      cases h
    · rw [if_neg hv] at h
      refine Or.inr ⟨h0, not_not.mp hv, ?_⟩
      by_cases hl : add64 a step > last
      · rw [if_pos hl] at h
        simp only [Except.ok.injEq, Prod.mk.injEq] at h
        exact Or.inl ⟨hl, h.2.1.symm, h.1.symm, h.2.2.symm⟩
      · rw [if_neg hl] at h
        right
        refine ⟨hl, ?_⟩
        split at h
        · cases h
        · rename_i k3 r3 log3 hrest
          simp only [Except.ok.injEq, Prod.mk.injEq] at h
          refine ⟨log3, ?_, h.2.2.symm⟩
          rw [hrest, h.1, h.2.1]

/-- The first record of the log is for the address the loop starts at, and a run
that returns 0 has written a leaf. -/
theorem mappages_log_loop_head (fuel : Nat) (k : Kernel) (pagetable a last pa perm pagesize : Nat)
    (k1 : Kernel) (r : Int) (log : List (Nat × Nat × Nat × Nat))
    (h : mappages_log_loop fuel k pagetable a last pa perm pagesize = .ok (k1, r, log)) :
    (∀ w ∈ log.head?, w.1 = a) ∧ (r = 0 → log ≠ []) := by
  cases fuel with
  | zero => simp [mappages_log_loop] at h
  | succ fuel =>
    rcases mappages_log_loop_step fuel k pagetable a last pa perm pagesize _ _ k1 r log rfl rfl h
      with ⟨_, hr, hl⟩ | ⟨_, _, ⟨_, _, _, hl⟩ | ⟨_, rest, _, hl⟩⟩
    · rw [hl, hr]
      simp
    · rw [hl]
      simp
    · rw [hl]
      simp

/-- The function `kalloc` on the empty free list. -/
theorem kalloc_none (k : Kernel) (h : k.freelist = 0) : kalloc k = (k, 0) := by
  unfold kalloc
  dsimp only
  rw [if_neg (by rw [h]; exact fun h => h rfl)]

/-- With fewer than two free pages the allocating walk on an empty top table fails. -/
theorem walk_alloc_empty_short (kend phystop : Nat) (k : Kernel) (live l : List Nat)
    (root va : Nat) (hinv : AllocInv kend phystop k live l) (hroot : root ∈ live)
    (hempty : EmptyTable k.mem root) (hl : l.length < 2) :
    (walk k root va true).2 = 0 := by
  have hP : PGSIZE = 4096 := rfl
  have hx2 := PX_lt 2 va
  have hx1 := PX_lt 1 va
  have hv2 : ¬ (read64 k.mem (root + 8 * PX 2 va) &&& PTE_V ≠ 0) := by
    rw [hempty _ hx2]
    exact fun h => h rfl
  unfold walk
  rw [walk_loop]
  dsimp only
  rw [if_neg hv2]
  simp only [Bool.true_eq_false, if_false]
  match l, hinv, hl with
  | [], hinv, _ =>
    have h0 : k.freelist = 0 := hinv.chain
    rw [kalloc_none k h0]
    dsimp only
    rw [if_pos rfl]
  | [p1], hinv, _ =>
    obtain ⟨e1, hp1, hc1⟩ := hinv.chain
    have e2 : read64 k.mem p1 = 0 := hc1
    have hr1 := hinv.range p1 (List.mem_cons_self _ _)
    have hrr := hinv.live_range root hroot
    have hner1 : root ≠ p1 := fun e => hinv.disjoint root hroot (e ▸ List.mem_cons_self _ _)
    have ar1 := page_apart root p1 hrr.2.1 hr1.1 hner1
    rw [kalloc_eq k (by rw [e1]; exact hp1)]
    dsimp only
    rw [e1, if_neg hp1]
    rw [walk_loop]
    dsimp only
    have hz1 : read64 (write64 (memset (memset k.mem p1 5 PGSIZE) p1 0 PGSIZE)
        (root + 8 * PX 2 va) (PA2PTE p1 ||| PTE_V)) (p1 + 8 * PX 1 va) = 0 := by
      rw [read64_write64_other _ _ _ _ (by omega), read64_memset_zero _ _ _ _ (by omega)]
    have hv1 : ¬ (read64 (write64 (memset (memset k.mem p1 5 PGSIZE) p1 0 PGSIZE)
        (root + 8 * PX 2 va) (PA2PTE p1 ||| PTE_V)) (p1 + 8 * PX 1 va) &&& PTE_V ≠ 0) := by
      rw [hz1]
      exact fun h => h rfl
    rw [if_neg hv1]
    simp only [Bool.true_eq_false, if_false]
    rw [e2]
    rw [kalloc_none _ rfl]
    dsimp only
    rw [if_pos rfl]
  | _ :: _ :: _, _, hl =>
    simp only [List.length_cons] at hl
    omega

/-- Claim C13, largest-granularity choice.  In a state where the allocator invariant
holds and `root` is an empty top table, let `va` and `pa` be multiples of 1 GiB and
`size ≥ 1 GiB`, and let the logged `mappages(root, va, size, pa, perm, PGSIZE)` return
0.  Then the first leaf written is one 1 GiB unit at `va`: its entry is valid, tagged
`PTE_PS` and holds `pa`.  With `size > 1 GiB` the next leaf written starts at
`va + 1 GiB`.  With `size = 1 GiB` it is the only leaf written, the slot is the one
`walk` returns for `va` in the final state, and the slot holds the entry. -/
theorem mappages_gigabyte_single_leaf (kend phystop : Nat) (k : Kernel) (live l : List Nat)
    (root va size pa perm : Nat) (k1 : Kernel) (log : List (Nat × Nat × Nat × Nat))
    (hphys : phystop ≤ 2 ^ 64)
    (hinv : AllocInv kend phystop k live l) (hroot : root ∈ live)
    (hempty : EmptyTable k.mem root)
    (hva : va % GBSIZE = 0) (hpa : pa % GBSIZE = 0) (hsize : GBSIZE ≤ size)
    (hend : va + size < 2 ^ 64) (hpalt : pa < 2 ^ 64) (hperm : perm < 1024)
    (h : mappages_log k root va size pa perm PGSIZE = .ok (k1, 0, log)) :
    ∃ slot e rest, log = (va, slot, e, GBSIZE) :: rest ∧ slot ≠ 0 ∧
      e &&& PTE_V ≠ 0 ∧ e &&& PTE_PS ≠ 0 ∧ PTE2PA e = pa ∧
      (GBSIZE < size → ∃ w rest2, rest = w :: rest2 ∧ w.1 = va + GBSIZE) ∧
      (size = GBSIZE →
        rest = [] ∧ (walk k1 root va false).2 = slot ∧ read64 k1.mem slot = e) := by
  have hG : GBSIZE = 1073741824 := by decide
  have hP : PGSIZE = 4096 := rfl
  unfold mappages_log at h
  rw [if_neg (by rw [hP]; rw [hG] at hva; omega)] at h
  by_cases hs : size % PGSIZE ≠ 0
  · rw [if_pos hs] at h
    cases h
  rw [if_neg hs] at h
  rw [if_neg (by rw [hG] at hsize; omega : ¬ size = 0)] at h
  have hs2 : size % 4096 = 0 := by
    rw [hP] at hs
    omega
  have hlast : sub64 (add64 va size) PGSIZE = va + size - 4096 := by
    unfold sub64 add64 W64
    rw [hP]
    rw [hG] at hsize
    omega
  rw [hlast] at h
  have hroom : add64 (sub64 (va + size - 4096) va) PGSIZE ≥ GBSIZE := by
    unfold sub64 add64 W64
    rw [hP, hG]
    rw [hG] at hsize
    omega
  have hnext : add64 va GBSIZE = va + GBSIZE := by
    unfold add64 W64
    rw [hG] at hsize ⊢
    omega
  have hpa2 : pa / 4096 * 4096 = pa := by
    rw [hG] at hpa
    omega
  refine ⟨(walk k root va true).2, PA2PTE pa ||| perm ||| PTE_V ||| PTE_PS, log.tail, ?_⟩
  rcases mappages_log_loop_step _ k root va _ pa perm PGSIZE GBSIZE PTE_PS k1 0 log
      (if_pos ⟨hva, hroom⟩).symm (if_pos ⟨hva, hroom⟩).symm h
    with ⟨_, hr, _⟩ | ⟨hslot, _, ⟨hgt, _, hk1, hl⟩ | ⟨hle, rest, hrest, hl⟩⟩
  · cases hr
  · -- the request is one unit
    have hsz : size = GBSIZE := by
      rw [hnext] at hgt
      rw [hG] at hsize hgt ⊢
      omega
    refine ⟨by rw [hl]; rfl, hslot, leaf_entry_valid _ _ _, leaf_entry_tagged _ _, ?_, ?_, ?_⟩
    · rw [leaf_entry_pa pa perm PTE_PS hperm (Or.inr rfl) hpalt, hpa2]
    · intro hlt
      omega
    · intro _
      refine ⟨by rw [hl]; rfl, ?_⟩
      by_cases hlen : l.length < 2
      · exact absurd (walk_alloc_empty_short kend phystop k live l root va hinv hroot hempty hlen)
          hslot
      · match l, hinv, hlen with
        | [], _, hlen => simp at hlen
        | [_], _, hlen => simp at hlen
        | p1 :: p2 :: l2, hinv, _ =>
          have hw := walk_alloc_empty kend phystop k live p1 p2 l2 root va hinv hroot hempty
          rw [hw] at hk1 ⊢
          dsimp only at hk1 ⊢
          have hr1 := hinv.range p1 (List.mem_cons_self _ _)
          have hr2 := hinv.range p2 (List.mem_cons_of_mem _ (List.mem_cons_self _ _))
          have hrr := hinv.live_range root hroot
          have hne12 : p1 ≠ p2 := by
            intro e
            have := (List.nodup_cons.mp hinv.nodup).1
            exact this (e ▸ List.mem_cons_self _ _)
          have hner1 : root ≠ p1 :=
            fun e => hinv.disjoint root hroot (e ▸ List.mem_cons_self _ _)
          have hner2 : root ≠ p2 := fun e =>
            hinv.disjoint root hroot (e ▸ List.mem_cons_of_mem _ (List.mem_cons_self _ _))
          have a12 := page_apart p1 p2 hr1.1 hr2.1 hne12
          have ar1 := page_apart root p1 hrr.2.1 hr1.1 hner1
          have ar2 := page_apart root p2 hrr.2.1 hr2.1 hner2
          have hx2 := PX_lt 2 va
          have hx1 := PX_lt 1 va
          have hx0 := PX_lt 0 va
          have e2 : read64 k1.mem (root + 8 * PX 2 va) = PA2PTE p1 ||| PTE_V := by
            rw [hk1]
            dsimp only
            rw [read64_write64_other _ _ _ _ (by omega), read64_write64_other _ _ _ _ (by omega),
              read64_memset_other _ _ _ _ _ (by omega), read64_memset_other _ _ _ _ _ (by omega),
              read64_write64 _ _ _ (interior_entry_lt p1)]
          have e1 : read64 k1.mem (p1 + 8 * PX 1 va) = PA2PTE p2 ||| PTE_V := by
            rw [hk1]
            dsimp only
            rw [read64_write64_other _ _ _ _ (by omega),
              read64_write64 _ _ _ (interior_entry_lt p2)]
          have t1 : PTE2PA (PA2PTE p1 ||| PTE_V) = p1 := interior_entry_pa p1 hr1.1 (by omega)
          have t2 : PTE2PA (PA2PTE p2 ||| PTE_V) = p2 := interior_entry_pa p2 hr2.1 (by omega)
          constructor
          · rw [walk_noalloc]
            dsimp only
            rw [e2, t1, e1, t2, if_neg (interior_entry_valid p1), if_neg (interior_entry_valid p2)]
          · rw [hk1]
            dsimp only
            exact read64_write64 _ _ _ (leaf_entry_lt pa perm PTE_PS hperm (Or.inr rfl))
  · -- the request goes on behind the first unit
    have hsz : GBSIZE < size := by
      rw [hnext] at hle
      rw [hG] at hsize hle ⊢
      omega
    have hh := mappages_log_loop_head _ _ _ _ _ _ _ _ _ _ _ hrest
    refine ⟨by rw [hl]; rfl, hslot, leaf_entry_valid _ _ _, leaf_entry_tagged _ _, ?_, ?_, ?_⟩
    · rw [leaf_entry_pa pa perm PTE_PS hperm (Or.inr rfl) hpalt, hpa2]
    · intro _
      rw [hl]
      dsimp only [List.tail_cons]
      match rest, hh with
      | [], hh => exact absurd rfl (hh.2 rfl)
      | w :: rest2, hh =>
        refine ⟨w, rest2, rfl, ?_⟩
        rw [← hnext]
        exact hh.1 w rfl
    · intro he
      omega

/-- The allocator invariant on the machine `map_base`. -/
theorem map_base_inv : AllocInv 0x80000000 0x80004000 map_base.1 [0x80003000]
    [0x80002000, 0x80001000, 0x80000000] :=
  ⟨by decide!, by decide!,
    ⟨by decide!, by decide, by decide!, by decide, by decide!, by decide,
      (by decide! : read64 map_base.1.mem 0x80000000 = 0)⟩,
    by decide, by decide, by decide, by decide, by decide⟩

/-- The top table of `map_base` is empty. -/
theorem map_base_empty : EmptyTable map_base.1.mem map_base.2 := by
  unfold EmptyTable
  decide!

/-- The theorem `mappages_gigabyte_single_leaf` applies to the call that maps 1 GiB
at the virtual address 1 GiB on the machine `map_base`. -/
theorem mappages_gigabyte_single_leaf_witness :
    AllocInv 0x80000000 0x80004000 map_base.1 [0x80003000]
      [0x80002000, 0x80001000, 0x80000000] ∧
    EmptyTable map_base.1.mem map_base.2 ∧
    mappages_log map_base.1 map_base.2 GBSIZE GBSIZE 0x40000000 (PTE_R ||| PTE_W) PGSIZE
      = .ok (gigabyte_leaf_log.1, 0, gigabyte_leaf_log.2.2) ∧
    ∃ slot e rest, gigabyte_leaf_log.2.2 = (GBSIZE, slot, e, GBSIZE) :: rest ∧ slot ≠ 0 ∧
      e &&& PTE_V ≠ 0 ∧ e &&& PTE_PS ≠ 0 ∧ PTE2PA e = 0x40000000 ∧
      (GBSIZE < GBSIZE → ∃ w rest2, rest = w :: rest2 ∧ w.1 = GBSIZE + GBSIZE) ∧
      (GBSIZE = GBSIZE →
        rest = [] ∧ (walk gigabyte_leaf_log.1 map_base.2 GBSIZE false).2 = slot ∧
        read64 gigabyte_leaf_log.1.mem slot = e) :=
  ⟨map_base_inv, map_base_empty, rfl,
    mappages_gigabyte_single_leaf 0x80000000 0x80004000 map_base.1 [0x80003000]
      [0x80002000, 0x80001000, 0x80000000] map_base.2 GBSIZE GBSIZE 0x40000000
      (PTE_R ||| PTE_W) gigabyte_leaf_log.1 gigabyte_leaf_log.2.2 (by norm_num)
      map_base_inv (by decide!) map_base_empty (by decide) (by decide) (by decide)
      (by decide) (by norm_num) (by decide) rfl⟩

/-! ## Claim C11 -/

/-- The walk that may not allocate depends on the three words it reads only. -/
theorem walk_congr (k k2 : Kernel) (pagetable va : Nat)
    (h : ∀ s ∈ walk_words k pagetable va, read64 k2.mem s = read64 k.mem s) :
    (walk k2 pagetable va false).2 = (walk k pagetable va false).2 ∧
    walk_words k2 pagetable va = walk_words k pagetable va := by
  have h2 := h (pagetable + 8 * PX 2 va) (by simp [walk_words])
  have h1 := h (PTE2PA (read64 k.mem (pagetable + 8 * PX 2 va)) + 8 * PX 1 va)
    (by simp [walk_words])
  have hw : (walk k2 pagetable va false).2 = (walk k pagetable va false).2 := by
    rw [walk_noalloc, walk_noalloc]
    dsimp only
    rw [h2, h1]
  refine ⟨hw, ?_⟩
  unfold walk_words
  rw [hw, h2]

/-- A user page stays one when the memory changes inside the first `n` bytes of the
kernel buffer only; the rest of the buffer is then the buffer. -/
theorem UserSmallPage_step (k k2 : Kernel) (pagetable dst len va n : Nat) (hn : n ≤ len)
    (hfr : ∀ x, x < dst ∨ dst + n ≤ x → k2.mem x = k.mem x)
    (h : UserSmallPage k pagetable dst len va) :
    UserSmallPage k2 pagetable (dst + n) (len - n) va ∧
    (walk k2 pagetable va false).2 = (walk k pagetable va false).2 ∧
    read64 k2.mem (walk k pagetable va false).2 = read64 k.mem (walk k pagetable va false).2 := by
  obtain ⟨h0, hv, hps, hw, hp⟩ := h
  have hrd : ∀ s ∈ walk_words k pagetable va, read64 k2.mem s = read64 k.mem s := by
    intro s hs
    apply read64_congr
    intro i hi
    have := hw s hs
    exact hfr (s + i) (by omega)
  obtain ⟨e1, e2⟩ := walk_congr k k2 pagetable va hrd
  have e3 := hrd (walk k pagetable va false).2 (by simp [walk_words])
  refine ⟨?_, e1, e3⟩
  unfold UserSmallPage
  rw [e1, e2, e3]
  refine ⟨h0, hv, hps, ?_, ?_⟩
  · intro s hs
    have := hw s hs
    omega
  · omega

/-- The function `memmove` leaves the bytes outside its destination alone. -/
theorem memmove_other (m : Mem) (dst src n x : Nat) (hx : x < dst ∨ dst + n ≤ x) :
    memmove m dst src n x = m x := by
  unfold memmove
  have : ¬ (dst ≤ x ∧ x < dst + n) := by omega
  simp only [this, if_false]

/-- The bytes `memmove` writes. -/
theorem memmove_same (m : Mem) (dst src n i : Nat) (hi : i < n) :
    memmove m dst src n (dst + i) = m (src + i) := by
  unfold memmove
  have : dst ≤ dst + i ∧ dst + i < dst + n := by omega
  simp only [this, and_self, if_true, Nat.add_sub_cancel_left]

/-- Inside one page, `user_pa` moves with the address. -/
theorem user_pa_add (k : Kernel) (pagetable a i : Nat) (h : a % 4096 + i < 4096) :
    user_pa k pagetable (a + i) = user_pa k pagetable a + i := by
  have e : PGROUNDDOWN (a + i) = PGROUNDDOWN a := by
    unfold PGROUNDDOWN PGSIZE
    omega
  unfold user_pa
  rw [e]
  unfold PGSIZE
  omega

/-- The loop of `copyin` over small user pages: it returns 0, the buffer holds the
user bytes, and no other byte changes. -/
theorem copyin_loop_ok (pagetable : Nat) : ∀ (fuel : Nat) (k : Kernel) (dst srcva len : Nat),
    len < fuel → srcva + len ≤ 2 ^ 64 → UserRange k pagetable dst srcva len →
    ∃ k1, copyin_loop fuel k pagetable dst srcva len = .ok (k1, 0) ∧
      (∀ i, i < len → k1.mem (dst + i) = k.mem (user_pa k pagetable (srcva + i))) ∧
      (∀ x, x < dst ∨ dst + len ≤ x → k1.mem x = k.mem x) := by
  intro fuel
  induction fuel with
  | zero => intro k dst srcva len h; omega
  | succ fuel ih =>
    intro k dst srcva len hfuel hend hR
    have hP : PGSIZE = 4096 := rfl
    rw [copyin_loop]
    by_cases hl : len > 0
    · rw [if_pos hl]
      dsimp only
      have hva0 : PGROUNDDOWN srcva = srcva - srcva % 4096 := by
        unfold PGROUNDDOWN
        rw [hP]
        omega
      have hpage := hR (PGROUNDDOWN srcva) (by rw [hva0, hP]; omega) (by rw [hva0]; omega)
        (by rw [hva0, hP]; omega)
      obtain ⟨h0, hv, hps, hw, hp⟩ := hpage
      rw [if_neg (by intro h; rcases h with h | h; exact h0 h; exact hv h)]
      have hps2 : (if read64 k.mem (walk k pagetable (PGROUNDDOWN srcva) false).2 &&& PTE_PS ≠ 0
          then 2 * 1024 * 1024 else PGSIZE) = PGSIZE := if_neg (by rw [hps]; exact fun h => h rfl)
      rw [hps2]
      have hoff : sub64 srcva (PGROUNDDOWN srcva) = srcva % 4096 := by
        rw [hva0]
        unfold sub64 W64
        omega
      have hn0 : sub64 PGSIZE (srcva % 4096) = 4096 - srcva % 4096 := by
        unfold sub64 W64
        rw [hP]
        omega
      have hpa := PTE2PA_lt (read64 k.mem (walk k pagetable (PGROUNDDOWN srcva) false).2)
      have hsrc : add64 (PTE2PA (read64 k.mem (walk k pagetable (PGROUNDDOWN srcva) false).2))
          (srcva % 4096) = user_pa k pagetable srcva := by
        unfold add64 W64 user_pa
        rw [hP] at hpa ⊢
        omega
      rw [hoff, hn0, hsrc]
      generalize hn : (if 4096 - srcva % 4096 > len then len else 4096 - srcva % 4096) = n
      have hn1 : 0 < n ∧ n ≤ len ∧ n ≤ 4096 - srcva % 4096 ∧
          (n < len → n = 4096 - srcva % 4096) := by
        rw [← hn]
        split <;> omega
      have hlen2 : sub64 len n = len - n := by
        unfold sub64 W64
        omega
      rw [hlen2]
      have hnext : n < len → add64 (PGROUNDDOWN srcva) PGSIZE = srcva + n := by
        intro h
        have := hn1.2.2.2 h
        rw [hva0]
        unfold add64 W64
        rw [hP]
        omega
      have hal : add64 (PGROUNDDOWN srcva) PGSIZE % 4096 = 0 := by
        rw [hva0]
        unfold add64 W64
        rw [hP]
        omega
      have hlt : add64 (PGROUNDDOWN srcva) PGSIZE < 2 ^ 64 := by
        unfold add64 W64
        omega
      obtain ⟨k2, hk2⟩ : ∃ k2 : Kernel, k2 =
          ⟨k.kernel_end, k.PHYSTOP, k.freelist,
            memmove k.mem dst (user_pa k pagetable srcva) n⟩ := ⟨_, rfl⟩
      rw [← hk2]
      have hm2 : k2.mem = memmove k.mem dst (user_pa k pagetable srcva) n := by rw [hk2]
      have hfr : ∀ x, x < dst ∨ dst + n ≤ x → k2.mem x = k.mem x := by
        intro x hx
        rw [hm2]
        exact memmove_other _ _ _ _ _ hx
      -- the pages still to copy are pages of the request
      have hold : ∀ va, va % PGSIZE = 0 → va < add64 (PGROUNDDOWN srcva) PGSIZE + (len - n) →
          add64 (PGROUNDDOWN srcva) PGSIZE < va + PGSIZE → n < len ∧
            UserSmallPage k pagetable dst len va := by
        intro va h1 h2 h3
        by_cases hc : n < len
        · refine ⟨hc, hR va h1 ?_ ?_⟩
          · rw [hnext hc] at h2
            omega
          · rw [hnext hc] at h3
            omega
        · have h1b : va % 4096 = 0 := h1
          have h3b : add64 (PGROUNDDOWN srcva) PGSIZE < va + 4096 := h3
          omega
      obtain ⟨k1, hrun, hcopy, hframe⟩ := ih k2
        (dst + n) (add64 (PGROUNDDOWN srcva) PGSIZE) (len - n) (by omega)
        (by
          by_cases hc : n < len
          · rw [hnext hc]
            omega
          · have : len - n = 0 := by omega
            rw [this]
            omega)
        (by
          intro va h1 h2 h3
          exact (UserSmallPage_step k k2 pagetable dst len va n hn1.2.1 hfr
            (hold va h1 h2 h3).2).1)
      refine ⟨k1, hrun, ?_, ?_⟩
      · intro i hi
        by_cases hin : i < n
        · have e1 := hframe (dst + i) (by omega)
          rw [e1, hm2, memmove_same _ _ _ _ _ hin, user_pa_add k pagetable srcva i (by omega)]
        · have hc : n < len := by omega
          have e1 := hcopy (i - n) (by omega)
          have e2 : dst + n + (i - n) = dst + i := by omega
          have e3 : add64 (PGROUNDDOWN srcva) PGSIZE + (i - n) = srcva + i := by
            rw [hnext hc]
            omega
          rw [e2, e3] at e1
          rw [e1]
          have hpg : PGROUNDDOWN (srcva + i) = srcva + i - (srcva + i) % 4096 := by
            unfold PGROUNDDOWN
            rw [hP]
            omega
          have hsp := hR (PGROUNDDOWN (srcva + i)) (by rw [hpg, hP]; omega)
            (by rw [hpg]; omega) (by rw [hpg, hP]; omega)
          obtain ⟨_, ew, er⟩ := UserSmallPage_step k k2
            pagetable dst len (PGROUNDDOWN (srcva + i)) n hn1.2.1 hfr hsp
          have eu : user_pa k2 pagetable (srcva + i) = user_pa k pagetable (srcva + i) := by
            unfold user_pa
            rw [ew, er]
          rw [eu]
          apply hfr
          have := hsp.2.2.2.2
          unfold user_pa
          rw [hP] at this ⊢
          omega
      · intro x hx
        rw [hframe x (by omega)]
        exact hfr x (by omega)
    · rw [if_neg hl]
      refine ⟨k, rfl, ?_, ?_⟩
      · intro i hi
        omega
      · intro x _
        rfl

/-- Claim C11, `copyin` across page boundaries.  Let `srcva + len ≤ 2^64` and let every
4 KiB page that overlaps `[srcva, srcva + len)` be mapped by a valid small leaf, with
the kernel buffer `[dst, dst + len)` apart from the words of the page table walked
and from the physical pages mapped (`UserRange`).  Then `copyin` returns 0; for every
`i < len` the byte `dst[i]` is the byte of physical memory at `PTE2PA` of the leaf of
the page of `srcva + i`, plus `(srcva + i) mod 4096`; no byte outside the buffer
changes; and in particular the physical source pages are as before. -/
theorem copyin_across_pages (k : Kernel) (pagetable dst srcva len : Nat)
    (hend : srcva + len ≤ 2 ^ 64) (hR : UserRange k pagetable dst srcva len) :
    ∃ k1, copyin k pagetable dst srcva len = .ok (k1, 0) ∧
      (∀ i, i < len → read8 k1.mem (dst + i) =
        read8 k.mem (PTE2PA (read64 k.mem (walk k pagetable (PGROUNDDOWN (srcva + i)) false).2)
          + (srcva + i) % 4096)) ∧
      (∀ x, x < dst ∨ dst + len ≤ x → k1.mem x = k.mem x) ∧
      (∀ va, va % PGSIZE = 0 → va < srcva + len → srcva < va + PGSIZE →
        ∀ o, o < PGSIZE →
          k1.mem (PTE2PA (read64 k.mem (walk k pagetable va false).2) + o) =
            k.mem (PTE2PA (read64 k.mem (walk k pagetable va false).2) + o)) := by
  obtain ⟨k1, hrun, hcopy, hframe⟩ :=
    copyin_loop_ok pagetable (len + 1) k dst srcva len (by omega) hend hR
  refine ⟨k1, hrun, ?_, hframe, ?_⟩
  · intro i hi
    unfold read8
    rw [hcopy i hi]
    rfl
  · intro va h1 h2 h3 o ho
    apply hframe
    have := (hR va h1 h2 h3).2.2.2.2
    omega

/-- The machine `cross_page_state` meets the hypothesis of `copyin_across_pages` for
the 20 bytes from the user address 4086. -/
theorem cross_page_range :
    UserRange cross_page_state.1 cross_page_state.2.1 cross_page_state.2.2 4086 20 := by
  intro va h1 h2 h3
  have hP : PGSIZE = 4096 := rfl
  have hc : va = 0 ∨ va = 4096 := by
    rw [hP] at h1 h3
    omega
  rcases hc with rfl | rfl
  · unfold UserSmallPage
    decide!
  · unfold UserSmallPage
    decide!

/-- The theorem `copyin_across_pages` applies to a request of 20 bytes that starts 10
bytes before the boundary between two mapped pages, the first filled with `0x11` and
the second with `0x22`: the buffer receives ten bytes `0x11` and then ten bytes
`0x22`. -/
theorem copyin_across_pages_witness :
    UserRange cross_page_state.1 cross_page_state.2.1 cross_page_state.2.2 4086 20 ∧
    (List.range 20).map (fun i => read8 cross_page_state.1.mem
        (PTE2PA (read64 cross_page_state.1.mem
          (walk cross_page_state.1 cross_page_state.2.1 (PGROUNDDOWN (4086 + i)) false).2)
          + (4086 + i) % 4096))
      = List.replicate 10 0x11 ++ List.replicate 10 0x22 ∧
    ∃ k1, copyin cross_page_state.1 cross_page_state.2.1 cross_page_state.2.2 4086 20
        = .ok (k1, 0) ∧
      (∀ i, i < 20 → read8 k1.mem (cross_page_state.2.2 + i) =
        read8 cross_page_state.1.mem (PTE2PA (read64 cross_page_state.1.mem
          (walk cross_page_state.1 cross_page_state.2.1 (PGROUNDDOWN (4086 + i)) false).2)
          + (4086 + i) % 4096)) ∧
      (∀ x, x < cross_page_state.2.2 ∨ cross_page_state.2.2 + 20 ≤ x →
        k1.mem x = cross_page_state.1.mem x) ∧
      (∀ va, va % PGSIZE = 0 → va < 4086 + 20 → 4086 < va + PGSIZE →
        ∀ o, o < PGSIZE →
          k1.mem (PTE2PA (read64 cross_page_state.1.mem
            (walk cross_page_state.1 cross_page_state.2.1 va false).2) + o) =
          cross_page_state.1.mem (PTE2PA (read64 cross_page_state.1.mem
            (walk cross_page_state.1 cross_page_state.2.1 va false).2) + o)) :=
  ⟨cross_page_range, by decide!,
    copyin_across_pages cross_page_state.1 cross_page_state.2.1 cross_page_state.2.2 4086 20
      (by norm_num) cross_page_range⟩

/-! ## Claim C12 -/

/-- The inner loop of `copyinstr` over `n` bytes none of which is zero: all `n`
bytes are copied and the loop is left without `got_null`. -/
theorem copyinstr_bytes_nonzero : ∀ (n : Nat) (m : Mem) (dst p max : Nat),
    (∀ j, j < n → m (p + j) % 256 ≠ 0) → (p + n ≤ dst ∨ dst + n ≤ p) → n ≤ max →
    max < 2 ^ 64 →
    ∃ m1, copyinstr_bytes n m dst p max = (m1, dst + n, max - n, false) ∧
      (∀ j, j < n → m1 (dst + j) = m (p + j) % 256) ∧
      (∀ x, x < dst ∨ dst + n ≤ x → m1 x = m x) := by
  intro n
  induction n with
  | zero =>
    intro m dst p max _ _ _ _
    exact ⟨m, rfl, fun j hj => by omega, fun x _ => rfl⟩
  | succ n ih =>
    intro m dst p max hnz hap hmax hlt
    rw [copyinstr_bytes]
    have h0 := hnz 0 (by omega)
    rw [Nat.add_zero] at h0
    rw [if_neg (by unfold read8; exact h0)]
    have hs : sub64 max 1 = max - 1 := by
      unfold sub64 W64
      omega
    rw [hs]
    have hw : ∀ x, x ≠ dst → write8 m dst (read8 m p) x = m x := by
      intro x hx
      unfold write8
      rw [if_neg hx]
    obtain ⟨m1, hrun, hcopy, hframe⟩ := ih (write8 m dst (read8 m p)) (dst + 1) (p + 1) (max - 1)
      (by
        intro j hj
        rw [hw _ (by omega)]
        have := hnz (j + 1) (by omega)
        rw [show p + 1 + j = p + (j + 1) by omega]
        exact this)
      (by omega) (by omega) (by omega)
    refine ⟨m1, ?_, ?_, ?_⟩
    · rw [hrun, show dst + 1 + n = dst + (n + 1) by omega, show max - 1 - n = max - (n + 1) by omega]
    · intro j hj
      cases j with
      | zero =>
        rw [Nat.add_zero, Nat.add_zero, hframe dst (by omega)]
        unfold write8 read8
        rw [if_pos rfl]
        omega
      | succ j =>
        have := hcopy j (by omega)
        rw [show dst + (j + 1) = dst + 1 + j by omega, this, hw _ (by omega),
          show p + 1 + j = p + (j + 1) by omega]
    · intro x hx
      rw [hframe x (by omega), hw x (by omega)]

/-- The inner loop of `copyinstr` when the byte at offset `c < n` is the first zero
byte: the `c` bytes before it and the zero are copied and the loop is left with
`got_null`. -/
theorem copyinstr_bytes_zero : ∀ (c : Nat) (n : Nat) (m : Mem) (dst p max : Nat),
    (∀ j, j < c → m (p + j) % 256 ≠ 0) → m (p + c) % 256 = 0 → c < n →
    (p + c + 1 ≤ dst ∨ dst + c + 1 ≤ p) → c ≤ max → max < 2 ^ 64 →
    ∃ m1, copyinstr_bytes n m dst p max = (m1, dst + c, max - c, true) ∧
      (∀ j, j ≤ c → m1 (dst + j) = m (p + j) % 256) ∧
      (∀ x, x < dst ∨ dst + c + 1 ≤ x → m1 x = m x) := by
  intro c
  induction c with
  | zero =>
    intro n m dst p max _ hz hn _ _ _
    obtain ⟨n, rfl⟩ : ∃ n1, n = n1 + 1 := ⟨n - 1, by omega⟩
    rw [copyinstr_bytes]
    rw [Nat.add_zero] at hz
    rw [if_pos (by unfold read8; exact hz)]
    refine ⟨write8 m dst 0, rfl, ?_, ?_⟩
    · intro j hj
      have : j = 0 := by omega
      rw [this, Nat.add_zero, Nat.add_zero, hz]
      unfold write8
      rw [if_pos rfl]
    · intro x hx
      unfold write8
      rw [if_neg (by omega)]
  | succ c ih =>
    intro n m dst p max hnz hz hn hap hmax hlt
    obtain ⟨n, rfl⟩ : ∃ n1, n = n1 + 1 := ⟨n - 1, by omega⟩
    rw [copyinstr_bytes]
    have h0 := hnz 0 (by omega)
    rw [Nat.add_zero] at h0
    rw [if_neg (by unfold read8; exact h0)]
    have hs : sub64 max 1 = max - 1 := by
      unfold sub64 W64
      omega
    rw [hs]
    have hw : ∀ x, x ≠ dst → write8 m dst (read8 m p) x = m x := by
      intro x hx
      unfold write8
      rw [if_neg hx]
    obtain ⟨m1, hrun, hcopy, hframe⟩ := ih n (write8 m dst (read8 m p)) (dst + 1) (p + 1)
      (max - 1)
      (by
        intro j hj
        rw [hw _ (by omega)]
        have := hnz (j + 1) (by omega)
        rw [show p + 1 + j = p + (j + 1) by omega]
        exact this)
      (by
        rw [hw _ (by omega), show p + 1 + c = p + (c + 1) by omega]
        exact hz)
      (by omega) (by omega) (by omega) (by omega)
    refine ⟨m1, ?_, ?_, ?_⟩
    · rw [hrun, show dst + 1 + c = dst + (c + 1) by omega, show max - 1 - c = max - (c + 1) by omega]
    · intro j hj
      cases j with
      | zero =>
        rw [Nat.add_zero, Nat.add_zero, hframe dst (by omega)]
        unfold write8 read8
        rw [if_pos rfl]
        omega
      | succ j =>
        have := hcopy j (by omega)
        rw [show dst + (j + 1) = dst + 1 + j by omega, this, hw _ (by omega),
          show p + 1 + j = p + (j + 1) by omega]
    · intro x hx
      rw [hframe x (by omega), hw x (by omega)]

/-- One iteration of the loop of `copyinstr` on a page mapped by a small leaf. -/
theorem copyinstr_loop_step (fuel : Nat) (k : Kernel) (pagetable dst srcva max : Nat)
    (hmax : max > 0) (hs : srcva < 2 ^ 64)
    (h0 : (walk k pagetable (PGROUNDDOWN srcva) false).2 ≠ 0)
    (hv : read64 k.mem (walk k pagetable (PGROUNDDOWN srcva) false).2 &&& PTE_V ≠ 0)
    (hps : read64 k.mem (walk k pagetable (PGROUNDDOWN srcva) false).2 &&& PTE_PS = 0) :
    copyinstr_loop (fuel + 1) k pagetable dst srcva max false =
      copyinstr_loop fuel
        ⟨k.kernel_end, k.PHYSTOP, k.freelist,
          (copyinstr_bytes (if 4096 - srcva % 4096 > max then max else 4096 - srcva % 4096)
            k.mem dst (user_pa k pagetable srcva) max).1⟩
        pagetable
        (copyinstr_bytes (if 4096 - srcva % 4096 > max then max else 4096 - srcva % 4096)
          k.mem dst (user_pa k pagetable srcva) max).2.1
        (add64 (PGROUNDDOWN srcva) PGSIZE)
        (copyinstr_bytes (if 4096 - srcva % 4096 > max then max else 4096 - srcva % 4096)
          k.mem dst (user_pa k pagetable srcva) max).2.2.1
        (copyinstr_bytes (if 4096 - srcva % 4096 > max then max else 4096 - srcva % 4096)
          k.mem dst (user_pa k pagetable srcva) max).2.2.2 := by
  have hP : PGSIZE = 4096 := rfl
  rw [copyinstr_loop]
  rw [if_pos ⟨rfl, hmax⟩]
  dsimp only
  rw [if_neg (by intro h; rcases h with h | h; exact h0 h; exact hv h)]
  have hps2 : (if read64 k.mem (walk k pagetable (PGROUNDDOWN srcva) false).2 &&& PTE_PS ≠ 0
      then 2 * 1024 * 1024 else PGSIZE) = PGSIZE := if_neg (by rw [hps]; exact fun h => h rfl)
  rw [hps2]
  have hva0 : PGROUNDDOWN srcva = srcva - srcva % 4096 := by
    unfold PGROUNDDOWN
    rw [hP]
    omega
  have hoff : sub64 srcva (PGROUNDDOWN srcva) = srcva % 4096 := by
    rw [hva0]
    unfold sub64 W64
    omega
  have hn0 : sub64 PGSIZE (srcva % 4096) = 4096 - srcva % 4096 := by
    unfold sub64 W64
    rw [hP]
    omega
  have hpa := PTE2PA_lt (read64 k.mem (walk k pagetable (PGROUNDDOWN srcva) false).2)
  have hsrc : add64 (PTE2PA (read64 k.mem (walk k pagetable (PGROUNDDOWN srcva) false).2))
      (srcva % 4096) = user_pa k pagetable srcva := by
    unfold add64 W64 user_pa
    rw [hP] at hpa ⊢
    omega
  rw [hoff, hn0, hsrc]

/-- A user byte of the request is at the same place and has the same value after the
memory changed inside the first `n` bytes of the kernel buffer only. -/
theorem user_byte_step (k k2 : Kernel) (pagetable dst srcva len n a : Nat) (hn : n ≤ len)
    (hfr : ∀ x, x < dst ∨ dst + n ≤ x → k2.mem x = k.mem x)
    (hR : UserRange k pagetable dst srcva len) (ha : srcva ≤ a ∧ a < srcva + len) :
    user_pa k2 pagetable a = user_pa k pagetable a ∧
    k2.mem (user_pa k pagetable a) = k.mem (user_pa k pagetable a) := by
  have hP : PGSIZE = 4096 := rfl
  have hpg : PGROUNDDOWN a = a - a % 4096 := by
    unfold PGROUNDDOWN
    rw [hP]
    omega
  have hsp := hR (PGROUNDDOWN a) (by rw [hpg, hP]; omega) (by rw [hpg]; omega)
    (by rw [hpg, hP]; omega)
  obtain ⟨_, ew, er⟩ := UserSmallPage_step k k2 pagetable dst len (PGROUNDDOWN a) n hn hfr hsp
  constructor
  · unfold user_pa
    rw [ew, er]
  · apply hfr
    have := hsp.2.2.2.2
    unfold user_pa
    rw [hP] at this ⊢
    omega

/-- The loop of `copyinstr` when the first zero byte of the user string is at offset
`c < max`: it returns 0 with the `c + 1` bytes copied and nothing else changed. -/
theorem copyinstr_loop_zero (pagetable : Nat) :
    ∀ (fuel : Nat) (k : Kernel) (dst srcva max c : Nat),
    c + 1 < fuel → c < max → max < 2 ^ 64 → srcva + c + 1 ≤ 2 ^ 64 →
    UserRange k pagetable dst srcva (c + 1) →
    (∀ j, j < c → k.mem (user_pa k pagetable (srcva + j)) % 256 ≠ 0) →
    k.mem (user_pa k pagetable (srcva + c)) % 256 = 0 →
    ∃ k1, copyinstr_loop fuel k pagetable dst srcva max false = .ok (k1, 0) ∧
      (∀ j, j ≤ c → k1.mem (dst + j) = k.mem (user_pa k pagetable (srcva + j)) % 256) ∧
      (∀ x, x < dst ∨ dst + (c + 1) ≤ x → k1.mem x = k.mem x) := by
  intro fuel
  induction fuel with
  | zero => intro k dst srcva max c h; omega
  | succ fuel ih =>
    intro k dst srcva max c hfuel hc hmax hend hR hnz hz
    have hP : PGSIZE = 4096 := rfl
    have hva0 : PGROUNDDOWN srcva = srcva - srcva % 4096 := by
      unfold PGROUNDDOWN
      rw [hP]
      omega
    have hpage := hR (PGROUNDDOWN srcva) (by rw [hva0, hP]; omega) (by rw [hva0]; omega)
      (by rw [hva0, hP]; omega)
    obtain ⟨h0, hv, hps, hw, hp⟩ := hpage
    rw [copyinstr_loop_step fuel k pagetable dst srcva max (by omega) (by omega) h0 hv hps]
    generalize hn : (if 4096 - srcva % 4096 > max then max else 4096 - srcva % 4096) = n
    have hn1 : 0 < n ∧ n ≤ max ∧ n ≤ 4096 - srcva % 4096 ∧
        (n < max → n = 4096 - srcva % 4096) := by
      rw [← hn]
      split <;> omega
    have hup : user_pa k pagetable srcva =
        PTE2PA (read64 k.mem (walk k pagetable (PGROUNDDOWN srcva) false).2) + srcva % 4096 := rfl
    by_cases hcn : c < n
    · -- the zero byte is in this page
      obtain ⟨m1, hrun, hcopy, hframe⟩ := copyinstr_bytes_zero c n k.mem dst
        (user_pa k pagetable srcva) max
        (by
          intro j hj
          rw [← user_pa_add k pagetable srcva j (by omega)]
          exact hnz j hj)
        (by
          rw [← user_pa_add k pagetable srcva c (by omega)]
          exact hz)
        hcn (by rw [hup]; rw [hP] at hp; omega) (by omega) hmax
      rw [hrun]
      dsimp only
      obtain ⟨f, rfl⟩ : ∃ f, fuel = f + 1 := ⟨fuel - 1, by omega⟩
      rw [copyinstr_loop]
      rw [if_neg (by intro h; exact absurd h.1 (by decide))]
      refine ⟨_, rfl, ?_, ?_⟩
      · intro j hj
        show m1 (dst + j) = _
        rw [hcopy j hj, user_pa_add k pagetable srcva j (by omega)]
      · intro x hx
        exact hframe x (by omega)
    · -- the page holds no zero byte from `srcva` on
      have hnn : n = 4096 - srcva % 4096 := hn1.2.2.2 (by omega)
      obtain ⟨m1, hrun, hcopy, hframe⟩ := copyinstr_bytes_nonzero n k.mem dst
        (user_pa k pagetable srcva) max
        (by
          intro j hj
          rw [← user_pa_add k pagetable srcva j (by omega)]
          exact hnz j (by omega))
        (by rw [hup]; rw [hP] at hp; omega) (by omega) hmax
      rw [hrun]
      dsimp only
      have hnext : add64 (PGROUNDDOWN srcva) PGSIZE = srcva + n := by
        rw [hva0]
        unfold add64 W64
        rw [hP]
        omega
      rw [hnext]
      obtain ⟨k2, hk2⟩ : ∃ k2 : Kernel, k2 = ⟨k.kernel_end, k.PHYSTOP, k.freelist, m1⟩ :=
        ⟨_, rfl⟩
      rw [← hk2]
      have hm2 : k2.mem = m1 := by rw [hk2]
      have hfr : ∀ x, x < dst ∨ dst + n ≤ x → k2.mem x = k.mem x := by
        intro x hx
        rw [hm2]
        exact hframe x hx
      have hub := fun a ha => user_byte_step k k2 pagetable dst srcva (c + 1) n a (by omega) hfr
        hR ha
      obtain ⟨k1, hrun1, hcopy1, hframe1⟩ := ih k2 (dst + n) (srcva + n) (max - n) (c - n)
        (by omega) (by omega) (by omega) (by omega)
        (by
          intro va h1 h2 h3
          have := (UserSmallPage_step k k2 pagetable dst (c + 1) va n (by omega) hfr
            (hR va h1 (by omega) (by omega))).1
          rw [show c - n + 1 = c + 1 - n by omega]
          exact this)
        (by
          intro j hj
          rw [(hub (srcva + n + j) (by omega)).1, (hub (srcva + n + j) (by omega)).2,
            show srcva + n + j = srcva + (n + j) by omega]
          exact hnz (n + j) (by omega))
        (by
          rw [(hub (srcva + n + (c - n)) (by omega)).1, (hub (srcva + n + (c - n)) (by omega)).2,
            show srcva + n + (c - n) = srcva + c by omega]
          exact hz)
      refine ⟨k1, hrun1, ?_, ?_⟩
      · intro j hj
        by_cases hjn : j < n
        · rw [hframe1 (dst + j) (by omega), hm2, hcopy j hjn,
            user_pa_add k pagetable srcva j (by omega)]
        · have e := hcopy1 (j - n) (by omega)
          rw [show dst + n + (j - n) = dst + j by omega,
            show srcva + n + (j - n) = srcva + j by omega] at e
          rw [e, (hub (srcva + j) (by omega)).1, (hub (srcva + j) (by omega)).2]
      · intro x hx
        rw [hframe1 x (by omega)]
        exact hfr x (by omega)

/-- The loop of `copyinstr` when none of the first `max` bytes of the user string is
zero: it returns -1 with the `max` bytes copied and nothing else changed. -/
theorem copyinstr_loop_exhaust (pagetable : Nat) :
    ∀ (fuel : Nat) (k : Kernel) (dst srcva max : Nat),
    max < fuel → max < 2 ^ 64 → srcva + max ≤ 2 ^ 64 →
    UserRange k pagetable dst srcva max →
    (∀ j, j < max → k.mem (user_pa k pagetable (srcva + j)) % 256 ≠ 0) →
    ∃ k1, copyinstr_loop fuel k pagetable dst srcva max false = .ok (k1, -1) ∧
      (∀ j, j < max → k1.mem (dst + j) = k.mem (user_pa k pagetable (srcva + j)) % 256) ∧
      (∀ x, x < dst ∨ dst + max ≤ x → k1.mem x = k.mem x) := by
  intro fuel
  induction fuel with
  | zero => intro k dst srcva max h; omega
  | succ fuel ih =>
    intro k dst srcva max hfuel hmax hend hR hnz
    have hP : PGSIZE = 4096 := rfl
    by_cases hm0 : max = 0
    · rw [copyinstr_loop, if_neg (by omega)]
      exact ⟨k, rfl, fun j hj => by omega, fun x _ => rfl⟩
    have hva0 : PGROUNDDOWN srcva = srcva - srcva % 4096 := by
      unfold PGROUNDDOWN
      rw [hP]
      omega
    have hpage := hR (PGROUNDDOWN srcva) (by rw [hva0, hP]; omega) (by rw [hva0]; omega)
      (by rw [hva0, hP]; omega)
    obtain ⟨h0, hv, hps, hw, hp⟩ := hpage
    rw [copyinstr_loop_step fuel k pagetable dst srcva max (by omega) (by omega) h0 hv hps]
    generalize hn : (if 4096 - srcva % 4096 > max then max else 4096 - srcva % 4096) = n
    have hn1 : 0 < n ∧ n ≤ max ∧ n ≤ 4096 - srcva % 4096 ∧
        (n < max → n = 4096 - srcva % 4096) := by
      rw [← hn]
      split <;> omega
    have hup : user_pa k pagetable srcva =
        PTE2PA (read64 k.mem (walk k pagetable (PGROUNDDOWN srcva) false).2) + srcva % 4096 := rfl
    obtain ⟨m1, hrun, hcopy, hframe⟩ := copyinstr_bytes_nonzero n k.mem dst
      (user_pa k pagetable srcva) max
      (by
        intro j hj
        rw [← user_pa_add k pagetable srcva j (by omega)]
        exact hnz j (by omega))
      (by rw [hup]; rw [hP] at hp; omega) (by omega) hmax
    rw [hrun]
    dsimp only
    have hnext : n < max → add64 (PGROUNDDOWN srcva) PGSIZE = srcva + n := by
      intro h
      have := hn1.2.2.2 h
      rw [hva0]
      unfold add64 W64
      rw [hP]
      omega
    have hal : add64 (PGROUNDDOWN srcva) PGSIZE % 4096 = 0 := by
      rw [hva0]
      unfold add64 W64
      rw [hP]
      omega
    have hlt : add64 (PGROUNDDOWN srcva) PGSIZE < 2 ^ 64 := by
      unfold add64 W64
      omega
    obtain ⟨k2, hk2⟩ : ∃ k2 : Kernel, k2 = ⟨k.kernel_end, k.PHYSTOP, k.freelist, m1⟩ :=
      ⟨_, rfl⟩
    rw [← hk2]
    have hm2 : k2.mem = m1 := by rw [hk2]
    have hfr : ∀ x, x < dst ∨ dst + n ≤ x → k2.mem x = k.mem x := by
      intro x hx
      rw [hm2]
      exact hframe x hx
    have hub := fun a ha => user_byte_step k k2 pagetable dst srcva max n a (by omega) hfr
      hR ha
    have hold : ∀ va, va % PGSIZE = 0 → va < add64 (PGROUNDDOWN srcva) PGSIZE + (max - n) →
        add64 (PGROUNDDOWN srcva) PGSIZE < va + PGSIZE → n < max ∧
          UserSmallPage k pagetable dst max va := by
      intro va h1 h2 h3
      by_cases hc : n < max
      · refine ⟨hc, hR va h1 ?_ ?_⟩
        · rw [hnext hc] at h2
          omega
        · rw [hnext hc] at h3
          omega
      · have h1b : va % 4096 = 0 := h1
        have h3b : add64 (PGROUNDDOWN srcva) PGSIZE < va + 4096 := h3
        omega
    obtain ⟨k1, hrun1, hcopy1, hframe1⟩ := ih k2 (dst + n)
      (add64 (PGROUNDDOWN srcva) PGSIZE) (max - n) (by omega) (by omega)
      (by
        by_cases hc : n < max
        · rw [hnext hc]
          omega
        · have : max - n = 0 := by omega
          rw [this]
          omega)
      (by
        intro va h1 h2 h3
        exact (UserSmallPage_step k k2 pagetable dst max va n hn1.2.1 hfr
          (hold va h1 h2 h3).2).1)
      (by
        intro j hj
        have hc : n < max := by omega
        rw [hnext hc, (hub (srcva + n + j) (by omega)).1, (hub (srcva + n + j) (by omega)).2,
          show srcva + n + j = srcva + (n + j) by omega]
        exact hnz (n + j) (by omega))
    refine ⟨k1, hrun1, ?_, ?_⟩
    · intro j hj
      by_cases hjn : j < n
      · rw [hframe1 (dst + j) (by omega), hm2, hcopy j hjn,
          user_pa_add k pagetable srcva j (by omega)]
      · have hc : n < max := by omega
        have e := hcopy1 (j - n) (by omega)
        rw [hnext hc, show dst + n + (j - n) = dst + j by omega,
          show srcva + n + (j - n) = srcva + j by omega] at e
        rw [e, (hub (srcva + j) (by omega)).1, (hub (srcva + j) (by omega)).2]
    · intro x hx
      rw [hframe1 x (by omega)]
      exact hfr x (by omega)

/-- Claim C12, termination of `copyinstr`.  Let `max < 2^64`, and let the pages of the
user string be mapped by valid small leaves, apart from the kernel buffer
(`UserRange`).  First part: when the user string has its first zero byte at offset
`c < max`, `copyinstr` returns 0, the buffer holds the `c + 1` bytes up to and
including the zero, and no byte outside `dst[0..c]` changes.  Only the pages that
overlap the `c + 1` bytes and only those bytes are constrained, and the final memory
is fixed by them, so nothing behind the zero byte has any influence.  Second part:
when none of the first `max` bytes is zero, `copyinstr` returns -1. -/
theorem copyinstr_termination (k : Kernel) (pagetable dst srcva max : Nat)
    (hmax : max < 2 ^ 64) :
    (∀ c, c < max → srcva + c + 1 ≤ 2 ^ 64 → UserRange k pagetable dst srcva (c + 1) →
      (∀ j, j < c → read8 k.mem (user_pa k pagetable (srcva + j)) ≠ 0) →
      read8 k.mem (user_pa k pagetable (srcva + c)) = 0 →
      ∃ k1, copyinstr k pagetable dst srcva max = .ok (k1, 0) ∧
        (∀ j, j ≤ c → read8 k1.mem (dst + j) = read8 k.mem (user_pa k pagetable (srcva + j))) ∧
        (∀ x, x < dst ∨ dst + (c + 1) ≤ x → k1.mem x = k.mem x)) ∧
    (srcva + max ≤ 2 ^ 64 → UserRange k pagetable dst srcva max →
      (∀ j, j < max → read8 k.mem (user_pa k pagetable (srcva + j)) ≠ 0) →
      ∃ k1, copyinstr k pagetable dst srcva max = .ok (k1, -1) ∧
        (∀ j, j < max → read8 k1.mem (dst + j) = read8 k.mem (user_pa k pagetable (srcva + j))) ∧
        (∀ x, x < dst ∨ dst + max ≤ x → k1.mem x = k.mem x)) := by
  constructor
  · intro c hc hend hR hnz hz
    obtain ⟨k1, hrun, hcopy, hframe⟩ := copyinstr_loop_zero pagetable (max + 1) k dst srcva max c
      (by omega) hc hmax hend hR hnz hz
    refine ⟨k1, hrun, ?_, hframe⟩
    intro j hj
    unfold read8
    rw [hcopy j hj, Nat.mod_mod]
  · intro hend hR hnz
    obtain ⟨k1, hrun, hcopy, hframe⟩ := copyinstr_loop_exhaust pagetable (max + 1) k dst srcva max
      (by omega) hmax hend hR hnz
    refine ⟨k1, hrun, ?_, hframe⟩
    intro j hj
    unfold read8
    rw [hcopy j hj, Nat.mod_mod]

/-- The machine `string_state` meets the page hypothesis of `copyinstr_termination`
for the first three bytes of its user page. -/
theorem string_state_range :
    UserRange string_state.1 string_state.2.1 string_state.2.2 0 3 := by
  intro va h1 h2 h3
  have hP : PGSIZE = 4096 := rfl
  have hc : va = 0 := by
    rw [hP] at h1
    omega
  rw [hc]
  unfold UserSmallPage
  decide!

/-- The theorem `copyinstr_termination` applies to the user string `"hi"` followed by
`garbage`: with `max = 100` the call returns 0, the buffer receives the three bytes
`h`, `i`, 0, and the fourth byte of the buffer keeps its old value 5; with `max = 2`
the call returns -1. -/
theorem copyinstr_termination_witness :
    (UserRange string_state.1 string_state.2.1 string_state.2.2 0 3 ∧
      (List.range 10).map (fun j => read8 string_state.1.mem
          (user_pa string_state.1 string_state.2.1 (0 + j)))
        = [0x68, 0x69, 0, 0x67, 0x61, 0x72, 0x62, 0x61, 0x67, 0x65] ∧
      read8 string_state.1.mem (string_state.2.2 + 3) = 5) ∧
    (∃ k1, copyinstr string_state.1 string_state.2.1 string_state.2.2 0 100 = .ok (k1, 0) ∧
      (∀ j, j ≤ 2 → read8 k1.mem (string_state.2.2 + j) =
        read8 string_state.1.mem (user_pa string_state.1 string_state.2.1 (0 + j))) ∧
      (∀ x, x < string_state.2.2 ∨ string_state.2.2 + (2 + 1) ≤ x →
        k1.mem x = string_state.1.mem x)) ∧
    (∃ k1, copyinstr string_state.1 string_state.2.1 string_state.2.2 0 2 = .ok (k1, -1) ∧
      (∀ j, j < 2 → read8 k1.mem (string_state.2.2 + j) =
        read8 string_state.1.mem (user_pa string_state.1 string_state.2.1 (0 + j))) ∧
      (∀ x, x < string_state.2.2 ∨ string_state.2.2 + 2 ≤ x →
        k1.mem x = string_state.1.mem x)) :=
  ⟨⟨string_state_range, by decide!, by decide!⟩,
    (copyinstr_termination string_state.1 string_state.2.1 string_state.2.2 0 100
      (by norm_num)).1 2 (by decide) (by norm_num) string_state_range (by decide!) (by decide!),
    (copyinstr_termination string_state.1 string_state.2.1 string_state.2.2 0 2
      (by norm_num)).2 (by norm_num)
      (by
        intro va h1 h2 h3
        exact string_state_range va h1 (by omega) h3 |> fun h =>
          ⟨h.1, h.2.1, h.2.2.1, fun s hs => by have := h.2.2.2.1 s hs; omega,
            by have := h.2.2.2.2; omega⟩)
      (by decide!)⟩

/-! ## Claim C14 -/

/-- A 64-bit store into a page in use keeps the allocator invariant. -/
theorem store64_keeps (kend phystop : Nat) (k : Kernel) (live l : List Nat) (pa off val : Nat)
    (hinv : AllocInv kend phystop k live l) (hpa : pa ∈ live) (hoff : off + 8 ≤ PGSIZE) :
    AllocInv kend phystop { k with mem := write64 k.mem (pa + off) val } live l := by
  refine ⟨hinv.hend, hinv.htop, ?_, hinv.nodup, hinv.range, hinv.live_nodup, hinv.live_range,
    hinv.disjoint⟩
  refine FreeChain_congr k.mem (write64 k.mem (pa + off) val) l _ ?_ hinv.chain
  intro p hp i hi
  have hne : p ≠ pa := fun e => hinv.disjoint pa hpa (e ▸ hp)
  have hap := page_apart p pa (hinv.range p hp).1 (hinv.live_range pa hpa).2.1 hne
  have hP : PGSIZE = 4096 := rfl
  exact write64_other _ _ _ _ (by omega)

/-- A span of the spec is one of the three units, hence at least 4 KiB and a multiple
of 4 KiB. -/
theorem GreedySpan_unit (a stop g : Nat) (h : GreedySpan a stop g) :
    4096 ≤ g ∧ g % 4096 = 0 ∧ g ≤ stop - a ∧ a % g = 0 := by
  refine ⟨?_, ?_, h.2.2.1, h.2.1⟩
  · rcases h.1 with e | e | e <;> rw [e] <;> decide
  · rcases h.1 with e | e | e <;> rw [e] <;> decide

/-- The span of the spec at an address is unique. -/
theorem GreedySpan_unique (a stop g g2 : Nat) (h : GreedySpan a stop g)
    (h2 : GreedySpan a stop g2) : g = g2 := by
  have m1 : g ∈ [GBSIZE, MB2SIZE, PGSIZE] := by
    rcases h.1 with e | e | e <;> rw [e] <;> simp
  have m2 : g2 ∈ [GBSIZE, MB2SIZE, PGSIZE] := by
    rcases h2.1 with e | e | e <;> rw [e] <;> simp
  have l1 := h.2.2.2 g2 m2 h2.2.1 h2.2.2.1
  have l2 := h2.2.2.2 g m1 h.2.1 h.2.2.1
  omega

/-- A greedy tiling stays inside its range, its spans add up to the length of the
range, and it has at most one leaf per page of the range. -/
theorem GreedyTiling_sum : ∀ (l : List (Nat × Nat)) (a stop : Nat), GreedyTiling a stop l →
    a ≤ stop ∧ (l.map Prod.snd).sum = stop - a ∧ l.length * 4096 ≤ stop - a ∧
    ∀ w ∈ l, a ≤ w.1 ∧ w.1 + w.2 ≤ stop
  | [], a, stop, h => by
    have e : a = stop := h
    refine ⟨by omega, by simp [e], by simp, by simp⟩
  | w :: rest, a, stop, h => by
    obtain ⟨h1, h2, h3⟩ := h
    obtain ⟨r1, r2, r3, r4⟩ := GreedyTiling_sum rest (a + w.2) stop h3
    obtain ⟨hg, _, hle, _⟩ := GreedySpan_unit a stop w.2 h2
    refine ⟨by omega, ?_, ?_, ?_⟩
    · rw [List.map_cons, List.sum_cons, r2]
      omega
    · rw [List.length_cons]
      omega
    · intro x hx
      rcases List.mem_cons.mp hx with e | hx
      · rw [e, h1]
        omega
      · have := r4 x hx
        omega

/-- The greedy tiling of a range is unique. -/
theorem GreedyTiling_unique : ∀ (l l2 : List (Nat × Nat)) (a stop : Nat),
    GreedyTiling a stop l → GreedyTiling a stop l2 → l = l2
  | [], [], _, _, _, _ => rfl
  | [], w :: rest, a, stop, h, h2 => by
    have e : a = stop := h
    have := (GreedySpan_unit a stop w.2 h2.2.1)
    omega
  | w :: rest, [], a, stop, h, h2 => by
    have e : a = stop := h2
    have := (GreedySpan_unit a stop w.2 h.2.1)
    omega
  | w :: rest, w2 :: rest2, a, stop, h, h2 => by
    have eg := GreedySpan_unique a stop w.2 w2.2 h.2.1 h2.2.1
    have ew : w = w2 := Prod.ext (by rw [h.1, h2.1]) eg
    have h3 := h2.2.2
    rw [← eg] at h3
    rw [ew, GreedyTiling_unique rest rest2 (a + w.2) stop h.2.2 h3]

/-- The unit the loop of `mappages` picks is the greedy span of the spec. -/
theorem mappages_step_greedy (a stop : Nat) (ha : a % PGSIZE = 0) (hs : stop % PGSIZE = 0)
    (hlt : a < stop) :
    GreedySpan a stop
      (if a % GBSIZE = 0 ∧ stop - a ≥ GBSIZE then GBSIZE
        else if a % MB2SIZE = 0 ∧ stop - a ≥ MB2SIZE then MB2SIZE else PGSIZE) := by
  have hG : GBSIZE = 1073741824 := by decide
  have hM : MB2SIZE = 2097152 := by decide
  have hP : PGSIZE = 4096 := rfl
  unfold GreedySpan
  by_cases c1 : a % GBSIZE = 0 ∧ stop - a ≥ GBSIZE
  · rw [if_pos c1]
    refine ⟨Or.inl rfl, c1.1, c1.2, ?_⟩
    intro g2 hg2 _ _
    simp only [List.mem_cons, List.mem_singleton, List.not_mem_nil, or_false] at hg2
    rcases hg2 with e | e | e <;> rw [e, hG] <;> (try rw [hM]) <;> (try rw [hP]) <;> omega
  · rw [if_neg c1]
    by_cases c2 : a % MB2SIZE = 0 ∧ stop - a ≥ MB2SIZE
    · rw [if_pos c2]
      refine ⟨Or.inr (Or.inl rfl), c2.1, c2.2, ?_⟩
      intro g2 hg2 h1 h2
      simp only [List.mem_cons, List.mem_singleton, List.not_mem_nil, or_false] at hg2
      rcases hg2 with e | e | e
      · rw [e] at h1 h2
        exact absurd ⟨h1, h2⟩ c1
      · rw [e]
      · rw [e, hM, hP]
        omega
    · rw [if_neg c2]
      refine ⟨Or.inr (Or.inr rfl), ha, by rw [hP] at ha hs ⊢; omega, ?_⟩
      intro g2 hg2 h1 h2
      simp only [List.mem_cons, List.mem_singleton, List.not_mem_nil, or_false] at hg2
      rcases hg2 with e | e | e
      · rw [e] at h1 h2
        exact absurd ⟨h1, h2⟩ c1
      · rw [e] at h1 h2
        exact absurd ⟨h1, h2⟩ c2
      · rw [e]

/-- Every range between two multiples of 4 KiB has a greedy tiling. -/
theorem GreedyTiling_exists (stop : Nat) (hs : stop % PGSIZE = 0) :
    ∀ (n a : Nat), a % PGSIZE = 0 → a ≤ stop → (stop - a) / PGSIZE ≤ n →
      ∃ l, GreedyTiling a stop l := by
  have hP : PGSIZE = 4096 := rfl
  intro n
  induction n with
  | zero =>
    intro a ha hle hn
    refine ⟨[], ?_⟩
    show a = stop
    rw [hP] at ha hs hn
    omega
  | succ n ih =>
    intro a ha hle hn
    by_cases e : a = stop
    · exact ⟨[], e⟩
    · have hg := mappages_step_greedy a stop ha hs (by omega)
      generalize (if a % GBSIZE = 0 ∧ stop - a ≥ GBSIZE then GBSIZE
        else if a % MB2SIZE = 0 ∧ stop - a ≥ MB2SIZE then MB2SIZE else PGSIZE) = g at hg
      obtain ⟨h1, h2, h3, _⟩ := GreedySpan_unit a stop g hg
      obtain ⟨l, hl⟩ := ih (a + g) (by rw [hP] at ha ⊢; omega) (by omega)
        (by rw [hP] at ha hs hn ⊢; omega)
      exact ⟨(a, g) :: l, rfl, hg, hl⟩

/-- The logged loop of `mappages` from the address `a` to the end `stop` of the
request, with fuel for one iteration per page: it ends in the panic "remap", or
with -1, or with 0 and a log that is the greedy tiling of the range. -/
theorem mappages_log_loop_tiling (pagetable perm stop : Nat) (hs : stop % PGSIZE = 0)
    (hstop : stop < 2 ^ 64) :
    ∀ (fuel : Nat) (k : Kernel) (a pa : Nat)
      (res : Except Fault (Kernel × Int × List (Nat × Nat × Nat × Nat))),
      a % PGSIZE = 0 → a < stop → (stop - a) / PGSIZE ≤ fuel →
      mappages_log_loop fuel k pagetable a (stop - PGSIZE) pa perm PGSIZE = res →
      res = .error Fault.mappages_remap ∨ (∃ k1 log, res = .ok (k1, -1, log)) ∨
      (∃ k1 log, res = .ok (k1, 0, log) ∧
        GreedyTiling a stop (log.map (fun w => (w.1, w.2.2.2)))) := by
  have hP : PGSIZE = 4096 := rfl
  have hG : GBSIZE = 1073741824 := by decide
  have hM : MB2SIZE = 2097152 := by decide
  intro fuel
  induction fuel with
  | zero =>
    intro k a pa res ha hlt hf _
    rw [hP] at ha hs hf
    omega
  | succ fuel ih =>
    intro k a pa res ha hlt hf hres
    rw [mappages_log_loop] at hres
    dsimp only at hres
    have hroom : add64 (sub64 (stop - PGSIZE) a) PGSIZE = stop - a := by
      unfold add64 sub64 W64
      rw [hP] at ha hs ⊢
      omega
    rw [hroom] at hres
    have hgreedy := mappages_step_greedy a stop ha hs hlt
    generalize hstep : (if a % GBSIZE = 0 ∧ stop - a ≥ GBSIZE then GBSIZE
      else if a % MB2SIZE = 0 ∧ stop - a ≥ MB2SIZE then MB2SIZE else PGSIZE) = step
      at hres hgreedy
    generalize (if a % GBSIZE = 0 ∧ stop - a ≥ GBSIZE then PTE_PS
      else if a % MB2SIZE = 0 ∧ stop - a ≥ MB2SIZE then PTE_PS else 0) = tag at hres
    generalize walk k pagetable a true = w at hres
    obtain ⟨k1, pte⟩ := w
    dsimp only at hres
    have hstep1 : 4096 ≤ step ∧ step % 4096 = 0 ∧ step ≤ stop - a := by
      refine ⟨?_, ?_, hgreedy.2.2.1⟩
      · rcases hgreedy.1 with e | e | e <;> rw [e] <;> decide
      · rcases hgreedy.1 with e | e | e <;> rw [e] <;> decide
    have hnext : add64 a step = a + step := by
      unfold add64 W64
      omega
    rw [hnext] at hres
    by_cases h0 : pte = 0
    · rw [if_pos h0] at hres
      exact Or.inr (Or.inl ⟨k1, [], hres.symm⟩)
    · rw [if_neg h0] at hres
      by_cases hv : read64 k1.mem pte &&& PTE_V ≠ 0
      · rw [if_pos hv] at hres
        exact Or.inl hres.symm
      · rw [if_neg hv] at hres
        by_cases hl : a + step > stop - PGSIZE
        · -- the last unit
          rw [if_pos hl] at hres
          refine Or.inr (Or.inr ⟨_, _, hres.symm, ?_⟩)
          refine ⟨rfl, hgreedy, ?_⟩
          show a + step = stop
          rw [hP] at ha hs hl
          omega
        · -- the loop goes on
          rw [if_neg hl] at hres
          have hlt2 : a + step < stop := by
            rw [hP] at ha hs hl
            omega
          rcases ih ⟨k1.kernel_end, k1.PHYSTOP, k1.freelist,
              write64 k1.mem pte (PA2PTE pa ||| perm ||| PTE_V ||| tag)⟩
              (a + step) (add64 pa step) _
              (by rw [hP] at ha ⊢; omega) hlt2
              (by rw [hP] at ha hs hf ⊢; omega) rfl
            with e | ⟨k3, log3, e⟩ | ⟨k3, log3, e, ht⟩
          · rw [e] at hres
            exact Or.inl hres.symm
          · rw [e] at hres
            exact Or.inr (Or.inl ⟨_, _, hres.symm⟩)
          · rw [e] at hres
            refine Or.inr (Or.inr ⟨_, _, hres.symm, ?_⟩)
            exact ⟨rfl, hgreedy, ht⟩

/-- In every state a request with aligned arguments that does not wrap ends in one of
three ways: the panic "remap", the result -1, or the result 0 with the greedy tiling
in the log.  The loop never runs out of fuel. -/
theorem mappages_three_exits (k : Kernel) (pagetable va size pa perm : Nat)
    (hva : va % PGSIZE = 0) (hsize : size % PGSIZE = 0) (hpos : 0 < size)
    (hend : va + size < 2 ^ 64) :
    mappages_log k pagetable va size pa perm PGSIZE = .error Fault.mappages_remap ∨
    (∃ k1 log, mappages_log k pagetable va size pa perm PGSIZE = .ok (k1, -1, log)) ∨
    (∃ k1 log, mappages_log k pagetable va size pa perm PGSIZE = .ok (k1, 0, log) ∧
      GreedyTiling va (va + size) (log.map (fun w => (w.1, w.2.2.2)))) := by
  have hP : PGSIZE = 4096 := rfl
  have hlog : mappages_log k pagetable va size pa perm PGSIZE =
      mappages_log_loop (2 * (W64 / PGSIZE) + 1) k pagetable va (va + size - PGSIZE) pa perm
        PGSIZE := by
    unfold mappages_log
    rw [if_neg (fun h => h hva), if_neg (fun h => h hsize), if_neg (by omega)]
    have : sub64 (add64 va size) PGSIZE = va + size - PGSIZE := by
      unfold sub64 add64 W64
      rw [hP] at hva hsize ⊢
      omega
    rw [this]
  exact mappages_log_loop_tiling pagetable perm (va + size)
    (by rw [hP] at hva hsize ⊢; omega) hend (2 * (W64 / PGSIZE) + 1) k va pa _ hva (by omega)
    (by unfold W64; rw [hP]; omega) hlog.symm

/-- The tag the loop of `mappages` puts on a leaf is `PTE_PS` unless the unit is
4 KiB. -/
theorem mappages_tag_of_step (a room : Nat) :
    (if a % GBSIZE = 0 ∧ room ≥ GBSIZE then PTE_PS
      else if a % MB2SIZE = 0 ∧ room ≥ MB2SIZE then PTE_PS else 0) =
    (if (if a % GBSIZE = 0 ∧ room ≥ GBSIZE then GBSIZE
        else if a % MB2SIZE = 0 ∧ room ≥ MB2SIZE then MB2SIZE else PGSIZE) = PGSIZE
      then 0 else PTE_PS) := by
  by_cases c1 : a % GBSIZE = 0 ∧ room ≥ GBSIZE
  · rw [if_pos c1, if_pos c1, if_neg (by decide)]
  · rw [if_neg c1, if_neg c1]
    by_cases c2 : a % MB2SIZE = 0 ∧ room ≥ MB2SIZE
    · rw [if_pos c2, if_pos c2, if_neg (by decide)]
    · rw [if_neg c2, if_neg c2, if_pos rfl]

/-- The logged loop of `mappages` from the address `a` to the end `stop` of the
request, when the side conditions hold along the greedy tiling `tl` of the range and
the fuel covers one iteration per leaf: the loop returns 0 and its log is `tl`. -/
theorem mappages_log_loop_side (pagetable perm stop : Nat) (hs : stop % PGSIZE = 0)
    (hstop : stop < 2 ^ 64) :
    ∀ (tl : List (Nat × Nat)) (fuel : Nat) (k : Kernel) (a pa : Nat),
      a % PGSIZE = 0 → a < stop → tl.length ≤ fuel → GreedyTiling a stop tl →
      SideConditions k pagetable pa perm tl →
      ∃ k1 log, mappages_log_loop fuel k pagetable a (stop - PGSIZE) pa perm PGSIZE
          = .ok (k1, 0, log) ∧
        log.map (fun w => (w.1, w.2.2.2)) = tl := by
  have hP : PGSIZE = 4096 := rfl
  intro tl
  induction tl with
  | nil =>
    intro fuel k a pa _ hlt _ ht _
    have e : a = stop := ht
    omega
  | cons w rest ih =>
    intro fuel k a pa ha hlt hf ht hside
    obtain ⟨f, rfl⟩ : ∃ f, fuel = f + 1 := ⟨fuel - 1, by rw [List.length_cons] at hf; omega⟩
    obtain ⟨hw1, hspan, hrest⟩ := ht
    obtain ⟨hslot, hvalid, hnext⟩ := hside
    rw [hw1] at hslot hvalid hnext
    have hgreedy := mappages_step_greedy a stop ha hs hlt
    have htag := mappages_tag_of_step a (stop - a)
    rw [mappages_log_loop]
    dsimp only
    have hroom : add64 (sub64 (stop - PGSIZE) a) PGSIZE = stop - a := by
      unfold add64 sub64 W64
      rw [hP] at ha hs ⊢
      omega
    rw [hroom, htag]
    generalize (if a % GBSIZE = 0 ∧ stop - a ≥ GBSIZE then GBSIZE
      else if a % MB2SIZE = 0 ∧ stop - a ≥ MB2SIZE then MB2SIZE else PGSIZE) = step
      at hgreedy ⊢
    have eg : w.2 = step := GreedySpan_unique a stop w.2 step hspan hgreedy
    rw [eg] at hnext hrest
    obtain ⟨hstep1, hstep2, hstep3, _⟩ := GreedySpan_unit a stop step hgreedy
    have hnx : add64 a step = a + step := by
      unfold add64 W64
      omega
    rw [hnx]
    unfold install_leaf at hnext
    generalize walk k pagetable a true = wk at hslot hvalid hnext ⊢
    obtain ⟨k1, pte⟩ := wk
    dsimp only at hslot hvalid hnext ⊢
    rw [if_neg hslot, if_neg (fun h => h hvalid)]
    have hwe : w = (a, step) := Prod.ext hw1 eg
    by_cases hl : a + step > stop - PGSIZE
    · -- the last unit
      rw [if_pos hl]
      have hend : a + step = stop := by
        rw [hP] at ha hs hl
        omega
      have hnil : rest = [] := by
        cases rest with
        | nil => rfl
        | cons w2 rest2 =>
          have := GreedySpan_unit (a + step) stop w2.2 hrest.2.1
          omega
      refine ⟨_, _, rfl, ?_⟩
      rw [hnil, hwe]
      rfl
    · -- the loop goes on
      rw [if_neg hl]
      have hlt2 : a + step < stop := by
        rw [hP] at ha hs hl
        omega
      obtain ⟨k3, log3, hrun, hlog⟩ := ih f _ (a + step) (add64 pa step)
        (by rw [hP] at ha ⊢; omega) hlt2
        (by rw [List.length_cons] at hf; omega) hrest hnext
      rw [hrun]
      refine ⟨k3, _, rfl, ?_⟩
      rw [List.map_cons, hlog, hwe]

/-- Claim C21, the greedy tiling is exact and the loop terminates.  Let `va` and
`size` be multiples of 4 KiB, `size > 0` and `va + size < 2^64`, let the smallest unit
be 4 KiB, and let `tiling` be the greedy tiling of the range as the spec words it
(`GreedyTiling`; by `GreedyTiling_exists` and `GreedyTiling_unique` every such range has
exactly one).  Let the side conditions of the claim hold along it (`SideConditions`):
whenever a leaf is due, `walk` can find or allocate the table pages for its address,
and the target slot is not valid already.  (By `side_conditions_of_unmapped` they
follow from the state before the call when nothing is mapped from `va` on, the free
list holds two pages per leaf and the range ends at or below `2^39`.)  Then `mappages` returns 0, within its fuel
and after at most one iteration per page of the request; the leaves it has written,
read from the log, are exactly `tiling`: the first starts at `va`, each has the largest
of the spans 1 GiB, 2 MiB, 4 KiB that divides its start and fits before `va + size`,
each starts where the one before ends, and the last ends at `va + size`, which is the
value of `a` when the loop is left; so the spans add up to `size` and no leaf reaches
beyond `va + size`. -/
theorem mappages_greedy_tiling (k : Kernel) (pagetable va size pa perm : Nat)
    (tiling : List (Nat × Nat))
    (hva : va % PGSIZE = 0) (hsize : size % PGSIZE = 0) (hpos : 0 < size)
    (hend : va + size < 2 ^ 64)
    (htiling : GreedyTiling va (va + size) tiling)
    (hside : SideConditions k pagetable pa perm tiling) :
    ∃ k1 log, mappages k pagetable va size pa perm PGSIZE = .ok (k1, 0) ∧
      mappages_log k pagetable va size pa perm PGSIZE = .ok (k1, 0, log) ∧
      log.map (fun w => (w.1, w.2.2.2)) = tiling ∧
      log.length ≤ size / PGSIZE ∧
      (log.map (fun w => w.2.2.2)).sum = size ∧
      ∀ w ∈ log, va ≤ w.1 ∧ w.1 + w.2.2.2 ≤ va + size := by
  have hP : PGSIZE = 4096 := rfl
  have herase := mappages_log_erase k pagetable va size pa perm PGSIZE
  have hlog : mappages_log k pagetable va size pa perm PGSIZE =
      mappages_log_loop (2 * (W64 / PGSIZE) + 1) k pagetable va (va + size - PGSIZE) pa perm
        PGSIZE := by
    unfold mappages_log
    rw [if_neg (fun h => h hva), if_neg (fun h => h hsize), if_neg (by omega)]
    have : sub64 (add64 va size) PGSIZE = va + size - PGSIZE := by
      unfold sub64 add64 W64
      rw [hP] at hva hsize ⊢
      omega
    rw [this]
  obtain ⟨_, hsum, hlen, hin⟩ := GreedyTiling_sum tiling va (va + size) htiling
  obtain ⟨k1, log, hrun, hmap⟩ := mappages_log_loop_side pagetable perm (va + size)
    (by rw [hP] at hva hsize ⊢; omega) hend tiling (2 * (W64 / PGSIZE) + 1) k va pa hva
    (by omega) (by unfold W64; rw [hP]; omega) htiling hside
  rw [← hlog] at hrun
  have hlen2 : log.length = tiling.length := by
    rw [← hmap, List.length_map]
  refine ⟨k1, log, ?_, hrun, hmap, ?_, ?_, ?_⟩
  · rw [← herase, hrun]
    rfl
  · rw [hlen2, hP]
    omega
  · have e2 : (log.map (fun w => w.2.2.2)) = tiling.map Prod.snd := by
      rw [← hmap, List.map_map]
      rfl
    rw [e2, hsum]
    omega
  · intro w hw
    exact hin (w.1, w.2.2.2) (by rw [← hmap]; exact List.mem_map.mpr ⟨w, hw, rfl⟩)

/-! ## A static condition that gives the side conditions -/

/-- One level of `walk` through a valid slot. -/
theorem walk_loop_valid (level : Nat) (k : Kernel) (pagetable va : Nat)
    (hv : read64 k.mem (pagetable + 8 * PX (level + 1) va) &&& PTE_V ≠ 0) :
    walk_loop (level + 1) k pagetable va true =
      walk_loop level k (PTE2PA (read64 k.mem (pagetable + 8 * PX (level + 1) va))) va true := by
  rw [walk_loop]
  dsimp only
  rw [if_pos hv]

/-- One level of `walk` with allocation through a slot that is not valid, when the
free list is not empty: the head of the list becomes the table, zeroed and linked. -/
theorem walk_loop_alloc (level : Nat) (k : Kernel) (pagetable va : Nat)
    (hv : read64 k.mem (pagetable + 8 * PX (level + 1) va) &&& PTE_V = 0)
    (hf : k.freelist ≠ 0) :
    walk_loop (level + 1) k pagetable va true =
      walk_loop level
        ⟨k.kernel_end, k.PHYSTOP, read64 k.mem k.freelist,
          write64 (memset (memset k.mem k.freelist 5 PGSIZE) k.freelist 0 PGSIZE)
            (pagetable + 8 * PX (level + 1) va) (PA2PTE k.freelist ||| PTE_V)⟩
        k.freelist va true := by
  rw [walk_loop]
  dsimp only
  rw [if_neg (fun h => h hv)]
  simp only [Bool.true_eq_false, if_false]
  rw [kalloc_eq k hf]
  dsimp only
  rw [if_neg hf]

/-- The state after `walk` has allocated a table for the slot `idx` of the table `pg`:
the allocator invariant holds with the new table in use, the new table is zero, the
slot names it, and no other byte has changed. -/
theorem alloc_table (kend phystop : Nat) (k : Kernel) (live l2 : List Nat) (p pg idx : Nat)
    (hphys : phystop ≤ 2 ^ 64) (hinv : AllocInv kend phystop k live (p :: l2)) (hpg : pg ∈ live) (hidx : idx < 512) :
    AllocInv kend phystop
      ⟨k.kernel_end, k.PHYSTOP, read64 k.mem p,
        write64 (memset (memset k.mem p 5 PGSIZE) p 0 PGSIZE) (pg + 8 * idx)
          (PA2PTE p ||| PTE_V)⟩ (p :: live) l2 ∧
    (∀ x, (x < p ∨ p + PGSIZE ≤ x) → (x < pg + 8 * idx ∨ pg + 8 * idx + 8 ≤ x) →
      write64 (memset (memset k.mem p 5 PGSIZE) p 0 PGSIZE) (pg + 8 * idx)
        (PA2PTE p ||| PTE_V) x = k.mem x) ∧
    (∀ i, i < 512 →
      read64 (write64 (memset (memset k.mem p 5 PGSIZE) p 0 PGSIZE) (pg + 8 * idx)
        (PA2PTE p ||| PTE_V)) (p + 8 * i) = 0) ∧
    read64 (write64 (memset (memset k.mem p 5 PGSIZE) p 0 PGSIZE) (pg + 8 * idx)
        (PA2PTE p ||| PTE_V)) (pg + 8 * idx) = PA2PTE p ||| PTE_V ∧
    PTE2PA (PA2PTE p ||| PTE_V) = p ∧ p ∉ live ∧ k.freelist = p ∧ p ≠ 0 := by
  have hP : PGSIZE = 4096 := rfl
  obtain ⟨e1, hp0, hc⟩ := hinv.chain
  have hr := hinv.range p (List.mem_cons_self _ _)
  have hrg := hinv.live_range pg hpg
  have hpl : p ∉ live := fun h => hinv.disjoint p h (List.mem_cons_self _ _)
  have hne : pg ≠ p := fun e => hpl (e ▸ hpg)
  have hap := page_apart pg p hrg.2.1 hr.1 hne
  have hfr : ∀ x, (x < p ∨ p + PGSIZE ≤ x) → (x < pg + 8 * idx ∨ pg + 8 * idx + 8 ≤ x) →
      write64 (memset (memset k.mem p 5 PGSIZE) p 0 PGSIZE) (pg + 8 * idx)
        (PA2PTE p ||| PTE_V) x = k.mem x := by
    intro x h1 h2
    rw [write64_other _ _ _ _ (by omega), memset_other _ _ _ _ _ (by omega),
      memset_other _ _ _ _ _ (by omega)]
  refine ⟨?_, hfr, ?_, ?_, ?_, hpl, e1, hp0⟩
  · have hnd := List.nodup_cons.mp hinv.nodup
    refine ⟨hinv.hend, hinv.htop, ?_, hnd.2, ?_, ?_, ?_, ?_⟩
    · refine FreeChain_congr k.mem _ l2 _ ?_ hc
      intro q hq i hi
      have hq1 := hinv.range q (List.mem_cons_of_mem _ hq)
      have hqp : q ≠ p := fun e => hnd.1 (e ▸ hq)
      have hqg : q ≠ pg := fun e => hinv.disjoint pg hpg (e ▸ List.mem_cons_of_mem _ hq)
      have a1 := page_apart q p hq1.1 hr.1 hqp
      have a2 := page_apart q pg hq1.1 hrg.2.1 hqg
      exact hfr (q + i) (by omega) (by omega)
    · intro q hq
      exact hinv.range q (List.mem_cons_of_mem _ hq)
    · exact List.nodup_cons.mpr ⟨hpl, hinv.live_nodup⟩
    · intro q hq
      rcases List.mem_cons.mp hq with e | hq
      · rw [e]
        exact ⟨hp0, hr⟩
      · exact hinv.live_range q hq
    · intro q hq hq2
      rcases List.mem_cons.mp hq with e | hq
      · exact hnd.1 (e ▸ hq2)
      · exact hinv.disjoint q hq (List.mem_cons_of_mem _ hq2)
  · intro i hi
    rw [read64_write64_other _ _ _ _ (by omega), read64_memset_zero _ _ _ _ (by omega)]
  · exact read64_write64 _ _ _ (interior_entry_lt p)
  · exact interior_entry_pa p hr.1 (by omega)

/-- The last level of `walk` with allocation from a level-1 table `p1` whose slots
above the one of `a` are not valid and whose slot of `a` is either not valid or names
a page in use with no valid slot from the one of `a` on: with one free page the walk
returns the slot of `a` in a level-0 table `p0`, the allocator invariant still holds,
no byte of another page in use has changed, and `p0` has no valid slot from the one of
`a` on. -/
theorem walk_level1 (kend phystop : Nat) (k : Kernel) (live l : List Nat) (pt p1 a : Nat)
    (hphys : phystop ≤ 2 ^ 64) (hinv : AllocInv kend phystop k live l) (hpt : pt ∈ live)
    (hp1 : p1 ∈ live) (hl : 1 ≤ l.length)
    (habove : ∀ i, PX 1 a < i → i < 512 → read64 k.mem (p1 + 8 * i) &&& PTE_V = 0)
    (hchild : read64 k.mem (p1 + 8 * PX 1 a) &&& PTE_V ≠ 0 →
      PTE2PA (read64 k.mem (p1 + 8 * PX 1 a)) ∈ live ∧
      PTE2PA (read64 k.mem (p1 + 8 * PX 1 a)) ≠ pt ∧
      PTE2PA (read64 k.mem (p1 + 8 * PX 1 a)) ≠ p1 ∧
      ∀ i, PX 0 a ≤ i → i < 512 →
        read64 k.mem (PTE2PA (read64 k.mem (p1 + 8 * PX 1 a)) + 8 * i) &&& PTE_V = 0) :
    ∃ kB p0 live2 l2, walk_loop 1 k p1 a true = (kB, p0 + 8 * PX 0 a) ∧
      AllocInv kend phystop kB live2 l2 ∧ l.length ≤ l2.length + 1 ∧
      (∀ q ∈ live, q ∈ live2) ∧ p0 ∈ live2 ∧ p0 ≠ pt ∧ p0 ≠ p1 ∧
      (∀ q ∈ live, q ≠ p1 → ∀ x, q ≤ x → x < q + PGSIZE → kB.mem x = k.mem x) ∧
      (∀ i, PX 1 a < i → i < 512 → read64 kB.mem (p1 + 8 * i) &&& PTE_V = 0) ∧
      read64 kB.mem (p1 + 8 * PX 1 a) &&& PTE_V ≠ 0 ∧
      PTE2PA (read64 kB.mem (p1 + 8 * PX 1 a)) = p0 ∧
      (∀ i, PX 0 a ≤ i → i < 512 → read64 kB.mem (p0 + 8 * i) &&& PTE_V = 0) := by
  have hP : PGSIZE = 4096 := rfl
  have hx1 := PX_lt 1 a
  by_cases hv : read64 k.mem (p1 + 8 * PX 1 a) &&& PTE_V ≠ 0
  · -- the level-0 table is there
    obtain ⟨c1, c2, c3, c4⟩ := hchild hv
    refine ⟨k, PTE2PA (read64 k.mem (p1 + 8 * PX 1 a)), live, l, ?_, hinv, by omega,
      fun q hq => hq, c1, c2, c3, fun _ _ _ _ _ _ => rfl, habove, hv, rfl, c4⟩
    rw [show (1 : Nat) = 0 + 1 from rfl, walk_loop_valid 0 k p1 a hv]
    rfl
  · -- the level-0 table is allocated
    have hv0 : read64 k.mem (p1 + 8 * PX 1 a) &&& PTE_V = 0 := not_not.mp hv
    match l, hinv, hl with
    | [], _, hl => simp at hl
    | p :: l2, hinv, _ =>
      obtain ⟨hinv2, hfr, hzero, hslot, hpa, hpl, hfl, hp0⟩ :=
        alloc_table kend phystop k live l2 p p1 (PX 1 a) hphys hinv hp1 hx1
      have hr := hinv.range p (List.mem_cons_self _ _)
      have hr1 := hinv.live_range p1 hp1
      have hap1 := page_apart p1 p hr1.2.1 hr.1 (fun e => hpl (e ▸ hp1))
      refine ⟨_, p, p :: live, l2, ?_, hinv2, by simp, fun q hq => List.mem_cons_of_mem _ hq,
        List.mem_cons_self _ _, fun e => hpl (e ▸ hpt), fun e => hpl (e ▸ hp1), ?_, ?_, ?_, ?_,
        ?_⟩
      · rw [show (1 : Nat) = 0 + 1 from rfl, walk_loop_alloc 0 k p1 a hv0 (by rw [hfl]; exact hp0),
          hfl]
        rfl
      · intro q hq hq1 x h1 h2
        have hrq := hinv.live_range q hq
        have a1 := page_apart q p hrq.2.1 hr.1 (fun e => hpl (e ▸ hq))
        have a2 := page_apart q p1 hrq.2.1 hr1.2.1 hq1
        exact hfr x (by omega) (by omega)
      · intro i h1 h2
        have : read64 (write64 (memset (memset k.mem p 5 PGSIZE) p 0 PGSIZE) (p1 + 8 * PX 1 a)
            (PA2PTE p ||| PTE_V)) (p1 + 8 * i) = read64 k.mem (p1 + 8 * i) := by
          apply read64_congr
          intro j hj
          exact hfr _ (by omega) (by omega)
        show read64 (write64 (memset (memset k.mem p 5 PGSIZE) p 0 PGSIZE) (p1 + 8 * PX 1 a)
            (PA2PTE p ||| PTE_V)) (p1 + 8 * i) &&& PTE_V = 0
        rw [this]
        exact habove i h1 h2
      · show read64 (write64 (memset (memset k.mem p 5 PGSIZE) p 0 PGSIZE) (p1 + 8 * PX 1 a)
            (PA2PTE p ||| PTE_V)) (p1 + 8 * PX 1 a) &&& PTE_V ≠ 0
        rw [hslot]
        exact interior_entry_valid p
      · show PTE2PA (read64 (write64 (memset (memset k.mem p 5 PGSIZE) p 0 PGSIZE)
            (p1 + 8 * PX 1 a) (PA2PTE p ||| PTE_V)) (p1 + 8 * PX 1 a)) = p
        rw [hslot]
        exact hpa
      · intro i _ h2
        show read64 (write64 (memset (memset k.mem p 5 PGSIZE) p 0 PGSIZE) (p1 + 8 * PX 1 a)
            (PA2PTE p ||| PTE_V)) (p + 8 * i) &&& PTE_V = 0
        rw [hzero i h2]
        rfl

/-- The walk with allocation for an address from which on nothing is mapped, with
two free pages: it returns the slot of `a` in a level-0 table `p0` below a level-1
table `p1`, both distinct pages in use, the allocator invariant still holds, and in
the three tables on the way no slot above the one of `a` is valid, nor the slot of
`a` in `p0`. -/
theorem walk_reaches (kend phystop : Nat) (k : Kernel) (live l : List Nat) (pt a : Nat)
    (hphys : phystop ≤ 2 ^ 64) (hinv : AllocInv kend phystop k live l) (hpt : pt ∈ live)
    (hl : 2 ≤ l.length) (hun : UnmappedFrom k pt live a) :
    ∃ kB p1 p0 live2 l2, walk k pt a true = (kB, p0 + 8 * PX 0 a) ∧
      AllocInv kend phystop kB live2 l2 ∧ l.length ≤ l2.length + 2 ∧
      pt ∈ live2 ∧ p1 ∈ live2 ∧ p0 ∈ live2 ∧ p1 ≠ pt ∧ p0 ≠ pt ∧ p0 ≠ p1 ∧
      (∀ i, PX 2 a < i → i < 512 → read64 kB.mem (pt + 8 * i) &&& PTE_V = 0) ∧
      read64 kB.mem (pt + 8 * PX 2 a) &&& PTE_V ≠ 0 ∧
      PTE2PA (read64 kB.mem (pt + 8 * PX 2 a)) = p1 ∧
      (∀ i, PX 1 a < i → i < 512 → read64 kB.mem (p1 + 8 * i) &&& PTE_V = 0) ∧
      read64 kB.mem (p1 + 8 * PX 1 a) &&& PTE_V ≠ 0 ∧
      PTE2PA (read64 kB.mem (p1 + 8 * PX 1 a)) = p0 ∧
      (∀ i, PX 0 a ≤ i → i < 512 → read64 kB.mem (p0 + 8 * i) &&& PTE_V = 0) := by
  have hP : PGSIZE = 4096 := rfl
  have hx2 := PX_lt 2 a
  obtain ⟨hroot, hsub⟩ := hun
  unfold walk
  by_cases hv : read64 k.mem (pt + 8 * PX 2 a) &&& PTE_V ≠ 0
  · -- the level-1 table is there
    obtain ⟨c1, c2, c3, c4⟩ := hsub hv
    obtain ⟨kB, p0, live2, l2, hw, hinv2, hlen, hsubset, hp0, hp0t, hp01, hfr, f4, f5, f6, f7⟩ :=
      walk_level1 kend phystop k live l pt _ a hphys hinv hpt c1 (by omega) c3 c4
    have hrd : ∀ i, i < 512 → read64 kB.mem (pt + 8 * i) = read64 k.mem (pt + 8 * i) := by
      intro i hi
      apply read64_congr
      intro j hj
      exact hfr pt hpt (fun e => c2 e.symm) _ (by omega) (by rw [hP]; omega)
    refine ⟨kB, _, p0, live2, l2, ?_, hinv2, by omega, hsubset pt hpt, hsubset _ c1, hp0, c2,
      hp0t, hp01, ?_, ?_, ?_, f4, f5, f6, f7⟩
    · rw [show (2 : Nat) = 1 + 1 from rfl, walk_loop_valid 1 k pt a hv]
      exact hw
    · intro i h1 h2
      rw [hrd i h2]
      exact hroot i h1 h2
    · rw [hrd _ hx2]
      exact hv
    · rw [hrd _ hx2]
  · -- the level-1 table is allocated
    have hv0 : read64 k.mem (pt + 8 * PX 2 a) &&& PTE_V = 0 := not_not.mp hv
    match l, hinv, hl with
    | [], _, hl => simp at hl
    | p :: l1, hinv, hl =>
      obtain ⟨hinvA, hfrA, hzero, hslot, hpa, hpl, hfl, hp0⟩ :=
        alloc_table kend phystop k live l1 p pt (PX 2 a) hphys hinv hpt hx2
      have hr := hinv.range p (List.mem_cons_self _ _)
      have hrt := hinv.live_range pt hpt
      have hpt_p : pt ≠ p := fun e => hpl (e ▸ hpt)
      have hap := page_apart pt p hrt.2.1 hr.1 hpt_p
      obtain ⟨kB, p0, live2, l2, hw, hinv2, hlen, hsubset, hp0m, hp0t, hp01, hfr, f4, f5, f6,
          f7⟩ :=
        walk_level1 kend phystop
          ⟨k.kernel_end, k.PHYSTOP, read64 k.mem p,
            write64 (memset (memset k.mem p 5 PGSIZE) p 0 PGSIZE) (pt + 8 * PX 2 a)
              (PA2PTE p ||| PTE_V)⟩
          (p :: live) l1 pt p a hphys hinvA (List.mem_cons_of_mem _ hpt)
          (List.mem_cons_self _ _) (by simp only [List.length_cons] at hl; omega)
          (by
            intro i _ h2
            show read64 (write64 (memset (memset k.mem p 5 PGSIZE) p 0 PGSIZE)
              (pt + 8 * PX 2 a) (PA2PTE p ||| PTE_V)) (p + 8 * i) &&& PTE_V = 0
            rw [hzero i h2]
            rfl)
          (by
            intro h
            exfalso
            apply h
            show read64 (write64 (memset (memset k.mem p 5 PGSIZE) p 0 PGSIZE)
              (pt + 8 * PX 2 a) (PA2PTE p ||| PTE_V)) (p + 8 * PX 1 a) &&& PTE_V = 0
            rw [hzero _ (PX_lt 1 a)]
            rfl)
      have hrd : ∀ i, i < 512 → read64 kB.mem (pt + 8 * i) =
          read64 (write64 (memset (memset k.mem p 5 PGSIZE) p 0 PGSIZE) (pt + 8 * PX 2 a)
            (PA2PTE p ||| PTE_V)) (pt + 8 * i) := by
        intro i hi
        apply read64_congr
        intro j hj
        exact hfr pt (List.mem_cons_of_mem _ hpt) hpt_p _ (by omega) (by rw [hP]; omega)
      refine ⟨kB, p, p0, live2, l2, ?_, hinv2, by simp only [List.length_cons] at hlen ⊢; omega,
        hsubset pt (List.mem_cons_of_mem _ hpt), hsubset p (List.mem_cons_self _ _), hp0m,
        fun e => hpt_p e.symm, hp0t, hp01, ?_, ?_, ?_, f4, f5, f6, f7⟩
      · rw [show (2 : Nat) = 1 + 1 from rfl,
          walk_loop_alloc 1 k pt a hv0 (by rw [hfl]; exact hp0), hfl]
        exact hw
      · intro i h1 h2
        rw [hrd i h2]
        have : read64 (write64 (memset (memset k.mem p 5 PGSIZE) p 0 PGSIZE) (pt + 8 * PX 2 a)
            (PA2PTE p ||| PTE_V)) (pt + 8 * i) = read64 k.mem (pt + 8 * i) := by
          apply read64_congr
          intro j hj
          exact hfrA _ (by omega) (by omega)
        rw [this]
        exact hroot i h1 h2
      · rw [hrd _ hx2, hslot]
        exact interior_entry_valid p
      · rw [hrd _ hx2, hslot]
        exact hpa

/-- Installing a leaf at an address from which on nothing is mapped, with two free
pages: `walk` returns a slot, the slot is not valid, the allocator invariant holds
afterwards with at most two pages taken from the free list, and nothing is mapped
from any address on whose table indices come after those of `a`. -/
theorem install_leaf_unmapped (kend phystop : Nat) (k : Kernel) (live l : List Nat)
    (pt a pa perm g : Nat) (hphys : phystop ≤ 2 ^ 64) (hinv : AllocInv kend phystop k live l)
    (hpt : pt ∈ live) (hl : 2 ≤ l.length) (hun : UnmappedFrom k pt live a) :
    (walk k pt a true).2 ≠ 0 ∧
    read64 (walk k pt a true).1.mem (walk k pt a true).2 &&& PTE_V = 0 ∧
    ∃ live2 l2, AllocInv kend phystop (install_leaf k pt a pa perm g) live2 l2 ∧ pt ∈ live2 ∧
      l.length ≤ l2.length + 2 ∧
      ∀ a2, (PX 2 a < PX 2 a2 ∨ (PX 2 a = PX 2 a2 ∧ PX 1 a < PX 1 a2) ∨
          (PX 2 a = PX 2 a2 ∧ PX 1 a = PX 1 a2 ∧ PX 0 a < PX 0 a2)) →
        UnmappedFrom (install_leaf k pt a pa perm g) pt live2 a2 := by
  have hP : PGSIZE = 4096 := rfl
  obtain ⟨kB, p1, p0, live2, l2, hw, hinv2, hlen, hptm, hp1m, hp0m, h1t, h0t, h01, f1, f2, f3,
    f4, f5, f6, f7⟩ := walk_reaches kend phystop k live l pt a hphys hinv hpt hl hun
  have hx0 := PX_lt 0 a
  have hrt := hinv2.live_range pt hptm
  have hr1 := hinv2.live_range p1 hp1m
  have hr0 := hinv2.live_range p0 hp0m
  have at0 := page_apart pt p0 hrt.2.1 hr0.2.1 (fun e => h0t e.symm)
  have a10 := page_apart p1 p0 hr1.2.1 hr0.2.1 (fun e => h01 e.symm)
  unfold install_leaf
  rw [hw]
  dsimp only
  refine ⟨by have := hr0.1; omega, f7 _ (le_refl _) hx0, live2, l2, ?_, hptm, hlen, ?_⟩
  · have := store64_keeps kend phystop kB live2 l2 p0 (8 * PX 0 a)
      (PA2PTE pa ||| perm ||| PTE_V ||| if g = PGSIZE then 0 else PTE_PS) hinv2 hp0m
      (by rw [hP]; omega)
    exact this
  · generalize (PA2PTE pa ||| perm ||| PTE_V ||| if g = PGSIZE then 0 else PTE_PS) = e
    have eR : ∀ i, i < 512 → read64 (write64 kB.mem (p0 + 8 * PX 0 a) e) (pt + 8 * i) =
        read64 kB.mem (pt + 8 * i) :=
      fun i hi => read64_write64_other _ _ _ _ (by omega)
    have e1 : ∀ i, i < 512 → read64 (write64 kB.mem (p0 + 8 * PX 0 a) e) (p1 + 8 * i) =
        read64 kB.mem (p1 + 8 * i) :=
      fun i hi => read64_write64_other _ _ _ _ (by omega)
    have e0 : ∀ i, i < 512 → i ≠ PX 0 a →
        read64 (write64 kB.mem (p0 + 8 * PX 0 a) e) (p0 + 8 * i) = read64 kB.mem (p0 + 8 * i) :=
      fun i hi hne => read64_write64_other _ _ _ _ (by omega)
    intro a2 hlex
    have hy2 := PX_lt 2 a2
    have hy1 := PX_lt 1 a2
    have hy0 := PX_lt 0 a2
    unfold UnmappedFrom
    dsimp only
    refine ⟨?_, ?_⟩
    · intro i h1 h2
      rw [eR i h2]
      exact f1 i (by omega) h2
    · rw [eR _ hy2]
      intro hv
      rcases hlex with h | h | h
      · exact absurd (f1 _ h hy2) hv
      · rw [← h.1, f3]
        refine ⟨hp1m, h1t, ?_, ?_⟩
        · intro i h1 h2
          rw [e1 i h2]
          exact f4 i (by omega) h2
        · rw [e1 _ hy1]
          intro hv1
          exact absurd (f4 _ h.2 hy1) hv1
      · rw [← h.1, f3]
        refine ⟨hp1m, h1t, ?_, ?_⟩
        · intro i h1 h2
          rw [e1 i h2]
          exact f4 i (by omega) h2
        · rw [e1 _ hy1, ← h.2.1, f6]
          intro _
          refine ⟨hp0m, h0t, h01, ?_⟩
          intro i h1 h2
          rw [e0 i h2 (by omega)]
          exact f7 i (by omega) h2

/-- The table index `PX` in arithmetic. -/
theorem PX_eq (level va : Nat) : PX level va = va / 2 ^ (12 + 9 * level) % 512 := by
  unfold PX
  rw [Nat.shiftRight_eq_div_pow]
  exact Nat.and_pow_two_sub_one_eq_mod _ 9

/-- Below `2^39` the table indices of a larger page-aligned address come after those
of a smaller one. -/
theorem PX_lex (a a2 : Nat) (ha : a % PGSIZE = 0) (ha2 : a2 % PGSIZE = 0) (hlt : a < a2)
    (hmax : a2 < 2 ^ 39) :
    PX 2 a < PX 2 a2 ∨ (PX 2 a = PX 2 a2 ∧ PX 1 a < PX 1 a2) ∨
      (PX 2 a = PX 2 a2 ∧ PX 1 a = PX 1 a2 ∧ PX 0 a < PX 0 a2) := by
  have hP : PGSIZE = 4096 := rfl
  rw [PX_eq, PX_eq, PX_eq, PX_eq, PX_eq, PX_eq]
  norm_num
  rw [hP] at ha ha2
  omega

/-- A static condition for the side conditions of the claim.  Let the allocator
invariant hold, with the top table among the pages in use and two free pages for
every leaf of the tiling; let nothing be mapped from `a` on (`UnmappedFrom`; an empty
top table is one case); and let the range end at or below `2^39`, the addresses the
three levels tell apart.  Then the side conditions hold along the greedy tiling of
the range, for every physical address and permission. -/
theorem side_conditions_of_unmapped (kend phystop pt perm stop : Nat) (hphys : phystop ≤ 2 ^ 64)
    (hstop : stop ≤ 2 ^ 39) :
    ∀ (tl : List (Nat × Nat)) (k : Kernel) (live l : List Nat) (a pa : Nat),
      AllocInv kend phystop k live l → pt ∈ live → 2 * tl.length ≤ l.length →
      a % PGSIZE = 0 → GreedyTiling a stop tl → UnmappedFrom k pt live a →
      SideConditions k pt pa perm tl := by
  have hP : PGSIZE = 4096 := rfl
  intro tl
  induction tl with
  | nil => intro k live l a pa _ _ _ _ _ _; trivial
  | cons w rest ih =>
    intro k live l a pa hinv hpt hfree ha ht hun
    obtain ⟨hw1, hspan, hrest⟩ := ht
    rw [List.length_cons] at hfree
    obtain ⟨hslot, hvalid, live2, l2, hinv2, hpt2, hlen, hnext⟩ :=
      install_leaf_unmapped kend phystop k live l pt a pa perm w.2 hphys hinv hpt (by omega) hun
    obtain ⟨hg1, hg2, hg3, _⟩ := GreedySpan_unit a stop w.2 hspan
    show (walk k pt w.1 true).2 ≠ 0 ∧
      read64 (walk k pt w.1 true).1.mem (walk k pt w.1 true).2 &&& PTE_V = 0 ∧
      SideConditions (install_leaf k pt w.1 pa perm w.2) pt (add64 pa w.2) perm rest
    rw [hw1]
    refine ⟨hslot, hvalid, ?_⟩
    cases rest with
    | nil => trivial
    | cons w2 rest2 =>
      have hg := GreedySpan_unit (a + w.2) stop w2.2 hrest.2.1
      have ha2 : (a + w.2) % PGSIZE = 0 := by
        rw [hP] at ha ⊢
        omega
      exact ih (install_leaf k pt a pa perm w.2) live2 l2 (a + w.2) (add64 pa w.2) hinv2 hpt2
        (by omega) ha2 hrest
        (hnext (a + w.2) (PX_lex a (a + w.2) ha ha2 (by omega) (by omega)))

/-- From no address on is anything mapped in an empty top table. -/
theorem UnmappedFrom_of_empty (k : Kernel) (pt : Nat) (live : List Nat) (a : Nat)
    (h : EmptyTable k.mem pt) : UnmappedFrom k pt live a :=
  ⟨fun i _ hi => h i hi, fun hv => absurd (h _ (PX_lt 2 a)) hv⟩

/-- The greedy tiling of the request of 4 KiB + 1 GiB + 2 MiB + 4 KiB from the virtual
address 1 GiB - 4 KiB. -/
theorem tiling_base_tiling :
    GreedyTiling (GBSIZE - PGSIZE) (GBSIZE - PGSIZE + (PGSIZE + GBSIZE + MB2SIZE + PGSIZE))
      [(GBSIZE - PGSIZE, PGSIZE), (GBSIZE, GBSIZE), (2 * GBSIZE, MB2SIZE),
        (2 * GBSIZE + MB2SIZE, PGSIZE)] := by
  unfold GreedyTiling GreedyTiling GreedyTiling GreedyTiling GreedyTiling GreedySpan
  decide

/-- The allocator invariant on the machine `tiling_base`: the top table is in use and
eight pages are free. -/
theorem tiling_base_inv : AllocInv 0x80000000 0x80009000 tiling_base.1 [0x80008000]
    [0x80007000, 0x80006000, 0x80005000, 0x80004000, 0x80003000, 0x80002000, 0x80001000,
      0x80000000] :=
  ⟨by decide!, by decide!,
    ⟨by decide!, by decide, by decide!, by decide, by decide!, by decide, by decide!, by decide,
      by decide!, by decide, by decide!, by decide, by decide!, by decide, by decide!, by decide,
      (by decide! : read64 tiling_base.1.mem 0x80000000 = 0)⟩,
    by decide, by decide, by decide, by decide, by decide⟩

/-- The top table of the machine `tiling_base` is empty. -/
theorem tiling_base_empty : EmptyTable tiling_base.1.mem tiling_base.2 := by
  unfold EmptyTable
  decide!

/-- The side conditions hold along that tiling on the machine `tiling_base`, by the
static condition: the top table is empty, eight pages are free for four leaves, and
the range ends below `2^39`. -/
theorem tiling_base_side :
    SideConditions tiling_base.1 tiling_base.2 0x3ffff000 (PTE_R ||| PTE_W)
      [(GBSIZE - PGSIZE, PGSIZE), (GBSIZE, GBSIZE), (2 * GBSIZE, MB2SIZE),
        (2 * GBSIZE + MB2SIZE, PGSIZE)] :=
  side_conditions_of_unmapped 0x80000000 0x80009000 tiling_base.2 (PTE_R ||| PTE_W)
    (GBSIZE - PGSIZE + (PGSIZE + GBSIZE + MB2SIZE + PGSIZE)) (by norm_num)
    (by norm_num [GBSIZE, MB2SIZE, PGSIZE]) _ tiling_base.1 [0x80008000]
    [0x80007000, 0x80006000, 0x80005000, 0x80004000, 0x80003000, 0x80002000, 0x80001000,
      0x80000000] (GBSIZE - PGSIZE) 0x3ffff000 tiling_base_inv (by decide!) (by decide)
    (by decide) tiling_base_tiling
    (UnmappedFrom_of_empty _ _ _ _ tiling_base_empty)

/-- The theorem `mappages_greedy_tiling` applies to the request of
4 KiB + 1 GiB + 2 MiB + 4 KiB from the virtual address 1 GiB - 4 KiB on the machine
`tiling_base`: the call returns 0 and writes four leaves, of 4 KiB, 1 GiB, 2 MiB and
4 KiB. -/
theorem mappages_greedy_tiling_witness :
    ((GBSIZE - PGSIZE) % PGSIZE = 0 ∧ (PGSIZE + GBSIZE + MB2SIZE + PGSIZE) % PGSIZE = 0 ∧
      0 < PGSIZE + GBSIZE + MB2SIZE + PGSIZE ∧
      GBSIZE - PGSIZE + (PGSIZE + GBSIZE + MB2SIZE + PGSIZE) < 2 ^ 64 ∧
      GreedyTiling (GBSIZE - PGSIZE) (GBSIZE - PGSIZE + (PGSIZE + GBSIZE + MB2SIZE + PGSIZE))
        [(GBSIZE - PGSIZE, PGSIZE), (GBSIZE, GBSIZE), (2 * GBSIZE, MB2SIZE),
          (2 * GBSIZE + MB2SIZE, PGSIZE)] ∧
      SideConditions tiling_base.1 tiling_base.2 0x3ffff000 (PTE_R ||| PTE_W)
        [(GBSIZE - PGSIZE, PGSIZE), (GBSIZE, GBSIZE), (2 * GBSIZE, MB2SIZE),
          (2 * GBSIZE + MB2SIZE, PGSIZE)]) ∧
    ∃ k1 log, mappages tiling_base.1 tiling_base.2 (GBSIZE - PGSIZE)
        (PGSIZE + GBSIZE + MB2SIZE + PGSIZE) 0x3ffff000 (PTE_R ||| PTE_W) PGSIZE = .ok (k1, 0) ∧
      mappages_log tiling_base.1 tiling_base.2 (GBSIZE - PGSIZE)
        (PGSIZE + GBSIZE + MB2SIZE + PGSIZE) 0x3ffff000 (PTE_R ||| PTE_W) PGSIZE
        = .ok (k1, 0, log) ∧
      log.map (fun w => (w.1, w.2.2.2)) =
        [(GBSIZE - PGSIZE, PGSIZE), (GBSIZE, GBSIZE), (2 * GBSIZE, MB2SIZE),
          (2 * GBSIZE + MB2SIZE, PGSIZE)] ∧
      log.length ≤ (PGSIZE + GBSIZE + MB2SIZE + PGSIZE) / PGSIZE ∧
      (log.map (fun w => w.2.2.2)).sum = PGSIZE + GBSIZE + MB2SIZE + PGSIZE ∧
      ∀ w ∈ log, GBSIZE - PGSIZE ≤ w.1 ∧
        w.1 + w.2.2.2 ≤ GBSIZE - PGSIZE + (PGSIZE + GBSIZE + MB2SIZE + PGSIZE) :=
  ⟨⟨by decide, by decide, by decide, by norm_num [GBSIZE, MB2SIZE, PGSIZE],
      tiling_base_tiling, tiling_base_side⟩,
    mappages_greedy_tiling tiling_base.1 tiling_base.2 (GBSIZE - PGSIZE)
      (PGSIZE + GBSIZE + MB2SIZE + PGSIZE) 0x3ffff000 (PTE_R ||| PTE_W) _
      (by decide) (by decide) (by decide) (by norm_num [GBSIZE, MB2SIZE, PGSIZE])
      tiling_base_tiling tiling_base_side⟩

end XV6
